import Mathlib

/-!
Verification of the OKR tracker's hierarchical store engine.

The definitions below are a shallow embedding of the zustand store
(`useOKRStore`): the node map is modelled as an association list with
JavaScript object semantics (`mfind` is first-match lookup, `minsert`
replaces in place or appends, `merase` removes a key), JavaScript numbers
are modelled as rationals, and the two unbounded recursions of the source
(`calculateProgress` walking down `children` and
`recalculateProgressUpwards` walking up `parentId`) take an explicit fuel
argument; the store operations instantiate the fuel with `length + 1`,
which is sufficient whenever the structure is acyclic, matching the
source's reliance on invariant-by-construction acyclicity.
JavaScript string truthiness (`s || undefined`, `if (s)`) is modelled by
`optT`, which collapses the empty string to `none`; number truthiness of
`timerStartedAt` is modelled by `timerRunning`.  The nondeterministic
`generateId()` and `Date.now()` become explicit parameters `freshId` /
`now` of the operations.
-/

set_option maxHeartbeats 1000000

namespace OKR

inductive NodeType where
  | goal
  | strategy
  | objective
  | key_result
  | initiative
  | task
deriving DecidableEq

/-- The `Node` record from `src/types/index.ts`.  Optional TypeScript
fields become `Option`; `number` becomes `ℚ`. -/
structure Node where
  id : String
  type : NodeType
  title : String
  description : Option String
  progress : ℚ
  children : List String
  parentId : Option String
  createdAt : ℚ
  timeSpent : ℚ
  timerStartedAt : Option ℚ
  lastSessionTime : Option ℚ
  isExpanded : Bool
  rating : Option ℚ
  geminiScore : Option ℚ
  geminiAnalysis : Option String
deriving DecidableEq

/-- The node map `Record<string, Node>`, as an association list in key
insertion order. -/
abbrev NMap := List (String × Node)

/-- The persisted part of the store: `{ nodes, rootIds }`. -/
@[ext]
structure Store where
  nodes : NMap
  rootIds : List String
deriving DecidableEq

/-- JavaScript string truthiness: `undefined` and `""` are falsy, so
`parentId || undefined` and `if (parentId)` both see `some ""` as `none`. -/
def optT : Option String → Option String
  | none => none
  | some s => if s = "" then none else some s

/-- First-match lookup, the semantics of `nodes[k]`. -/
def mfind : NMap → String → Option Node
  | [], _ => none
  | e :: es, k => if e.1 = k then some e.2 else mfind es k

/-- `{ ...nodes, [k]: v }`: replace the entry in place if the key is
present, otherwise append it. -/
def minsert (m : NMap) (k : String) (v : Node) : NMap :=
  if (mfind m k).isSome then m.map (fun e => if e.1 = k then (k, v) else e)
  else m ++ [(k, v)]

/-- `delete nodes[k]`. -/
def merase (m : NMap) (k : String) : NMap :=
  m.filter (fun e => e.1 != k)

/-- The keys of the map. -/
def mkeys (m : NMap) : List String :=
  m.map (fun e => e.1)

/-- A `Partial<Node>` argument: `some` marks a present key.  A key that
is present with the value `undefined` is identified with an absent key. -/
structure NodePatch where
  id : Option String
  type : Option NodeType
  title : Option String
  description : Option String
  progress : Option ℚ
  children : Option (List String)
  parentId : Option String
  createdAt : Option ℚ
  timeSpent : Option ℚ
  timerStartedAt : Option ℚ
  lastSessionTime : Option ℚ
  isExpanded : Option Bool
  rating : Option ℚ
  geminiScore : Option ℚ
  geminiAnalysis : Option String
deriving DecidableEq

/-- The all-absent patch. -/
def NodePatch.empty : NodePatch :=
  ⟨none, none, none, none, none, none, none, none,
   none, none, none, none, none, none, none⟩

/-- The object spread `{ ...n, ...d }`: every key present in `d`
overrides the corresponding field of `n`. -/
def applyPatch (n : Node) (d : NodePatch) : Node where
  id := d.id.getD n.id
  type := d.type.getD n.type
  title := d.title.getD n.title
  description := d.description.or n.description
  progress := d.progress.getD n.progress
  children := d.children.getD n.children
  parentId := d.parentId.or n.parentId
  createdAt := d.createdAt.getD n.createdAt
  timeSpent := d.timeSpent.getD n.timeSpent
  timerStartedAt := d.timerStartedAt.or n.timerStartedAt
  lastSessionTime := d.lastSessionTime.or n.lastSessionTime
  isExpanded := d.isExpanded.getD n.isExpanded
  rating := d.rating.or n.rating
  geminiScore := d.geminiScore.or n.geminiScore
  geminiAnalysis := d.geminiAnalysis.or n.geminiAnalysis

/-- `x || dflt` for JavaScript strings (empty string is falsy). -/
def jsOrStr (o : Option String) (dflt : String) : String :=
  match o with
  | some s => if s = "" then dflt else s
  | none => dflt

/-- `x || dflt` for JavaScript numbers (`0` is falsy). -/
def jsOrQ (o : Option ℚ) (dflt : ℚ) : ℚ :=
  match o with
  | some q => if q = 0 then dflt else q
  | none => dflt

/-- `Math.round` for a nonnegative-or-arbitrary rational: JavaScript
rounds half towards `+∞`, i.e. `⌊x + 1/2⌋`. -/
def jsRound (q : ℚ) : ℤ :=
  Rat.floor (q + 1/2)

/-- The object literal built by `addNode` before the final `...data`
spread overrides it. -/
def mkBase (freshId : String) (ty : NodeType) (parentId : Option String)
    (data : NodePatch) (now : ℚ) : Node where
  id := freshId
  type := ty
  title := jsOrStr data.title "Untitled"
  description := data.description
  progress := jsOrQ data.progress 0
  children := []
  parentId := optT parentId
  createdAt := now
  timeSpent := 0
  timerStartedAt := none
  lastSessionTime := none
  isExpanded := true
  rating := some 0
  geminiScore := none
  geminiAnalysis := none

/-- `calculateProgress` from the store source, with explicit fuel for the
recursion down `children`.  The `isNaN` filter of the source never
discards anything in the rational model, so it is omitted. -/
def calculateProgress : Nat → String → NMap → ℚ
  | 0, _, _ => 0
  | fuel + 1, nodeId, nodes =>
    match mfind nodes nodeId with
    | none => 0
    | some node =>
      if node.children = [] then node.progress
      else
        let childrenProgress :=
          node.children.map (fun childId => calculateProgress fuel childId nodes)
        if childrenProgress = [] then node.progress
        else ((jsRound (childrenProgress.sum / (childrenProgress.length : ℚ))) : ℚ)

/-- `recalculateProgressUpwards`, with fuel for the walk up `parentId`
and a fixed fuel `cf` handed to each `calculateProgress` call. -/
def recalculateProgressUpwards (cf : Nat) : Nat → Option String → NMap → NMap
  | 0, _, nodes => nodes
  | fuel + 1, o, nodes =>
    match optT o with
    | none => nodes
    | some nodeId =>
      match mfind nodes nodeId with
      | none => nodes
      | some node =>
        recalculateProgressUpwards cf fuel (node.parentId)
          (minsert nodes nodeId
            { node with progress := (calculateProgress cf nodeId nodes : ℚ) })

/-- `addNode(parentId, type, data)`.  The generated id and `Date.now()`
are the explicit parameters `freshId` and `now`. -/
def addNode (s : Store) (freshId : String) (parentId : Option String)
    (ty : NodeType) (data : NodePatch) (now : ℚ) : Store :=
  let newNode := applyPatch (mkBase freshId ty parentId data now) data
  let nodes1 := minsert s.nodes freshId newNode
  match optT parentId with
  | some pid =>
    let nodes2 :=
      match mfind nodes1 pid with
      | some parent =>
        minsert nodes1 pid { parent with children := parent.children ++ [freshId] }
      | none => nodes1
    { nodes := nodes2, rootIds := s.rootIds }
  | none => { nodes := nodes1, rootIds := s.rootIds ++ [freshId] }

/-- `updateNode(id, data)`. -/
def updateNode (s : Store) (id : String) (data : NodePatch) : Store :=
  match mfind s.nodes id with
  | none => s
  | some node =>
    let nodes1 := minsert s.nodes id (applyPatch node data)
    match data.progress with
    | none => { s with nodes := nodes1 }
    | some q =>
      if q = node.progress then { s with nodes := nodes1 }
      else
        { s with
          nodes := recalculateProgressUpwards (nodes1.length + 1) (nodes1.length + 1)
            (node.parentId) nodes1 }

/-- The inner `deleteRecursive` of `deleteNode`, with fuel for the
recursion depth. -/
def deleteRecursive : Nat → NMap → String → NMap
  | 0, m, _ => m
  | fuel + 1, m, nodeId =>
    match mfind m nodeId with
    | none => m
    | some n => merase (n.children.foldl (deleteRecursive fuel) m) nodeId

/-- `deleteNode(id)`. -/
def deleteNode (s : Store) (id : String) : Store :=
  match mfind s.nodes id with
  | none => s
  | some node =>
    let nodes1 := deleteRecursive (s.nodes.length + 1) s.nodes id
    let nodes2 :=
      match optT node.parentId with
      | some pid =>
        match mfind nodes1 pid with
        | some parent =>
          minsert nodes1 pid
            { parent with children := parent.children.filter (fun c => c != id) }
        | none => nodes1
      | none => nodes1
    { nodes := nodes2, rootIds := s.rootIds.filter (fun r => r != id) }

/-- `moveNode(dragId, parentId, newIndex)`. -/
def moveNode (s : Store) (dragId : String) (parentId : Option String)
    (newIndex : Nat) : Store :=
  match mfind s.nodes dragId with
  | none => s
  | some node =>
    let detached : NMap × List String :=
      match optT node.parentId with
      | some op =>
        (match mfind s.nodes op with
         | some oldParent =>
           minsert s.nodes op
             { oldParent with children := oldParent.children.filter (fun c => c != dragId) }
         | none => s.nodes,
         s.rootIds)
      | none => (s.nodes, s.rootIds.filter (fun r => r != dragId))
    let nodes2 := minsert detached.1 dragId { node with parentId := optT parentId }
    match optT parentId with
    | some pid =>
      match mfind nodes2 pid with
      | some newParent =>
        { nodes :=
            minsert nodes2 pid
              { newParent with
                children :=
                  newParent.children.insertIdx
                    (min newIndex newParent.children.length) dragId },
          rootIds := detached.2 }
      | none => { nodes := nodes2, rootIds := detached.2 }
    | none =>
      { nodes := nodes2,
        rootIds := detached.2.insertIdx (min newIndex detached.2.length) dragId }

/-- `toggleExpand(id)`. -/
def toggleExpand (s : Store) (id : String) : Store :=
  match mfind s.nodes id with
  | none => s
  | some node =>
    { s with nodes := minsert s.nodes id { node with isExpanded := !node.isExpanded } }

/-- JavaScript truthiness of `timerStartedAt` (`undefined` and `0` are
falsy). -/
def timerRunning (o : Option ℚ) : Bool :=
  match o with
  | none => false
  | some q => q != 0

/-- The body of the `forEach` in `startTimer`: stop a node if its timer
is (truthily) running, without crediting `timeSpent`. -/
def stopIfRunning (n : Node) : Node :=
  if timerRunning n.timerStartedAt then { n with timerStartedAt := none } else n

/-- `startTimer(id)`: silently stop every running timer, then start the
target if it exists. -/
def startTimer (s : Store) (id : String) (now : ℚ) : Store :=
  let nodes1 := s.nodes.map (fun e => (e.1, stopIfRunning e.2))
  match mfind nodes1 id with
  | none => { s with nodes := nodes1 }
  | some node =>
    { s with nodes := minsert nodes1 id { node with timerStartedAt := some now } }

/-- `stopTimer(id)`: clear the timer if the node exists and its timer is
truthily set; no accounting of elapsed time. -/
def stopTimer (s : Store) (id : String) : Store :=
  match mfind s.nodes id with
  | none => s
  | some node =>
    if timerRunning node.timerStartedAt then
      { s with nodes := minsert s.nodes id { node with timerStartedAt := none } }
    else s

/-! ## Invariant predicates -/

/-- How many times `k` occurs in the `children` of the node at key `p`
(`0` when `p` is absent). -/
def childCountOf (m : NMap) (p k : String) : Nat :=
  ((mfind m p).map (fun np => np.children.count k)).getD 0

/-- The (truthy) `parentId` of the node at key `k`, wrapped so that an
absent key is distinguishable from a root. -/
def parentKeyOf (m : NMap) (k : String) : Option (Option String) :=
  (mfind m k).map (fun n => optT n.parentId)

/-- The `children` of the node at key `k` (`[]` when absent). -/
def childrenOfKey (m : NMap) (k : String) : List String :=
  ((mfind m k).map (fun n => n.children)).getD []

/-- How many times the node at key `k` occurs in its own container:
`rootIds` for a root, the parent's `children` otherwise (`0` when the
parent key does not resolve). -/
def nodeContainerCount (s : Store) (k : String) : Nat :=
  match mfind s.nodes k with
  | none => 1
  | some n =>
    match optT n.parentId with
    | none => s.rootIds.count k
    | some p => childCountOf s.nodes p k

/-- Structural consistency: every node occurs exactly once in its own
container (which exists), every root id resolves to a parentless node,
and every id in a `children` list resolves to a node whose `parentId`
points back. -/
def Consistent (s : Store) : Prop :=
  (∀ k ∈ mkeys s.nodes, nodeContainerCount s k = 1) ∧
  (∀ r ∈ s.rootIds, parentKeyOf s.nodes r = some none) ∧
  (∀ k ∈ mkeys s.nodes, ∀ c ∈ childrenOfKey s.nodes k, parentKeyOf s.nodes c = some (some k))

/-- The chain of ancestors the `parentId` walk visits from `o`
(inclusive), `none` when the walk does not stop within `fuel` steps.
The walk stops at a root (`parentId` falsy) or at a missing key, exactly
like `recalculateProgressUpwards`. -/
def upchain : Nat → NMap → Option String → Option (List String)
  | 0, _, o =>
    (match optT o with
     | none => some []
     | some _ => none)
  | fuel + 1, m, o =>
    match optT o with
    | none => some []
    | some k =>
      match mfind m k with
      | none => some []
      | some n => (upchain fuel m (optT n.parentId)).map (fun l => k :: l)

/-- Every parent chain terminates (no `parentId` cycles). -/
def ChainsOK (s : Store) : Prop :=
  ∃ fuel, ∀ k ∈ mkeys s.nodes, (upchain fuel s.nodes (some k)).isSome = true

/-- The forest invariant: structural consistency plus termination of
every parent chain.  Under consistency this is equivalent to every node
being reachable from a root, exactly once, with no cycles. -/
def Forest (s : Store) : Prop :=
  Consistent s ∧ ChainsOK s

/-- The set of ids in the subtree of `c` (post-order, like
`deleteRecursive` visits them), on the unmodified map. -/
def collect : Nat → NMap → String → List String
  | 0, _, _ => []
  | fuel + 1, m, c =>
    match mfind m c with
    | none => []
    | some n => (n.children.map (collect fuel m)).flatten ++ [c]

/-- Whether the node at key `k` has `timerStartedAt` set. -/
def timerSetAt (m : NMap) (k : String) : Bool :=
  ((mfind m k).map (fun n => n.timerStartedAt.isSome)).getD false

/-- At most one node in the whole store has `timerStartedAt` set. -/
def AtMostOneTimer (s : Store) : Prop :=
  ∀ k1 ∈ mkeys s.nodes, ∀ k2 ∈ mkeys s.nodes,
    timerSetAt s.nodes k1 = true → timerSetAt s.nodes k2 = true → k1 = k2

/-- No node carries the degenerate timestamp `timerStartedAt = 0`, which
JavaScript truthiness would treat as stopped.  Real `Date.now()` reads
are positive, so every reachable store satisfies this. -/
def TimerSane (s : Store) : Prop :=
  ∀ k ∈ mkeys s.nodes, (mfind s.nodes k).map (fun n => n.timerStartedAt) ≠ some (some 0)

/-- Round half away from zero, the rounding policy named by the spec. -/
def roundHalfAway (q : ℚ) : ℤ :=
  if 0 ≤ q then Rat.floor (q + 1/2) else -(Rat.floor (-q + 1/2))

/-- The spec's reference definition of `computeProgress`: childless nodes
return their stored progress unchanged; otherwise the children's values
are computed recursively, invalid results are discarded (vacuous in the
rational model), and the mean is rounded half away from zero, falling
back to the stored progress when no values remain. -/
def computeProgressSpec : Nat → String → NMap → ℚ
  | 0, _, _ => 0
  | fuel + 1, nodeId, nodes =>
    match mfind nodes nodeId with
    | none => 0
    | some node =>
      if node.children = [] then node.progress
      else
        let vals := node.children.map (fun c => computeProgressSpec fuel c nodes)
        if vals = [] then node.progress
        else ((roundHalfAway (vals.sum / (vals.length : ℚ))) : ℚ)

instance (s : Store) : Decidable (Consistent s) := by
  unfold Consistent; exact inferInstance

instance (s : Store) : Decidable (AtMostOneTimer s) := by
  unfold AtMostOneTimer; exact inferInstance

instance (s : Store) : Decidable (TimerSane s) := by
  unfold TimerSane; exact inferInstance

/-! ## Basic association-map lemmas -/

@[simp] theorem mfind_nil (k : String) : mfind [] k = none := rfl

@[simp] theorem mfind_cons (e : String × Node) (es : NMap) (k : String) :
    mfind (e :: es) k = if e.1 = k then some e.2 else mfind es k := rfl

theorem mfind_append (m1 m2 : NMap) (k : String) :
    mfind (m1 ++ m2) k =
      match mfind m1 k with
      | some v => some v
      | none => mfind m2 k := by
  induction m1 with
  | nil => simp
  | cons e es ih =>
    by_cases h : e.1 = k <;> simp [h, ih]

theorem mfind_replaceAll (m : NMap) (k : String) (v : Node) (q : String) :
    mfind (m.map (fun e => if e.1 = k then (k, v) else e)) q =
      if q = k then (if (mfind m k).isSome then some v else none) else mfind m q := by
  induction m with
  | nil => simp
  | cons e es ih =>
    by_cases hek : e.1 = k <;> by_cases hqk : q = k <;> by_cases heq : e.1 = q <;>
      simp_all

theorem mfind_minsert (m : NMap) (k : String) (v : Node) (q : String) :
    mfind (minsert m k v) q = if q = k then some v else mfind m q := by
  unfold minsert
  by_cases h : (mfind m k).isSome
  · simp only [h, if_true, mfind_replaceAll]
  · rw [if_neg h, mfind_append]
    rw [Option.not_isSome_iff_eq_none] at h
    by_cases hq : q = k
    · subst hq; simp [h]
    · rcases h' : mfind m q with _ | v' <;> simp [hq, h', Ne.symm hq]

theorem mfind_merase (m : NMap) (k q : String) :
    mfind (merase m k) q = if q = k then none else mfind m q := by
  induction m with
  | nil => simp [merase]
  | cons e es ih =>
    unfold merase at ih ⊢
    by_cases hek : e.1 = k <;> by_cases hqk : q = k <;> by_cases heq : e.1 = q <;>
      simp_all [List.filter_cons]

theorem mfind_mapSnd (f : Node → Node) (m : NMap) (k : String) :
    mfind (m.map (fun e => (e.1, f e.2))) k = (mfind m k).map f := by
  induction m with
  | nil => simp
  | cons e es ih =>
    by_cases h : e.1 = k <;> simp [h, ih]

theorem mem_mkeys_of_mfind {m : NMap} {k : String} {n : Node}
    (h : mfind m k = some n) : k ∈ mkeys m := by
  induction m with
  | nil => simp at h
  | cons e es ih =>
    by_cases he : e.1 = k
    · simp [mkeys, he]
    · simp only [mfind_cons, if_neg he] at h
      simp [mkeys] at ih ⊢
      exact Or.inr (ih h)

theorem mfind_eq_none_of_not_mem_mkeys {m : NMap} {k : String}
    (h : k ∉ mkeys m) : mfind m k = none := by
  rcases h' : mfind m k with _ | n
  · rfl
  · exact absurd (mem_mkeys_of_mfind h') h

theorem mkeys_replaceAll (m : NMap) (k : String) (v : Node) :
    mkeys (m.map (fun e => if e.1 = k then (k, v) else e)) = mkeys m := by
  unfold mkeys
  induction m with
  | nil => rfl
  | cons e es ih =>
    by_cases h : e.1 = k
    · simp only [List.map_cons, if_pos h, ih]
      rw [h]
    · simp only [List.map_cons, if_neg h, ih]

theorem mkeys_minsert (m : NMap) (k : String) (v : Node) :
    mkeys (minsert m k v) = if (mfind m k).isSome then mkeys m else mkeys m ++ [k] := by
  unfold minsert
  by_cases h : (mfind m k).isSome
  · simp [h, mkeys_replaceAll]
  · simp [h, mkeys]

theorem length_minsert (m : NMap) (k : String) (v : Node) :
    (minsert m k v).length = if (mfind m k).isSome then m.length else m.length + 1 := by
  unfold minsert
  by_cases h : (mfind m k).isSome <;> simp [h]

theorem length_map_keyed (f : Node → Node) (m : NMap) :
    (m.map (fun e => (e.1, f e.2))).length = m.length := by
  simp

/-! ## Concrete fixtures used by witnesses and counterexamples -/

/-- A task node with the given id, parent, children, progress and timer;
the remaining fields take the values `addNode` would give them. -/
def mkNode (id : String) (pid : Option String) (cs : List String) (prog : ℚ)
    (timer : Option ℚ) : Node :=
  ⟨id, NodeType.task, id, none, prog, cs, pid, 0, 0, timer, none, true, some 0, none, none⟩

/-- Goal `G` with key result `K` whose initiatives are `A` (progress 40)
and `B` (progress 0); the aggregation example of the spec. -/
def demoNodes : NMap :=
  [("G", mkNode "G" none ["K"] 20 none), ("K", mkNode "K" (some "G") ["A", "B"] 20 none),
   ("A", mkNode "A" (some "K") [] 40 none), ("B", mkNode "B" (some "K") [] 0 none)]

def demoStore : Store := ⟨demoNodes, ["G"]⟩

/-- Two root nodes, `a` with a running timer and `b` stopped. -/
def runStore : Store :=
  ⟨[("a", mkNode "a" none [] 0 (some 5)), ("b", mkNode "b" none [] 0 none)], ["a", "b"]⟩

/-! ## C2: missing-id behaviour of the public operations -/

/-- C2 (counterexample): `startTimer` on a nonexistent id is not a no-op
when some other timer is running — it silently stops that timer, so the
committed store differs from the store before the call. -/
theorem startTimer_missing_id_mutates :
    mfind runStore.nodes "ghost" = none ∧ startTimer runStore "ghost" 99 ≠ runStore := by
  constructor <;> decide

/-- C2 (amended): the operations that look up their target id first —
`updateNode`, `deleteNode`, `moveNode`, `toggleExpand`, `stopTimer` —
are silent no-ops when the id does not resolve; `addNode` with an
unresolvable `parentId`, `moveNode` with an unresolvable `newParentId`,
and `startTimer` are excluded because they still mutate the store. -/
theorem missing_target_id_is_noop (s : Store) (id : String) (d : NodePatch)
    (pt : Option String) (i : Nat) (h : mfind s.nodes id = none) :
    updateNode s id d = s ∧ deleteNode s id = s ∧ moveNode s id pt i = s ∧
    toggleExpand s id = s ∧ stopTimer s id = s := by
  refine ⟨?_, ?_, ?_, ?_, ?_⟩ <;>
    simp [updateNode, deleteNode, moveNode, toggleExpand, stopTimer, h]

/-- Witness for `missing_target_id_is_noop` at a concrete store and id. -/
theorem missing_target_id_is_noop_witness :
    mfind demoStore.nodes "zz" = none ∧
    (updateNode demoStore "zz" NodePatch.empty = demoStore ∧
     deleteNode demoStore "zz" = demoStore ∧ moveNode demoStore "zz" none 0 = demoStore ∧
     toggleExpand demoStore "zz" = demoStore ∧ stopTimer demoStore "zz" = demoStore) :=
  ⟨by decide, missing_target_id_is_noop demoStore "zz" NodePatch.empty none 0 (by decide)⟩

/-! ## C9: the empty-title coercion of `addNode` is dead code -/

/-- C9: the source intends `title: data.title || 'Untitled'` to coerce an
empty caller-supplied title to the placeholder, but the later `...data`
spread overrides the coerced value, so an empty title is stored as-is. -/
theorem addNode_keeps_empty_title :
    (mfind (addNode ⟨[], []⟩ "n1" none NodeType.task
        { NodePatch.empty with title := some "" } 0).nodes "n1").map (fun n => n.title)
      = some "" := by
  decide

/-! ## Insert algebra -/

theorem map_replace_id (m : NMap) (k : String) (v : Node)
    (H : ∀ e ∈ m, e.1 = k → e = (k, v)) :
    m.map (fun e => if e.1 = k then (k, v) else e) = m := by
  induction m with
  | nil => rfl
  | cons e es ih =>
    have tail : ∀ x ∈ es, x.1 = k → x = (k, v) := fun x hx => H x (by simp [hx])
    by_cases hek : e.1 = k
    · have he : e = (k, v) := H e (by simp) hek
      rw [List.map_cons, if_pos hek, ih tail, he]
    · rw [List.map_cons, if_neg hek, ih tail]

theorem mfind_none_entries {m : NMap} {k : String} (h : mfind m k = none) :
    ∀ e ∈ m, e.1 ≠ k := by
  induction m with
  | nil => simp
  | cons e es ih =>
    simp only [mfind_cons] at h
    by_cases hek : e.1 = k
    · simp [hek] at h
    · rw [if_neg hek] at h
      intro x hx
      rcases List.mem_cons.mp hx with rfl | hx2
      · exact hek
      · exact ih h x hx2

/-- Unfolding `minsert` when the key is present. -/
theorem minsert_eq_pos {m : NMap} {k : String} (v : Node)
    (h : (mfind m k).isSome) :
    minsert m k v = m.map (fun e => if e.1 = k then (k, v) else e) := by
  unfold minsert; rw [if_pos h]

/-- Unfolding `minsert` when the key is absent. -/
theorem minsert_eq_neg {m : NMap} {k : String} (v : Node)
    (h : ¬ (mfind m k).isSome = true) :
    minsert m k v = m ++ [(k, v)] := by
  unfold minsert; rw [if_neg h]

theorem minsert_minsert (m : NMap) (k : String) (v1 v2 : Node) :
    minsert (minsert m k v1) k v2 = minsert m k v2 := by
  have hfound : (mfind (minsert m k v1) k).isSome := by simp [mfind_minsert]
  rw [minsert_eq_pos v2 hfound]
  by_cases h : (mfind m k).isSome
  · rw [minsert_eq_pos v1 h, minsert_eq_pos v2 h, List.map_map]
    congr 1
    funext e
    by_cases hek : e.1 = k <;> simp [hek]
  · rw [minsert_eq_neg v1 h, minsert_eq_neg v2 h, List.map_append]
    rw [Option.not_isSome_iff_eq_none] at h
    have hne : ∀ e ∈ m, e.1 ≠ k := mfind_none_entries h
    rw [map_replace_id m k v2 (fun e he hk => absurd hk (hne e he))]
    simp

theorem mfind_entry_of_nodup {m : NMap} (nd : (mkeys m).Nodup) {e : String × Node}
    (he : e ∈ m) : mfind m e.1 = some e.2 := by
  induction m with
  | nil => simp at he
  | cons a es ih =>
    simp only [mkeys, List.map_cons, List.nodup_cons] at nd
    rcases List.mem_cons.mp he with rfl | he2
    · simp
    · have hne : a.1 ≠ e.1 := by
        intro hcontra
        exact nd.1 (by rw [hcontra]; exact List.mem_map_of_mem _ he2)
      simp only [mfind_cons, if_neg hne]
      exact ih nd.2 he2

theorem minsert_self {m : NMap} {k : String} {n : Node}
    (nd : (mkeys m).Nodup) (h : mfind m k = some n) : minsert m k n = m := by
  rw [minsert_eq_pos n (by simp [h])]
  refine map_replace_id m k n (fun e he hk => ?_)
  have h2 := mfind_entry_of_nodup nd he
  rw [hk, h] at h2
  rw [← hk, Option.some_inj.mp h2]

/-- The nodes of `toggleExpand` at a found node. -/
theorem toggleExpand_nodes_found {s : Store} {id : String} {n : Node}
    (h : mfind s.nodes id = some n) :
    (toggleExpand s id).nodes =
      minsert s.nodes id { n with isExpanded := !n.isExpanded } := by
  unfold toggleExpand
  rw [h]

theorem toggleExpand_rootIds (s : Store) (id : String) :
    (toggleExpand s id).rootIds = s.rootIds := by
  unfold toggleExpand
  cases mfind s.nodes id <;> rfl

/-! ## C10: toggleExpand is an involution -/

/-- C10: on any store whose node map has no duplicate keys (JavaScript
objects cannot), `toggleExpand` applied twice is the identity, and one
application changes nothing except the `isExpanded` flag of the target
node (the root list and all other nodes are untouched); a missing id is
a no-op both times. -/
theorem toggleExpand_involution (s : Store) (id : String)
    (nd : (mkeys s.nodes).Nodup) :
    toggleExpand (toggleExpand s id) id = s ∧
    (toggleExpand s id).rootIds = s.rootIds ∧
    (∀ k, k ≠ id → mfind (toggleExpand s id).nodes k = mfind s.nodes k) ∧
    (∀ n, mfind s.nodes id = some n →
      mfind (toggleExpand s id).nodes id = some { n with isExpanded := !n.isExpanded }) := by
  rcases h : mfind s.nodes id with _ | n
  · have hid : toggleExpand s id = s := by unfold toggleExpand; rw [h]
    exact ⟨by rw [hid, hid], by rw [hid], fun k _ => by rw [hid], fun n hn => nomatch hn⟩
  · have h1 : mfind (toggleExpand s id).nodes id
        = some { n with isExpanded := !n.isExpanded } := by
      rw [toggleExpand_nodes_found h]
      simp [mfind_minsert]
    refine ⟨?_, toggleExpand_rootIds s id, ?_, ?_⟩
    · apply Store.ext
      · rw [toggleExpand_nodes_found h1, toggleExpand_nodes_found h, minsert_minsert]
        show minsert s.nodes id { n with isExpanded := !(!n.isExpanded) } = s.nodes
        rw [Bool.not_not]
        exact minsert_self nd h
      · rw [toggleExpand_rootIds, toggleExpand_rootIds]
    · intro k hk
      rw [toggleExpand_nodes_found h, mfind_minsert]
      simp [hk]
    · intro n2 hn2
      cases hn2
      exact h1

/-- Witness for `toggleExpand_involution` at a concrete store. -/
theorem toggleExpand_involution_witness :
    (mkeys demoStore.nodes).Nodup ∧
    toggleExpand (toggleExpand demoStore "A") "A" = demoStore :=
  ⟨by decide, (toggleExpand_involution demoStore "A" (by decide)).1⟩

/-! ## C8: deleteNode never modifies a surviving node except the former
parent's children list -/

theorem foldl_deleteRec_cases (f : Nat)
    (H : ∀ m c x, mfind (deleteRecursive f m c) x = mfind m x ∨
      mfind (deleteRecursive f m c) x = none) :
    ∀ (cs : List String) (m : NMap) (x : String),
      mfind (cs.foldl (deleteRecursive f) m) x = mfind m x ∨
      mfind (cs.foldl (deleteRecursive f) m) x = none := by
  intro cs
  induction cs with
  | nil => intro m x; left; rfl
  | cons c cs ih =>
    intro m x
    rw [List.foldl_cons]
    rcases ih (deleteRecursive f m c) x with h2 | h2
    · rw [h2]; exact H m c x
    · right; exact h2

/-- `deleteRecursive` never modifies a node value: every key is either
untouched or removed. -/
theorem deleteRec_find_cases : ∀ (f : Nat) (m : NMap) (c x : String),
    mfind (deleteRecursive f m c) x = mfind m x ∨
    mfind (deleteRecursive f m c) x = none := by
  intro f
  induction f with
  | zero => intro m c x; left; rfl
  | succ f ih =>
    intro m c x
    unfold deleteRecursive
    cases hc : mfind m c with
    | none => left; rfl
    | some n =>
      rw [mfind_merase]
      by_cases hx : x = c
      · right; rw [if_pos hx]
      · rw [if_neg hx]
        exact foldl_deleteRec_cases f ih n.children m x

/-- C8: `deleteNode(K)` performs no aggregation and no other edits on the
survivors: the root list just loses `K`, and every surviving node keeps
its exact old value — in particular its `progress` — except `K`'s former
parent, which only has `K` filtered out of its `children`. -/
theorem deleteNode_frame (s : Store) (K : String) (nK : Node)
    (h : mfind s.nodes K = some nK) :
    (deleteNode s K).rootIds = s.rootIds.filter (fun r => r != K) ∧
    ∀ x n2, mfind (deleteNode s K).nodes x = some n2 →
      ∃ n1, mfind s.nodes x = some n1 ∧ n2.progress = n1.progress ∧
        (n2 = n1 ∨ (optT nK.parentId = some x ∧
          n2 = { n1 with children := n1.children.filter (fun c => c != K) })) := by
  rcases hp : optT nK.parentId with _ | pid
  · have hroot : (deleteNode s K).rootIds = s.rootIds.filter (fun r => r != K) := by
      unfold deleteNode; simp only [h, hp]
    have hnodes : (deleteNode s K).nodes
        = deleteRecursive (s.nodes.length + 1) s.nodes K := by
      unfold deleteNode; simp only [h, hp]
    refine ⟨hroot, fun x n2 hx => ?_⟩
    rw [hnodes] at hx
    rcases deleteRec_find_cases (s.nodes.length + 1) s.nodes K x with hc | hc
    · rw [hx] at hc
      exact ⟨n2, hc.symm, rfl, Or.inl rfl⟩
    · rw [hx] at hc; cases hc
  · have hroot : (deleteNode s K).rootIds = s.rootIds.filter (fun r => r != K) := by
      unfold deleteNode; simp only [h, hp]
    refine ⟨hroot, fun x n2 hx => ?_⟩
    rcases hpp : mfind (deleteRecursive (s.nodes.length + 1) s.nodes K) pid with _ | parent
    · have hnodes : (deleteNode s K).nodes
          = deleteRecursive (s.nodes.length + 1) s.nodes K := by
        unfold deleteNode; simp only [h, hp, hpp]
      rw [hnodes] at hx
      rcases deleteRec_find_cases (s.nodes.length + 1) s.nodes K x with hc | hc
      · rw [hx] at hc
        exact ⟨n2, hc.symm, rfl, Or.inl rfl⟩
      · rw [hx] at hc; cases hc
    · have hnodes : (deleteNode s K).nodes
          = minsert (deleteRecursive (s.nodes.length + 1) s.nodes K) pid
              { parent with children := parent.children.filter (fun c => c != K) } := by
        unfold deleteNode; simp only [h, hp, hpp]
      rw [hnodes, mfind_minsert] at hx
      by_cases hxp : x = pid
      · rw [if_pos hxp] at hx
        have hold : mfind s.nodes pid = some parent := by
          rcases deleteRec_find_cases (s.nodes.length + 1) s.nodes K pid with hc | hc
          · rw [← hc]; exact hpp
          · rw [hpp] at hc; cases hc
        have hn2 : n2 = { parent with children := parent.children.filter (fun c => c != K) } :=
          (Option.some_inj.mp hx).symm
        subst hxp
        exact ⟨parent, hold, by rw [hn2], Or.inr ⟨rfl, hn2⟩⟩
      · rw [if_neg hxp] at hx
        rcases deleteRec_find_cases (s.nodes.length + 1) s.nodes K x with hc | hc
        · rw [hx] at hc
          exact ⟨n2, hc.symm, rfl, Or.inl rfl⟩
        · rw [hx] at hc; cases hc

/-- Witness for `deleteNode_frame`: deleting the key result `K` leaves
the progress of the surviving goal `G` untouched. -/
theorem deleteNode_frame_witness :
    mfind demoStore.nodes "K" = some (mkNode "K" (some "G") ["A", "B"] 20 none) ∧
    ((deleteNode demoStore "K").rootIds
        = demoStore.rootIds.filter (fun r => r != "K") ∧
     ∀ x n2, mfind (deleteNode demoStore "K").nodes x = some n2 →
       ∃ n1, mfind demoStore.nodes x = some n1 ∧ n2.progress = n1.progress ∧
         (n2 = n1 ∨ (optT (mkNode "K" (some "G") ["A", "B"] 20 none).parentId = some x ∧
           n2 = { n1 with children := n1.children.filter (fun c => c != "K") }))) :=
  ⟨by decide, deleteNode_frame demoStore "K" (mkNode "K" (some "G") ["A", "B"] 20 none)
    (by decide)⟩

/-! ## C6: timer exclusivity -/

theorem startTimer_rootIds (s : Store) (id : String) (now : ℚ) :
    (startTimer s id now).rootIds = s.rootIds := by
  unfold startTimer
  rcases h : mfind (s.nodes.map (fun e => (e.1, stopIfRunning e.2))) id with _ | n <;>
    simp [h]

/-- Pointwise description of the node map after `startTimer`. -/
theorem mfind_startTimer (s : Store) (id : String) (now : ℚ) (k : String) :
    mfind (startTimer s id now).nodes k =
      if k = id then
        (mfind s.nodes id).map (fun n => { stopIfRunning n with timerStartedAt := some now })
      else (mfind s.nodes k).map stopIfRunning := by
  unfold startTimer
  rcases hid : mfind s.nodes id with _ | nid
  · simp only [mfind_mapSnd, hid, Option.map_none']
    by_cases hk : k = id
    · subst hk; simp [mfind_mapSnd, hid]
    · simp [mfind_mapSnd, hk]
  · simp only [mfind_mapSnd, hid, Option.map_some']
    rw [mfind_minsert]
    by_cases hk : k = id
    · simp [hk]
    · simp [mfind_mapSnd, hk]

theorem stopTimer_rootIds (s : Store) (id : String) :
    (stopTimer s id).rootIds = s.rootIds := by
  unfold stopTimer
  rcases mfind s.nodes id with _ | n
  · rfl
  · dsimp only
    split <;> rfl

/-- After `stopTimer`, every present node is either untouched or has its
timer cleared. -/
theorem stopTimer_after (s : Store) (id : String) :
    ∀ k n2, mfind (stopTimer s id).nodes k = some n2 →
      ∃ n1, mfind s.nodes k = some n1 ∧ (n2 = n1 ∨ n2.timerStartedAt = none) := by
  intro k n2 h2
  unfold stopTimer at h2
  rcases hid : mfind s.nodes id with _ | nid
  · rw [hid] at h2
    exact ⟨n2, h2, Or.inl rfl⟩
  · rw [hid] at h2
    dsimp only at h2
    by_cases hr : timerRunning nid.timerStartedAt
    · rw [if_pos hr, mfind_minsert] at h2
      by_cases hk : k = id
      · rw [if_pos hk] at h2
        refine ⟨nid, by rw [hk, hid], Or.inr ?_⟩
        rw [← Option.some_inj.mp h2]
      · rw [if_neg hk] at h2
        exact ⟨n2, h2, Or.inl rfl⟩
    · rw [if_neg hr] at h2
      exact ⟨n2, h2, Or.inl rfl⟩

/-- The quantifier-free reading of `AtMostOneTimer`. -/
theorem atMostOneTimer_iff (s : Store) :
    AtMostOneTimer s ↔
      ∀ k1 k2 n1 n2, mfind s.nodes k1 = some n1 → mfind s.nodes k2 = some n2 →
        n1.timerStartedAt.isSome → n2.timerStartedAt.isSome → k1 = k2 := by
  constructor
  · intro H k1 k2 n1 n2 h1 h2 t1 t2
    exact H k1 (mem_mkeys_of_mfind h1) k2 (mem_mkeys_of_mfind h2)
      (by simp [timerSetAt, h1, t1]) (by simp [timerSetAt, h2, t2])
  · intro H k1 _ k2 _ t1 t2
    unfold timerSetAt at t1 t2
    rcases h1 : mfind s.nodes k1 with _ | n1
    · rw [h1] at t1; simp at t1
    · rcases h2 : mfind s.nodes k2 with _ | n2
      · rw [h2] at t2; simp at t2
      · rw [h1] at t1; rw [h2] at t2
        simp only [Option.map_some', Option.getD_some] at t1 t2
        exact H k1 k2 n1 n2 h1 h2 t1 t2

/-- The quantifier-free reading of `TimerSane`. -/
theorem timerSane_iff (s : Store) :
    TimerSane s ↔ ∀ k n, mfind s.nodes k = some n → n.timerStartedAt ≠ some 0 := by
  constructor
  · intro H k n h ht
    have h2 := H k (mem_mkeys_of_mfind h)
    rw [h] at h2
    simp only [Option.map_some', ne_eq, Option.some_inj] at h2
    exact h2 ht
  · intro H k _
    rcases h : mfind s.nodes k with _ | n
    · simp
    · simp only [Option.map_some', ne_eq, Option.some_inj]
      exact H k n h

/-- A node that is truthily running keeps `timerStartedAt` set; one that
is not, in a sane store, has it `none`. -/
theorem stopIfRunning_timer {n : Node} (hs : n.timerStartedAt ≠ some 0) :
    (stopIfRunning n).timerStartedAt = none := by
  unfold stopIfRunning
  by_cases hr : timerRunning n.timerStartedAt
  · rw [if_pos hr]
  · rw [if_neg hr]
    unfold timerRunning at hr
    rcases h : n.timerStartedAt with _ | q
    · rfl
    · rw [h] at hr
      simp only [bne_iff_ne, ne_eq, Decidable.not_not] at hr
      exact absurd (by rw [h, hr]) hs

theorem stopIfRunning_timeSpent (n : Node) : (stopIfRunning n).timeSpent = n.timeSpent := by
  unfold stopIfRunning
  split <;> rfl

/-- After `startTimer id` on a sane store, the only node that can have a
timer set is `id` itself, which holds `some now`. -/
theorem startTimer_after {s : Store} (id : String) (now : ℚ) (hs : TimerSane s) :
    ∀ k n2, mfind (startTimer s id now).nodes k = some n2 →
      (k = id ∧ n2.timerStartedAt = some now) ∨ n2.timerStartedAt = none := by
  intro k n2 h2
  rw [mfind_startTimer] at h2
  by_cases hk : k = id
  · rw [if_pos hk] at h2
    rcases hid : mfind s.nodes id with _ | nid
    · rw [hid] at h2; cases h2
    · rw [hid] at h2
      simp only [Option.map_some', Option.some_inj] at h2
      exact Or.inl ⟨hk, by rw [← h2]⟩
  · rw [if_neg hk] at h2
    rcases hfk : mfind s.nodes k with _ | nk
    · rw [hfk] at h2; cases h2
    · rw [hfk] at h2
      simp only [Option.map_some', Option.some_inj] at h2
      refine Or.inr ?_
      rw [← h2]
      exact stopIfRunning_timer ((timerSane_iff s).mp hs k nk hfk)

/-- One operation of a `startTimer`/`stopTimer` sequence. -/
inductive TimerOp where
  | start : String → ℚ → TimerOp
  | stop : String → TimerOp
deriving DecidableEq

def applyTimerOp (s : Store) : TimerOp → Store
  | TimerOp.start id now => startTimer s id now
  | TimerOp.stop id => stopTimer s id

def applyTimerOps (s : Store) (ops : List TimerOp) : Store :=
  ops.foldl applyTimerOp s

/-- The timestamp a `start` operation would write. -/
def opNow : TimerOp → Option ℚ
  | TimerOp.start _ now => some now
  | TimerOp.stop _ => none

/-- All `start` operations carry a nonzero (realistic epoch) timestamp. -/
def SaneOps (ops : List TimerOp) : Prop :=
  ∀ op ∈ ops, opNow op ≠ some 0

instance (ops : List TimerOp) : Decidable (SaneOps ops) := by
  unfold SaneOps; exact inferInstance

theorem startTimer_preserves {s : Store} (id : String) (now : ℚ)
    (hs : TimerSane s) (hnow : now ≠ 0) :
    TimerSane (startTimer s id now) ∧ AtMostOneTimer (startTimer s id now) := by
  constructor
  · rw [timerSane_iff]
    intro k n h
    rcases startTimer_after id now hs k n h with ⟨_, ht⟩ | ht
    · rw [ht]; simpa using hnow
    · rw [ht]; simp
  · rw [atMostOneTimer_iff]
    intro k1 k2 n1 n2 h1 h2 t1 t2
    rcases startTimer_after id now hs k1 n1 h1 with ⟨hk1, _⟩ | hn1
    · rcases startTimer_after id now hs k2 n2 h2 with ⟨hk2, _⟩ | hn2
      · rw [hk1, hk2]
      · rw [hn2] at t2; cases t2
    · rw [hn1] at t1; cases t1

theorem stopTimer_preserves {s : Store} (id : String)
    (hs : TimerSane s) (ha : AtMostOneTimer s) :
    TimerSane (stopTimer s id) ∧ AtMostOneTimer (stopTimer s id) := by
  constructor
  · rw [timerSane_iff]
    intro k n h
    rcases stopTimer_after s id k n h with ⟨n1, h1, hc⟩
    rcases hc with hc | ht
    · rw [hc]
      exact (timerSane_iff s).mp hs k n1 h1
    · rw [ht]; simp
  · rw [atMostOneTimer_iff]
    intro k1 k2 n1 n2 h1 h2 t1 t2
    rcases stopTimer_after s id k1 n1 h1 with ⟨m1, hm1, hc1⟩
    rcases stopTimer_after s id k2 n2 h2 with ⟨m2, hm2, hc2⟩
    have t1m : m1.timerStartedAt.isSome := by
      rcases hc1 with rfl | ht
      · exact t1
      · rw [ht] at t1; cases t1
    have t2m : m2.timerStartedAt.isSome := by
      rcases hc2 with rfl | ht
      · exact t2
      · rw [ht] at t2; cases t2
    exact (atMostOneTimer_iff s).mp ha k1 k2 m1 m2 hm1 hm2 t1m t2m

theorem applyTimerOps_preserves :
    ∀ (ops : List TimerOp) (s : Store), TimerSane s → AtMostOneTimer s → SaneOps ops →
      TimerSane (applyTimerOps s ops) ∧ AtMostOneTimer (applyTimerOps s ops) := by
  intro ops
  induction ops with
  | nil => exact fun s hs ha _ => ⟨hs, ha⟩
  | cons op ops ih =>
    intro s hs ha hsane
    have hop : TimerSane (applyTimerOp s op) ∧ AtMostOneTimer (applyTimerOp s op) := by
      cases op with
      | start id now =>
        exact startTimer_preserves id now hs
          (by simpa [opNow] using hsane (TimerOp.start id now) (by simp))
      | stop id => exact stopTimer_preserves id hs ha
    exact ih (applyTimerOp s op) hop.1 hop.2
      (fun o ho => hsane o (List.mem_cons_of_mem op ho))

/-- C6: from any store satisfying the single-timer invariant (with
realistic nonzero timestamps), any sequence of `startTimer`/`stopTimer`
calls leaves at most one node with `timerStartedAt` set; and
`startTimer(B)` while a different node `A` is running leaves `A` stopped
with its `timeSpent` unchanged — the interrupted session is discarded. -/
theorem timer_exclusivity :
    (∀ (s : Store) (ops : List TimerOp), TimerSane s → AtMostOneTimer s → SaneOps ops →
      AtMostOneTimer (applyTimerOps s ops)) ∧
    (∀ (s : Store) (A B : String) (now : ℚ) (nA : Node),
      mfind s.nodes A = some nA → timerRunning nA.timerStartedAt = true → A ≠ B →
      ∃ nA2, mfind (startTimer s B now).nodes A = some nA2 ∧
        nA2.timerStartedAt = none ∧ nA2.timeSpent = nA.timeSpent) := by
  constructor
  · exact fun s ops hs ha hsane => (applyTimerOps_preserves ops s hs ha hsane).2
  · intro s A B now nA hA hrun hAB
    refine ⟨stopIfRunning nA, ?_, ?_, stopIfRunning_timeSpent nA⟩
    · rw [mfind_startTimer, if_neg hAB, hA]
      rfl
    · unfold stopIfRunning
      rw [if_pos hrun]

/-- Witness for `timer_exclusivity` on a concrete running store. -/
theorem timer_exclusivity_witness :
    (TimerSane runStore ∧ AtMostOneTimer runStore ∧
      SaneOps [TimerOp.start "b" 7, TimerOp.stop "b"] ∧
      AtMostOneTimer (applyTimerOps runStore [TimerOp.start "b" 7, TimerOp.stop "b"])) ∧
    (mfind runStore.nodes "a" = some (mkNode "a" none [] 0 (some 5)) ∧
      ∃ nA2, mfind (startTimer runStore "b" 7).nodes "a" = some nA2 ∧
        nA2.timerStartedAt = none ∧
        nA2.timeSpent = (mkNode "a" none [] 0 (some 5)).timeSpent) :=
  ⟨⟨by decide, by decide, by decide,
    timer_exclusivity.1 runStore [TimerOp.start "b" 7, TimerOp.stop "b"]
      (by decide) (by decide) (by decide)⟩,
   ⟨by decide,
    timer_exclusivity.2 runStore "a" "b" 7 (mkNode "a" none [] 0 (some 5))
      (by decide) (by decide) (by decide)⟩⟩

/-! ## C4: calculateProgress agrees with the spec's reference definition -/

/-- Every stored progress is an integer between 0 and 100. -/
def ProgressInRange (s : Store) : Prop :=
  ∀ k ∈ mkeys s.nodes, ∀ n ∈ mfind s.nodes k,
    0 ≤ n.progress ∧ n.progress ≤ 100 ∧ n.progress.den = 1

instance (s : Store) : Decidable (ProgressInRange s) := by
  unfold ProgressInRange; exact inferInstance

theorem jsRound_nonneg {q : ℚ} (h : 0 ≤ q) : 0 ≤ jsRound q := by
  unfold jsRound
  refine Rat.le_floor.mpr ?_
  push_cast
  linarith

theorem calculateProgress_nonneg {m : NMap}
    (Hpos : ∀ k n, mfind m k = some n → 0 ≤ n.progress) :
    ∀ (fuel : Nat) (id : String), 0 ≤ calculateProgress fuel id m := by
  intro fuel
  induction fuel with
  | zero => intro id; exact le_refl 0
  | succ f ih =>
    intro id
    unfold calculateProgress
    cases h : mfind m id with
    | none => exact le_refl 0
    | some node =>
      dsimp only
      by_cases hc : node.children = []
      · rw [if_pos hc]
        exact Hpos id node h
      · rw [if_neg hc]
        by_cases hL : node.children.map (fun childId => calculateProgress f childId m) = []
        · rw [if_pos hL]
          exact Hpos id node h
        · rw [if_neg hL]
          have hsum : 0 ≤ (node.children.map (fun childId => calculateProgress f childId m)).sum := by
            refine List.sum_nonneg (fun a ha => ?_)
            rcases List.mem_map.mp ha with ⟨c, _, rfl⟩
            exact ih c
          have hmean : 0 ≤ (node.children.map (fun childId => calculateProgress f childId m)).sum
              / ((node.children.map (fun childId => calculateProgress f childId m)).length : ℚ) :=
            div_nonneg hsum (by positivity)
          exact_mod_cast jsRound_nonneg hmean

theorem roundHalfAway_eq_jsRound {q : ℚ} (h : 0 ≤ q) : roundHalfAway q = jsRound q := by
  unfold roundHalfAway jsRound
  rw [if_pos h]

/-- C4: on a forest store whose stored progress values are integers in
0..100, `calculateProgress` computes exactly the spec's reference
definition (recursive children values, invalid results discarded, mean
rounded half away from zero, fallback to the stored value), for every
fuel.  `Math.round` and round-half-away-from-zero agree because every
intermediate mean is nonnegative. -/
theorem calculateProgress_eq_spec (s : Store) (hf : Forest s)
    (hr : ProgressInRange s) :
    ∀ (fuel : Nat) (id : String),
      calculateProgress fuel id s.nodes = computeProgressSpec fuel id s.nodes := by
  have Hpos : ∀ k n, mfind s.nodes k = some n → 0 ≤ n.progress := fun k n h =>
    (hr k (mem_mkeys_of_mfind h) n (by simp [Option.mem_def, h])).1
  intro fuel
  induction fuel with
  | zero => intro id; rfl
  | succ f ih =>
    intro id
    unfold calculateProgress computeProgressSpec
    cases h : mfind s.nodes id with
    | none => rfl
    | some node =>
      dsimp only
      by_cases hc : node.children = []
      · rw [if_pos hc, if_pos hc]
      · rw [if_neg hc, if_neg hc]
        have hmap : node.children.map (fun c => computeProgressSpec f c s.nodes)
            = node.children.map (fun c => calculateProgress f c s.nodes) :=
          List.map_congr_left (fun c _ => (ih c).symm)
        rw [hmap]
        by_cases hL : node.children.map (fun c => calculateProgress f c s.nodes) = []
        · rw [if_pos hL, if_pos hL]
        · rw [if_neg hL, if_neg hL]
          have hsum : 0 ≤ (node.children.map (fun c => calculateProgress f c s.nodes)).sum := by
            refine List.sum_nonneg (fun a ha => ?_)
            rcases List.mem_map.mp ha with ⟨c, _, rfl⟩
            exact calculateProgress_nonneg Hpos f c
          have hmean : 0 ≤ (node.children.map (fun c => calculateProgress f c s.nodes)).sum
              / ((node.children.map (fun c => calculateProgress f c s.nodes)).length : ℚ) :=
            div_nonneg hsum (by positivity)
          rw [roundHalfAway_eq_jsRound hmean]

/-- Witness for `calculateProgress_eq_spec` on the concrete aggregation
example (`K` with children of progress 40 and 0). -/
theorem calculateProgress_eq_spec_witness :
    Forest demoStore ∧ ProgressInRange demoStore ∧
    calculateProgress 4 "K" demoStore.nodes = computeProgressSpec 4 "K" demoStore.nodes :=
  ⟨⟨by decide, 5, by decide⟩, by decide,
   calculateProgress_eq_spec demoStore ⟨by decide, 5, by decide⟩ (by decide) 4 "K"⟩

/-! ## Parent-chain lemmas -/

@[simp] theorem optT_none : optT none = none := rfl

@[simp] theorem optT_some (s : String) :
    optT (some s) = if s = "" then none else some s := rfl

theorem optT_idem (o : Option String) : optT (optT o) = optT o := by
  rcases o with _ | s
  · rfl
  · by_cases h : s = "" <;> simp [h]

theorem optT_eq_some {o : Option String} {k : String} (h : optT o = some k) :
    optT (some k) = some k := by
  rcases o with _ | s
  · cases h
  · by_cases hs : s = ""
    · rw [optT_some, if_pos hs] at h; cases h
    · rw [optT_some, if_neg hs] at h
      rw [← Option.some_inj.mp h, optT_some, if_neg hs]

theorem upchain_zero (m : NMap) (o : Option String) :
    upchain 0 m o = match optT o with
      | none => some []
      | some _ => none := rfl

theorem upchain_succ (f : Nat) (m : NMap) (o : Option String) :
    upchain (f + 1) m o =
      match optT o with
      | none => some []
      | some k =>
        match mfind m k with
        | none => some []
        | some n => (upchain f m (optT n.parentId)).map (fun l => k :: l) := rfl

/-- The walk stops immediately at a falsy id. -/
theorem upchain_stop {f : Nat} {m : NMap} {o : Option String}
    (ho : optT o = none) : upchain f m o = some [] := by
  cases f
  · rw [upchain_zero, ho]
  · rw [upchain_succ, ho]

theorem upchain_zero_some {m : NMap} {o : Option String} {k : String}
    (ho : optT o = some k) : upchain 0 m o = none := by
  rw [upchain_zero, ho]

/-- The walk stops at a missing key. -/
theorem upchain_missing {f : Nat} {m : NMap} {o : Option String} {k : String}
    (ho : optT o = some k) (hk : mfind m k = none) :
    upchain (f + 1) m o = some [] := by
  rw [upchain_succ, ho]
  show (match mfind m k with
    | none => some []
    | some n => (upchain f m (optT n.parentId)).map (fun l => k :: l)) = some []
  rw [hk]

/-- The walk takes a step at a found node. -/
theorem upchain_found {f : Nat} {m : NMap} {o : Option String} {k : String} {n : Node}
    (ho : optT o = some k) (hk : mfind m k = some n) :
    upchain (f + 1) m o = (upchain f m (optT n.parentId)).map (fun l => k :: l) := by
  rw [upchain_succ, ho]
  show (match mfind m k with
    | none => some []
    | some n => (upchain f m (optT n.parentId)).map (fun l => k :: l))
    = (upchain f m (optT n.parentId)).map (fun l => k :: l)
  rw [hk]

theorem upchain_mono :
    ∀ (F G : Nat), F ≤ G → ∀ (m : NMap) (o : Option String) (l : List String),
      upchain F m o = some l → upchain G m o = some l := by
  intro F
  induction F with
  | zero =>
    intro G _ m o l h
    rcases ho : optT o with _ | k
    · rw [upchain_stop ho] at h
      rw [upchain_stop ho]
      exact h
    · rw [upchain_zero_some ho] at h
      cases h
  | succ f ih =>
    intro G hFG m o l h
    rcases G' : G with _ | g
    · omega
    · rcases ho : optT o with _ | k
      · rw [upchain_stop ho] at h
        rw [upchain_stop ho]
        exact h
      · rcases hk : mfind m k with _ | n
        · rw [upchain_missing ho hk] at h
          rw [upchain_missing ho hk]
          exact h
        · rw [upchain_found ho hk] at h
          rw [upchain_found ho hk]
          rcases Option.map_eq_some'.mp h with ⟨l2, hl2, rfl⟩
          rw [ih g (by omega) m (optT n.parentId) l2 hl2]
          rfl

theorem upchain_unique {F1 F2 : Nat} {m : NMap} {o : Option String}
    {l1 l2 : List String} (h1 : upchain F1 m o = some l1)
    (h2 : upchain F2 m o = some l2) : l1 = l2 := by
  rcases le_total F1 F2 with h | h
  · have h3 := upchain_mono F1 F2 h m o l1 h1
    rw [h3] at h2
    exact Option.some_inj.mp h2
  · have h3 := upchain_mono F2 F1 h m o l2 h2
    rw [h3] at h1
    exact (Option.some_inj.mp h1).symm

/-- The existence and (truthy) parent pointer of each key — all that the
`parentId` walk can observe. -/
def pstruct (m : NMap) (x : String) : Option (Option String) :=
  (mfind m x).map (fun n => optT n.parentId)

theorem upchain_congr {m1 m2 : NMap} (hp : ∀ x, pstruct m1 x = pstruct m2 x) :
    ∀ (F : Nat) (o : Option String), upchain F m1 o = upchain F m2 o := by
  intro F
  induction F with
  | zero => intro o; rw [upchain_zero, upchain_zero]
  | succ f ih =>
    intro o
    rcases ho : optT o with _ | k
    · rw [upchain_stop ho, upchain_stop ho]
    · have hk := hp k
      unfold pstruct at hk
      rcases h1 : mfind m1 k with _ | n1
      · rw [h1] at hk
        rcases h2 : mfind m2 k with _ | n2
        · rw [upchain_missing ho h1, upchain_missing ho h2]
        · rw [h2] at hk; cases hk
      · rw [h1] at hk
        rcases h2 : mfind m2 k with _ | n2
        · rw [h2] at hk; cases hk
        · rw [h2] at hk
          simp only [Option.map_some', Option.some_inj] at hk
          rw [upchain_found ho h1, upchain_found ho h2, hk, ih (optT n2.parentId)]

theorem upchain_suffix :
    ∀ (F : Nat) (m : NMap) (o : Option String) (l : List String),
      upchain F m o = some l → ∀ y ∈ l,
        ∃ l2, upchain F m (some y) = some l2 ∧ l2 <:+ l ∧ ∃ t, l2 = y :: t := by
  intro F
  induction F with
  | zero =>
    intro m o l h y hy
    rcases ho : optT o with _ | k
    · rw [upchain_stop ho] at h
      rw [← Option.some_inj.mp h] at hy
      cases hy
    · rw [upchain_zero_some ho] at h
      cases h
  | succ f ih =>
    intro m o l h y hy
    rcases ho : optT o with _ | k
    · rw [upchain_stop ho] at h
      rw [← Option.some_inj.mp h] at hy
      cases hy
    · rcases hk : mfind m k with _ | n
      · rw [upchain_missing ho hk] at h
        rw [← Option.some_inj.mp h] at hy
        cases hy
      · rw [upchain_found ho hk] at h
        rcases Option.map_eq_some'.mp h with ⟨l', hl', rfl⟩
        rcases List.mem_cons.mp hy with rfl | hy2
        · refine ⟨y :: l', ?_, List.suffix_refl _, l', rfl⟩
          rw [upchain_found (optT_eq_some ho) hk, hl']
          rfl
        · rcases ih m (optT n.parentId) l' hl' y hy2 with ⟨l2, hl2, hsuf, t, ht⟩
          exact ⟨l2, upchain_mono f (f + 1) (Nat.le_succ f) m (some y) l2 hl2,
            hsuf.trans (List.suffix_cons k l'), t, ht⟩

theorem upchain_nodup :
    ∀ (F : Nat) (m : NMap) (o : Option String) (l : List String),
      upchain F m o = some l → l.Nodup := by
  intro F
  induction F with
  | zero =>
    intro m o l h
    rcases ho : optT o with _ | k
    · rw [upchain_stop ho] at h
      rw [← Option.some_inj.mp h]
      exact List.nodup_nil
    · rw [upchain_zero_some ho] at h
      cases h
  | succ f ih =>
    intro m o l h
    rcases ho : optT o with _ | k
    · rw [upchain_stop ho] at h
      rw [← Option.some_inj.mp h]
      exact List.nodup_nil
    · rcases hk : mfind m k with _ | n
      · rw [upchain_missing ho hk] at h
        rw [← Option.some_inj.mp h]
        exact List.nodup_nil
      · rw [upchain_found ho hk] at h
        rcases Option.map_eq_some'.mp h with ⟨l', hl', rfl⟩
        refine List.nodup_cons.mpr ⟨?_, ih m (optT n.parentId) l' hl'⟩
        intro hkl
        rcases upchain_suffix f m (optT n.parentId) l' hl' k hkl with ⟨l2, hl2, hsuf, t, rfl⟩
        have hfull : upchain (f + 1) m (some k) = some (k :: l') := by
          rw [upchain_found (optT_eq_some ho) hk, hl']
          rfl
        have heq : (k :: t) = (k :: l') :=
          upchain_unique (upchain_mono f (f + 1) (Nat.le_succ f) m (some k) (k :: t) hl2) hfull
        have hlen := hsuf.length_le
        rw [heq] at hlen
        simp at hlen

theorem upchain_subset_keys :
    ∀ (F : Nat) (m : NMap) (o : Option String) (l : List String),
      upchain F m o = some l → ∀ y ∈ l, y ∈ mkeys m := by
  intro F
  induction F with
  | zero =>
    intro m o l h y hy
    rcases ho : optT o with _ | k
    · rw [upchain_stop ho] at h
      rw [← Option.some_inj.mp h] at hy
      cases hy
    · rw [upchain_zero_some ho] at h
      cases h
  | succ f ih =>
    intro m o l h y hy
    rcases ho : optT o with _ | k
    · rw [upchain_stop ho] at h
      rw [← Option.some_inj.mp h] at hy
      cases hy
    · rcases hk : mfind m k with _ | n
      · rw [upchain_missing ho hk] at h
        rw [← Option.some_inj.mp h] at hy
        cases hy
      · rw [upchain_found ho hk] at h
        rcases Option.map_eq_some'.mp h with ⟨l', hl', rfl⟩
        rcases List.mem_cons.mp hy with rfl | hy2
        · exact mem_mkeys_of_mfind hk
        · exact ih m (optT n.parentId) l' hl' y hy2

theorem nodup_length_le {l l2 : List String} (nd : l.Nodup) (h : ∀ y ∈ l, y ∈ l2) :
    l.length ≤ l2.length := by
  calc l.length = l.toFinset.card := (List.toFinset_card_of_nodup nd).symm
    _ ≤ l2.toFinset.card := by
        refine Finset.card_le_card (fun x hx => ?_)
        rw [List.mem_toFinset] at hx ⊢
        exact h x hx
    _ ≤ l2.length := l2.toFinset_card_le

theorem mkeys_length (m : NMap) : (mkeys m).length = m.length := by
  unfold mkeys; simp

theorem childrenOfKey_found {m : NMap} {k : String} {n : Node}
    (h : mfind m k = some n) : childrenOfKey m k = n.children := by
  unfold childrenOfKey; rw [h]; rfl

/-! ## C5: updateNode propagates progress to every ancestor -/

/-- Two maps that agree on existence, on every `children` list, and on
the stored progress of childless nodes.  `calculateProgress` cannot
distinguish them, because it only reads stored progress at leaves. -/
def ProgEquiv (m1 m2 : NMap) : Prop :=
  ∀ k, (mfind m1 k).map (fun n => n.children) = (mfind m2 k).map (fun n => n.children) ∧
    ∀ n1 n2, mfind m1 k = some n1 → mfind m2 k = some n2 → n1.children = [] →
      n1.progress = n2.progress

theorem progEquiv_refl (m : NMap) : ProgEquiv m m := by
  intro k
  refine ⟨rfl, fun n1 n2 h1 h2 _ => ?_⟩
  rw [h1] at h2
  rw [Option.some_inj.mp h2]

theorem progEquiv_symm {m1 m2 : NMap} (h : ProgEquiv m1 m2) : ProgEquiv m2 m1 := by
  intro k
  refine ⟨((h k).1).symm, fun n1 n2 h1 h2 hc => ?_⟩
  have hch := (h k).1
  rw [h1, h2] at hch
  simp only [Option.map_some', Option.some_inj] at hch
  exact ((h k).2 n2 n1 h2 h1 (by rw [hch, hc])).symm

theorem progEquiv_trans {m1 m2 m3 : NMap} (h12 : ProgEquiv m1 m2)
    (h23 : ProgEquiv m2 m3) : ProgEquiv m1 m3 := by
  intro k
  refine ⟨((h12 k).1).trans ((h23 k).1), fun n1 n3 h1 h3 hc => ?_⟩
  have hch := (h12 k).1
  rcases h2 : mfind m2 k with _ | n2
  · rw [h1, h2] at hch; cases hch
  · have e12 := (h12 k).2 n1 n2 h1 h2 hc
    rw [h1, h2] at hch
    simp only [Option.map_some', Option.some_inj] at hch
    have e23 := (h23 k).2 n2 n3 h2 h3 (by rw [← hch, hc])
    rw [e12, e23]

theorem calculateProgress_congr {m1 m2 : NMap} (h : ProgEquiv m1 m2) :
    ∀ (f : Nat) (id : String), calculateProgress f id m1 = calculateProgress f id m2 := by
  intro f
  induction f with
  | zero => intro id; rfl
  | succ f ih =>
    intro id
    have hch := (h id).1
    rcases h1 : mfind m1 id with _ | n1
    · rcases h2 : mfind m2 id with _ | n2
      · unfold calculateProgress; rw [h1, h2]
      · rw [h1, h2] at hch; cases hch
    · rcases h2 : mfind m2 id with _ | n2
      · rw [h1, h2] at hch; cases hch
      · rw [h1, h2] at hch
        simp only [Option.map_some', Option.some_inj] at hch
        unfold calculateProgress
        rw [h1, h2]
        dsimp only
        rw [← hch]
        have hmap : n1.children.map (fun childId => calculateProgress f childId m2)
            = n1.children.map (fun childId => calculateProgress f childId m1) :=
          List.map_congr_left (fun c _ => (ih c).symm)
        rw [hmap]
        by_cases hc : n1.children = []
        · rw [if_pos hc, if_pos hc]
          exact (h id).2 n1 n2 h1 h2 hc
        · rw [if_neg hc, if_neg hc]
          have hL : n1.children.map (fun childId => calculateProgress f childId m1) ≠ [] := by
            simpa using hc
          rw [if_neg hL, if_neg hL]

/-- Overwriting only the progress of a node with children preserves
`ProgEquiv`. -/
theorem progEquiv_minsert_progress {m : NMap} {k : String} {n : Node} (p : ℚ)
    (h : mfind m k = some n) (hne : n.children ≠ []) :
    ProgEquiv m (minsert m k { n with progress := p }) := by
  intro x
  constructor
  · rw [mfind_minsert]
    by_cases hx : x = k
    · subst hx; rw [h, if_pos rfl]; rfl
    · rw [if_neg hx]
  · intro n1 n2 h1 h2 hc
    rw [mfind_minsert] at h2
    by_cases hx : x = k
    · subst hx
      rw [h] at h1
      rw [← Option.some_inj.mp h1] at hc
      exact absurd hc hne
    · rw [if_neg hx] at h2
      rw [h1] at h2
      rw [Option.some_inj.mp h2]

theorem pstruct_minsert_samePid {m : NMap} {k : String} {n n2 : Node}
    (h : mfind m k = some n) (hpid : n2.parentId = n.parentId) :
    ∀ x, pstruct (minsert m k n2) x = pstruct m x := by
  intro x
  unfold pstruct
  rw [mfind_minsert]
  by_cases hx : x = k
  · subst hx
    rw [h, if_pos rfl]
    simp [hpid]
  · rw [if_neg hx]

theorem childrenOfKey_minsert_same {m : NMap} {k : String} {n n2 : Node}
    (h : mfind m k = some n) (hch : n2.children = n.children) :
    ∀ x, childrenOfKey (minsert m k n2) x = childrenOfKey m x := by
  intro x
  unfold childrenOfKey
  rw [mfind_minsert]
  by_cases hx : x = k
  · subst hx
    rw [h, if_pos rfl]
    simp [hch]
  · rw [if_neg hx]

theorem upchain_optT (F : Nat) (m : NMap) (o : Option String) :
    upchain F m (optT o) = upchain F m o := by
  cases F
  · rw [upchain_zero, upchain_zero, optT_idem]
  · rw [upchain_succ, upchain_succ, optT_idem]

theorem recalcUp_zero (cf : Nat) (o : Option String) (m : NMap) :
    recalculateProgressUpwards cf 0 o m = m := rfl

theorem recalcUp_stop {cf f : Nat} {o : Option String} {m : NMap}
    (ho : optT o = none) : recalculateProgressUpwards cf (f + 1) o m = m := by
  unfold recalculateProgressUpwards
  rw [ho]

theorem recalcUp_missing {cf f : Nat} {o : Option String} {m : NMap} {k : String}
    (ho : optT o = some k) (hk : mfind m k = none) :
    recalculateProgressUpwards cf (f + 1) o m = m := by
  conv_lhs => rw [recalculateProgressUpwards]
  simp only [ho, hk]

theorem recalcUp_found {cf f : Nat} {o : Option String} {m : NMap} {k : String} {n : Node}
    (ho : optT o = some k) (hk : mfind m k = some n) :
    recalculateProgressUpwards cf (f + 1) o m =
      recalculateProgressUpwards cf f (n.parentId)
        (minsert m k { n with progress := (calculateProgress cf k m : ℚ) }) := by
  conv_lhs => rw [recalculateProgressUpwards]
  simp only [ho, hk]

theorem upchain_nil_cases {F : Nat} {m : NMap} {o : Option String}
    (h : upchain F m o = some []) :
    optT o = none ∨ (∃ k, optT o = some k ∧ mfind m k = none) := by
  rcases ho : optT o with _ | k
  · exact Or.inl rfl
  · rcases F with _ | f
    · rw [upchain_zero_some ho] at h; cases h
    · rcases hk : mfind m k with _ | n
      · exact Or.inr ⟨k, rfl, hk⟩
      · rw [upchain_found ho hk] at h
        rcases Option.map_eq_some'.mp h with ⟨l', _, hl'⟩
        cases hl'

theorem recalcUp_nil {cf : Nat} {m : NMap} {o : Option String}
    (h : optT o = none ∨ (∃ k, optT o = some k ∧ mfind m k = none)) :
    ∀ fuel, recalculateProgressUpwards cf fuel o m = m := by
  intro fuel
  rcases fuel with _ | f
  · rfl
  · rcases h with ho | ⟨k, ho, hk⟩
    · exact recalcUp_stop ho
    · exact recalcUp_missing ho hk

theorem recalcUp_length (cf : Nat) :
    ∀ (fuel : Nat) (o : Option String) (m : NMap),
      (recalculateProgressUpwards cf fuel o m).length = m.length := by
  intro fuel
  induction fuel with
  | zero => intro o m; rfl
  | succ f ih =>
    intro o m
    rcases ho : optT o with _ | k
    · rw [recalcUp_stop ho]
    · rcases hk : mfind m k with _ | n
      · rw [recalcUp_missing ho hk]
      · rw [recalcUp_found ho hk, ih]
        rw [length_minsert]
        rw [if_pos (by simp [hk])]

/-- The behaviour of `recalculateProgressUpwards` along a terminating
ancestor chain of nodes that all have children: the final map is
`ProgEquiv` to the start, ids off the chain are untouched, and every
chain node ends up holding `calculateProgress` of the starting map. -/
theorem recalcUp_spec (cf : Nat) :
    ∀ (l : List String) (F : Nat) (m : NMap) (o : Option String),
      upchain F m o = some l →
      (∀ k ∈ l, childrenOfKey m k ≠ []) →
      ∀ fuel, l.length ≤ fuel →
        ProgEquiv m (recalculateProgressUpwards cf fuel o m) ∧
        (∀ x, x ∉ l →
          mfind (recalculateProgressUpwards cf fuel o m) x = mfind m x) ∧
        (∀ k ∈ l, ∃ nk, mfind (recalculateProgressUpwards cf fuel o m) k = some nk ∧
          nk.progress = calculateProgress cf k m) := by
  intro l
  induction l with
  | nil =>
    intro F m o hchain _ fuel _
    have hnil := @recalcUp_nil cf m o (upchain_nil_cases hchain) fuel
    rw [hnil]
    exact ⟨progEquiv_refl m, fun x _ => rfl, fun k hk => absurd hk (by simp)⟩
  | cons k rest ih =>
    intro F m o hchain hch fuel hlen
    have hnodup := upchain_nodup F m o (k :: rest) hchain
    have hkrest : k ∉ rest := (List.nodup_cons.mp hnodup).1
    rcases F with _ | F'
    · rcases ho : optT o with _ | k2
      · rw [upchain_stop ho] at hchain; cases hchain
      · rw [upchain_zero_some ho] at hchain; cases hchain
    · rcases ho : optT o with _ | k2
      · rw [upchain_stop ho] at hchain; cases hchain
      · rcases hk2 : mfind m k2 with _ | n
        · rw [upchain_missing ho hk2] at hchain; cases hchain
        · rw [upchain_found ho hk2] at hchain
          rcases Option.map_eq_some'.mp hchain with ⟨rest2, hrest2, hcons2⟩
          injection hcons2 with hkk2 hrr
          rw [hkk2] at ho hk2
          rw [hrr] at hrest2
          rcases fuel with _ | fu
          · simp at hlen
          · have hne : n.children ≠ [] := by
              rw [← childrenOfKey_found hk2]
              exact hch k (by simp)
            have hstep := @recalcUp_found cf fu o m k n ho hk2
            have hP1 : ProgEquiv m
                (minsert m k { n with progress := (calculateProgress cf k m : ℚ) }) :=
              progEquiv_minsert_progress _ hk2 hne
            have hpst : ∀ x, pstruct
                (minsert m k { n with progress := (calculateProgress cf k m : ℚ) }) x
                = pstruct m x :=
              pstruct_minsert_samePid hk2 rfl
            have hchk : ∀ x, childrenOfKey
                (minsert m k { n with progress := (calculateProgress cf k m : ℚ) }) x
                = childrenOfKey m x :=
              childrenOfKey_minsert_same hk2 rfl
            have hchain1 : upchain F'
                (minsert m k { n with progress := (calculateProgress cf k m : ℚ) })
                (n.parentId) = some rest := by
              rw [upchain_congr hpst F' (n.parentId), ← upchain_optT F' m (n.parentId)]
              exact hrest2
            have hch1 : ∀ x ∈ rest, childrenOfKey
                (minsert m k { n with progress := (calculateProgress cf k m : ℚ) }) x ≠ [] := by
              intro x hx
              rw [hchk x]
              exact hch x (by simp [hx])
            have hfu : rest.length ≤ fu := by
              simp only [List.length_cons] at hlen
              omega
            rcases ih F' (minsert m k { n with progress := (calculateProgress cf k m : ℚ) })
              (n.parentId) hchain1 hch1 fu hfu with ⟨ihP, ihFrame, ihVals⟩
            rw [hstep]
            refine ⟨progEquiv_trans hP1 ihP, ?_, ?_⟩
            · intro x hx
              have hxk : x ≠ k := fun hxk => hx (by rw [hxk]; simp)
              have hxrest : x ∉ rest := fun hxr => hx (by simp [hxr])
              rw [ihFrame x hxrest, mfind_minsert, if_neg hxk]
            · intro k3 hk3
              rcases List.mem_cons.mp hk3 with rfl | hk3r
              · refine ⟨{ n with progress := (calculateProgress cf k3 m : ℚ) }, ?_, rfl⟩
                rw [ihFrame k3 hkrest, mfind_minsert, if_pos rfl]
              · rcases ihVals k3 hk3r with ⟨nk, hnk, hprog⟩
                refine ⟨nk, hnk, ?_⟩
                rw [hprog]
                exact (calculateProgress_congr hP1 cf k3).symm

theorem applyPatch_children_none {n : Node} {d : NodePatch} (h : d.children = none) :
    (applyPatch n d).children = n.children := by
  show d.children.getD n.children = n.children
  rw [h]
  rfl

theorem applyPatch_parentId_none {n : Node} {d : NodePatch} (h : d.parentId = none) :
    (applyPatch n d).parentId = n.parentId := by
  show d.parentId.or n.parentId = n.parentId
  rw [h]
  rfl

/-- In a consistent store, every node on an ancestor chain has a
nonempty `children` list (it contains the node the walk came from). -/
theorem chain_children_nonempty (s : Store) (hcons : Consistent s) :
    ∀ (F : Nat) (b : String) (nb : Node) (l : List String),
      mfind s.nodes b = some nb →
      upchain F s.nodes (nb.parentId) = some l →
      ∀ k ∈ l, childrenOfKey s.nodes k ≠ [] := by
  intro F
  induction F with
  | zero =>
    intro b nb l hb hchain k hk
    rcases ho : optT nb.parentId with _ | p
    · rw [upchain_stop ho] at hchain
      rw [← Option.some_inj.mp hchain] at hk
      cases hk
    · rw [upchain_zero_some ho] at hchain
      cases hchain
  | succ F ih =>
    intro b nb l hb hchain k hk
    rcases ho : optT nb.parentId with _ | p
    · rw [upchain_stop ho] at hchain
      rw [← Option.some_inj.mp hchain] at hk
      cases hk
    · rcases hp : mfind s.nodes p with _ | np
      · rw [upchain_missing ho hp] at hchain
        rw [← Option.some_inj.mp hchain] at hk
        cases hk
      · rw [upchain_found ho hp] at hchain
        rcases Option.map_eq_some'.mp hchain with ⟨rest, hrest, hconsl⟩
        rw [← hconsl] at hk
        rcases List.mem_cons.mp hk with hkp | hkr
        · subst hkp
          have hbmem : b ∈ np.children := by
            have hcc := hcons.1 b (mem_mkeys_of_mfind hb)
            unfold nodeContainerCount at hcc
            simp only [hb, ho] at hcc
            unfold childCountOf at hcc
            rw [hp] at hcc
            simp only [Option.map_some', Option.getD_some] at hcc
            exact List.count_pos_iff.mp (by omega)
          rw [childrenOfKey_found hp]
          exact List.ne_nil_of_mem hbmem
        · rw [upchain_optT] at hrest
          exact ih p np rest hp hrest k hkr

/-- Unfolding the node map of `updateNode` when a changed progress
triggers aggregation. -/
theorem updateNode_recalc_nodes {s : Store} {B : String} {nB : Node} {d : NodePatch}
    {q : ℚ} (hB : mfind s.nodes B = some nB) (hdp : d.progress = some q)
    (hne : ¬ q = nB.progress) :
    (updateNode s B d).nodes =
      recalculateProgressUpwards ((minsert s.nodes B (applyPatch nB d)).length + 1)
        ((minsert s.nodes B (applyPatch nB d)).length + 1) (nB.parentId)
        (minsert s.nodes B (applyPatch nB d)) := by
  unfold updateNode
  simp only [hB, hdp, if_neg hne]

/-- C5: on a consistent store with terminating ancestor chains, updating
an existing node `B` with a changed `progress` value propagates upward:
afterwards every ancestor of `B` holds exactly the progress that
`calculateProgress` computes over the updated store.  The hypotheses
spell out the forest invariant as the decidable facts the walk needs:
consistency and the (fuel `length+1`) ancestor chain of `B`.  The patch
is a plain field update (it does not rewrite `children`, `parentId`). -/
theorem updateNode_aggregates (s : Store) (B : String) (nB : Node) (d : NodePatch)
    (q : ℚ) (ancs : List String)
    (hcons : Consistent s)
    (hB : mfind s.nodes B = some nB)
    (hdp : d.progress = some q) (hne : ¬ q = nB.progress)
    (hdc : d.children = none) (hdpid : d.parentId = none)
    (hchain : upchain (s.nodes.length + 1) s.nodes (nB.parentId) = some ancs) :
    ∀ A ∈ ancs, ∃ nA, mfind (updateNode s B d).nodes A = some nA ∧
      nA.progress = calculateProgress ((updateNode s B d).nodes.length + 1) A
        (updateNode s B d).nodes := by
  have hlen1 : (minsert s.nodes B (applyPatch nB d)).length = s.nodes.length := by
    rw [length_minsert, if_pos (by simp [hB])]
  have hpatch_ch : (applyPatch nB d).children = nB.children := applyPatch_children_none hdc
  have hpatch_pid : (applyPatch nB d).parentId = nB.parentId := applyPatch_parentId_none hdpid
  have hpst : ∀ x, pstruct (minsert s.nodes B (applyPatch nB d)) x = pstruct s.nodes x :=
    pstruct_minsert_samePid hB hpatch_pid
  have hchain1 : upchain (s.nodes.length + 1) (minsert s.nodes B (applyPatch nB d))
      (nB.parentId) = some ancs := by
    rw [upchain_congr hpst _ (nB.parentId)]
    exact hchain
  have hchk : ∀ x, childrenOfKey (minsert s.nodes B (applyPatch nB d)) x
      = childrenOfKey s.nodes x :=
    childrenOfKey_minsert_same hB hpatch_ch
  have hch0 : ∀ k ∈ ancs, childrenOfKey s.nodes k ≠ [] :=
    chain_children_nonempty s hcons (s.nodes.length + 1) B nB ancs hB hchain
  have hch1 : ∀ k ∈ ancs, childrenOfKey (minsert s.nodes B (applyPatch nB d)) k ≠ [] :=
    fun k hk => by rw [hchk k]; exact hch0 k hk
  have hanclen : ancs.length ≤ s.nodes.length := by
    have h1 := nodup_length_le (upchain_nodup _ _ _ _ hchain)
      (upchain_subset_keys _ _ _ _ hchain)
    rw [mkeys_length] at h1
    exact h1
  rcases recalcUp_spec ((minsert s.nodes B (applyPatch nB d)).length + 1) ancs
      (s.nodes.length + 1) (minsert s.nodes B (applyPatch nB d)) (nB.parentId)
      hchain1 hch1 ((minsert s.nodes B (applyPatch nB d)).length + 1)
      (by rw [hlen1]; omega)
    with ⟨hP, hFrame, hVals⟩
  intro A hA
  rcases hVals A hA with ⟨nA, hnA, hprog⟩
  rw [updateNode_recalc_nodes hB hdp hne]
  refine ⟨nA, hnA, ?_⟩
  rw [hprog, recalcUp_length]
  exact calculateProgress_congr hP _ A

/-- Witness for `updateNode_aggregates` on the spec's example: setting
`B` to 80 under key result `K` under goal `G`. -/
theorem updateNode_aggregates_witness :
    Consistent demoStore ∧
    mfind demoStore.nodes "B" = some (mkNode "B" (some "K") [] 0 none) ∧
    upchain (demoStore.nodes.length + 1) demoStore.nodes
      ((mkNode "B" (some "K") [] 0 none).parentId) = some ["K", "G"] ∧
    (∀ A ∈ ["K", "G"], ∃ nA,
      mfind (updateNode demoStore "B"
        { NodePatch.empty with progress := some 80 }).nodes A = some nA ∧
      nA.progress = calculateProgress
        ((updateNode demoStore "B"
          { NodePatch.empty with progress := some 80 }).nodes.length + 1) A
        (updateNode demoStore "B"
          { NodePatch.empty with progress := some 80 }).nodes) :=
  ⟨by decide, by decide, by decide,
   updateNode_aggregates demoStore "B" (mkNode "B" (some "K") [] 0 none)
     { NodePatch.empty with progress := some 80 } 80 ["K", "G"]
     (by decide) (by decide) rfl (by decide) rfl rfl (by decide)⟩

/-! ## C7: deleteNode removes exactly the subtree -/

/-- Every id in a `children` list that resolves points back to its
parent.  A consequence of `Consistent`. -/
def Backlinks (m : NMap) : Prop :=
  ∀ p np c, mfind m p = some np → c ∈ np.children →
    ∀ nc, mfind m c = some nc → optT nc.parentId = some p

/-- Every existing node has a terminating parent chain. -/
def ChainsTerm (m : NMap) : Prop :=
  ∀ k nk, mfind m k = some nk → ∃ F l, upchain F m (some k) = some l

/-- Every `children` list is duplicate-free. -/
def ChildNodup (m : NMap) : Prop :=
  ∀ p np, mfind m p = some np → np.children.Nodup

/-- The facts about the raw map that the deletion argument needs; all of
them follow from the `Forest` invariant of the enclosing store. -/
def DelHyp (m : NMap) : Prop :=
  Backlinks m ∧ ChainsTerm m ∧ mfind m "" = none ∧ ChildNodup m

/-- `m2` arises from `m1` by removing entries (values never change). -/
def Submap (m2 m1 : NMap) : Prop :=
  ∀ x, mfind m2 x = mfind m1 x ∨ mfind m2 x = none

theorem Submap.refl (m : NMap) : Submap m m := fun _ => Or.inl rfl

theorem Submap.trans {m3 m2 m1 : NMap} (h32 : Submap m3 m2) (h21 : Submap m2 m1) :
    Submap m3 m1 := by
  intro x
  rcases h32 x with h | h
  · rw [h]; exact h21 x
  · exact Or.inr h

theorem deleteRec_submap (f : Nat) (m : NMap) (c : String) :
    Submap (deleteRecursive f m c) m :=
  fun x => deleteRec_find_cases f m c x

theorem upchain_shrink {m2 m1 : NMap} (hsub : Submap m2 m1) :
    ∀ (F : Nat) (o : Option String) (l : List String),
      upchain F m1 o = some l → ∃ l2, upchain F m2 o = some l2 := by
  intro F
  induction F with
  | zero =>
    intro o l h
    rcases ho : optT o with _ | k
    · exact ⟨[], upchain_stop ho⟩
    · rw [upchain_zero_some ho] at h; cases h
  | succ f ih =>
    intro o l h
    rcases ho : optT o with _ | k
    · exact ⟨[], upchain_stop ho⟩
    · rcases hk2 : mfind m2 k with _ | n2
      · exact ⟨[], upchain_missing ho hk2⟩
      · have hk1 : mfind m1 k = some n2 := by
          rcases hsub k with hs | hs
          · rw [← hs]; exact hk2
          · rw [hk2] at hs; cases hs
        rw [upchain_found ho hk1] at h
        rcases Option.map_eq_some'.mp h with ⟨l', hl', _⟩
        rcases ih (optT n2.parentId) l' hl' with ⟨l2, hl2⟩
        exact ⟨k :: l2, by rw [upchain_found ho hk2, hl2]; rfl⟩

theorem delHyp_submap {m2 m1 : NMap} (hsub : Submap m2 m1) (h : DelHyp m1) :
    DelHyp m2 := by
  obtain ⟨hbl, hct, hne, hcn⟩ := h
  refine ⟨?_, ?_, ?_, ?_⟩
  · intro p np c hp hc nc hnc
    have hp1 : mfind m1 p = some np := by
      rcases hsub p with hs | hs
      · rw [← hs]; exact hp
      · rw [hp] at hs; cases hs
    have hnc1 : mfind m1 c = some nc := by
      rcases hsub c with hs | hs
      · rw [← hs]; exact hnc
      · rw [hnc] at hs; cases hs
    exact hbl p np c hp1 hc nc hnc1
  · intro k nk hk
    have hk1 : mfind m1 k = some nk := by
      rcases hsub k with hs | hs
      · rw [← hs]; exact hk
      · rw [hk] at hs; cases hs
    rcases hct k nk hk1 with ⟨F, l, hl⟩
    rcases upchain_shrink hsub F (some k) l hl with ⟨l2, hl2⟩
    exact ⟨F, l2, hl2⟩
  · rcases hsub "" with hs | hs
    · rw [hs]; exact hne
    · exact hs
  · intro p np hp
    have hp1 : mfind m1 p = some np := by
      rcases hsub p with hs | hs
      · rw [← hs]; exact hp
      · rw [hp] at hs; cases hs
    exact hcn p np hp1

theorem collect_zero (m : NMap) (c : String) : collect 0 m c = [] := rfl

theorem collect_succ_missing {f : Nat} {m : NMap} {c : String}
    (hc : mfind m c = none) : collect (f + 1) m c = [] := by
  unfold collect
  rw [hc]

theorem collect_succ_found {f : Nat} {m : NMap} {c : String} {n : Node}
    (hc : mfind m c = some n) :
    collect (f + 1) m c = (n.children.map (collect f m)).flatten ++ [c] := by
  unfold collect
  rw [hc]

theorem self_mem_collect {f : Nat} {m : NMap} {c : String} {n : Node}
    (hc : mfind m c = some n) : c ∈ collect (f + 1) m c := by
  rw [collect_succ_found hc]
  simp

theorem collect_exists :
    ∀ (f : Nat) (m : NMap) (c x : String), x ∈ collect f m c →
      (mfind m x).isSome ∧ (mfind m c).isSome := by
  intro f
  induction f with
  | zero => intro m c x hx; cases hx
  | succ f ih =>
    intro m c x hx
    rcases hc : mfind m c with _ | n
    · rw [collect_succ_missing hc] at hx; cases hx
    · rw [collect_succ_found hc] at hx
      rcases List.mem_append.mp hx with hx2 | hx2
      · rcases List.mem_flatten.mp hx2 with ⟨ls, hls, hxls⟩
        rcases List.mem_map.mp hls with ⟨ci, _, rfl⟩
        exact ⟨(ih m ci x hxls).1, by simp [hc]⟩
      · rcases List.mem_singleton.mp hx2 with rfl
        exact ⟨by simp [hc], by simp [hc]⟩

theorem collect_mono :
    ∀ (f : Nat) (m : NMap) (c x : String), x ∈ collect f m c →
      x ∈ collect (f + 1) m c := by
  intro f
  induction f with
  | zero => intro m c x hx; cases hx
  | succ f ih =>
    intro m c x hx
    rcases hc : mfind m c with _ | n
    · rw [collect_succ_missing hc] at hx; cases hx
    · rw [collect_succ_found hc] at hx
      rw [collect_succ_found hc]
      rcases List.mem_append.mp hx with hx2 | hx2
      · rcases List.mem_flatten.mp hx2 with ⟨ls, hls, hxls⟩
        rcases List.mem_map.mp hls with ⟨ci, hci, rfl⟩
        refine List.mem_append_left _ (List.mem_flatten.mpr ⟨collect (f + 1) m ci, ?_, ?_⟩)
        · exact List.mem_map.mpr ⟨ci, hci, rfl⟩
        · exact ih m ci x hxls
      · exact List.mem_append_right _ hx2

theorem found_ne_empty {m : NMap} {k : String} {n : Node}
    (hne : mfind m "" = none) (hk : mfind m k = some n) : k ≠ "" := by
  intro h
  rw [h, hne] at hk
  cases hk

/-- A terminating chain from a found node starts with that node. -/
theorem upchain_found_cons {m : NMap} {k : String} {n : Node} {F : Nat}
    {l : List String} (hne : k ≠ "") (hk : mfind m k = some n)
    (h : upchain F m (some k) = some l) :
    ∃ F2 t, F = F2 + 1 ∧ l = k :: t ∧ upchain F2 m (optT n.parentId) = some t := by
  have ho : optT (some k) = some k := by rw [optT_some, if_neg hne]
  rcases F with _ | F2
  · rw [upchain_zero_some ho] at h; cases h
  · rw [upchain_found ho hk] at h
    rcases Option.map_eq_some'.mp h with ⟨t, ht, hcons⟩
    exact ⟨F2, t, rfl, hcons.symm, ht⟩

/-- Everything collected under `c` has `c` on its ancestor chain. -/
theorem collect_onChain {m : NMap} (hyp : DelHyp m) :
    ∀ (f : Nat) (c x : String), x ∈ collect f m c →
      ∃ F l, upchain F m (some x) = some l ∧ c ∈ l := by
  obtain ⟨hbl, hct, hne0, _⟩ := hyp
  intro f
  induction f with
  | zero => intro c x hx; cases hx
  | succ f ih =>
    intro c x hx
    rcases hc : mfind m c with _ | n
    · rw [collect_succ_missing hc] at hx; cases hx
    · rw [collect_succ_found hc] at hx
      rcases List.mem_append.mp hx with hx2 | hx2
      · rcases List.mem_flatten.mp hx2 with ⟨ls, hls, hxls⟩
        rcases List.mem_map.mp hls with ⟨ci, hci, rfl⟩
        rcases ih ci x hxls with ⟨F, l, hl, hcil⟩
        have hcifound := (collect_exists f m ci x hxls).2
        rcases hcif : mfind m ci with _ | nci
        · rw [hcif] at hcifound; simp at hcifound
        · rcases upchain_suffix F m (some x) l hl ci hcil with ⟨lci, hlci, hsuf, t, hteq⟩
          rcases upchain_found_cons (found_ne_empty hne0 hcif) hcif hlci
            with ⟨F2, t2, hF, hcons, ht2⟩
          have hpid : optT nci.parentId = some c := hbl c n ci hc hci nci hcif
          rw [hpid] at ht2
          rcases upchain_found_cons (found_ne_empty hne0 hc) hc ht2
            with ⟨F3, t3, _, hct3, _⟩
          refine ⟨F, l, hl, hsuf.subset ?_⟩
          rw [hcons, hct3]
          simp
      · have hxc : x = c := List.mem_singleton.mp hx2
        rcases hct c n hc with ⟨F, l, hl⟩
        rcases upchain_found_cons (found_ne_empty hne0 hc) hc hl with ⟨F2, t, _, hcons, _⟩
        refine ⟨F, l, ?_, by rw [hcons]; simp⟩
        rw [hxc]
        exact hl

theorem suffix_eq_of_length {l1 l2 l : List String} (h1 : l1 <:+ l) (h2 : l2 <:+ l)
    (hlen : l1.length = l2.length) : l1 = l2 := by
  rcases h1 with ⟨u1, rfl⟩
  rcases h2 with ⟨u2, hu2⟩
  have hul : u2.length = u1.length := by
    have hc := congrArg List.length hu2
    simp only [List.length_append] at hc
    omega
  exact ((List.append_inj hu2 hul).2).symm

/-- The subtrees of two distinct children of the same node are disjoint. -/
theorem collect_disjoint {m : NMap} (hyp : DelHyp m) {P : String} {nP : Node}
    (hP : mfind m P = some nP) {c1 c2 : String} (hc1 : c1 ∈ nP.children)
    (hc2 : c2 ∈ nP.children) (hcne : c1 ≠ c2) :
    ∀ (f1 f2 : Nat) (x : String), x ∈ collect f1 m c1 → x ∈ collect f2 m c2 → False := by
  intro f1 f2 x hx1 hx2
  rcases collect_onChain hyp f1 c1 x hx1 with ⟨F1, l1, hl1, hc1l⟩
  rcases collect_onChain hyp f2 c2 x hx2 with ⟨F2, l2, hl2, hc2l⟩
  have hleq : l1 = l2 := upchain_unique hl1 hl2
  rw [← hleq] at hc2l
  rcases upchain_suffix F1 m (some x) l1 hl1 c1 hc1l with ⟨lc1, hlc1, hsuf1, t1, ht1⟩
  rcases upchain_suffix F1 m (some x) l1 hl1 c2 hc2l with ⟨lc2, hlc2, hsuf2, t2, ht2⟩
  have h1f := (collect_exists f1 m c1 x hx1).2
  have h2f := (collect_exists f2 m c2 x hx2).2
  rcases hf1 : mfind m c1 with _ | n1
  · rw [hf1] at h1f; simp at h1f
  rcases hf2 : mfind m c2 with _ | n2
  · rw [hf2] at h2f; simp at h2f
  obtain ⟨hbl, _, hne0, _⟩ := hyp
  rcases upchain_found_cons (found_ne_empty hne0 hf1) hf1 hlc1 with ⟨F1b, t1b, _, hcons1, ht1b⟩
  rcases upchain_found_cons (found_ne_empty hne0 hf2) hf2 hlc2 with ⟨F2b, t2b, _, hcons2, ht2b⟩
  have hp1 : optT n1.parentId = some P := hbl P nP c1 hP hc1 n1 hf1
  have hp2 : optT n2.parentId = some P := hbl P nP c2 hP hc2 n2 hf2
  rw [hp1] at ht1b
  rw [hp2] at ht2b
  have htb : t1b = t2b := upchain_unique ht1b ht2b
  have hleneq : lc1.length = lc2.length := by
    rw [hcons1, hcons2, htb]
    simp
  have heq := suffix_eq_of_length hsuf1 hsuf2 hleneq
  rw [hcons1, hcons2] at heq
  injection heq with hcc
  exact hcne hcc

/-- Removing entries off a subtree does not change the subtree. -/
theorem collect_congr {m m2 : NMap} (hsub : Submap m2 m) :
    ∀ (f : Nat) (c : String),
      (∀ x ∈ collect f m c, mfind m2 x = mfind m x) →
      collect f m2 c = collect f m c := by
  intro f
  induction f with
  | zero => intro c _; rfl
  | succ f ih =>
    intro c hag
    rcases hc : mfind m c with _ | n
    · have hc2 : mfind m2 c = none := by
        rcases hsub c with hs | hs
        · rw [hs]; exact hc
        · exact hs
      rw [collect_succ_missing hc, collect_succ_missing hc2]
    · have hc2 : mfind m2 c = some n := by
        rw [hag c (self_mem_collect hc)]
        exact hc
      rw [collect_succ_found hc, collect_succ_found hc2]
      congr 2
      refine List.map_congr_left (fun ci hci => ?_)
      refine ih ci (fun x hx => hag x ?_)
      rw [collect_succ_found hc]
      exact List.mem_append_left _
        (List.mem_flatten.mpr ⟨collect f m ci, List.mem_map.mpr ⟨ci, hci, rfl⟩, hx⟩)

theorem deleteRec_zero (m : NMap) (c : String) : deleteRecursive 0 m c = m := rfl

theorem deleteRec_missing {f : Nat} {m : NMap} {c : String}
    (hc : mfind m c = none) : deleteRecursive (f + 1) m c = m := by
  unfold deleteRecursive
  rw [hc]

theorem deleteRec_found {f : Nat} {m : NMap} {c : String} {n : Node}
    (hc : mfind m c = some n) :
    deleteRecursive (f + 1) m c = merase (n.children.foldl (deleteRecursive f) m) c := by
  unfold deleteRecursive
  rw [hc]

/-- The fold in `deleteRecursive` deletes exactly the union of the
children's subtrees, given that the subtrees of distinct children are
disjoint (which `collect_disjoint` provides). -/
theorem foldl_delete_spec (f : Nat) {m : NMap} (hyp : DelHyp m)
    (IH : ∀ (m2 : NMap), DelHyp m2 → ∀ (c x : String),
      mfind (deleteRecursive f m2 c) x
        = if x ∈ collect f m2 c then none else mfind m2 x)
    {P : String} {nP : Node} (hP : mfind m P = some nP) :
    ∀ (cs : List String), cs.Nodup → (∀ ci ∈ cs, ci ∈ nP.children) →
    ∀ (S0 : List String) (m0 : NMap),
      (∀ x, mfind m0 x = if x ∈ S0 then none else mfind m x) →
      (∀ ci ∈ cs, ∀ x ∈ collect f m ci, x ∉ S0) →
      ∀ x, mfind (cs.foldl (deleteRecursive f) m0) x =
        if (x ∈ S0 ∨ ∃ ci ∈ cs, x ∈ collect f m ci) then none else mfind m x := by
  intro cs
  induction cs with
  | nil =>
    intro _ _ S0 m0 hm0 _ x
    rw [List.foldl_nil, hm0 x]
    by_cases hx : x ∈ S0
    · rw [if_pos hx, if_pos (Or.inl hx)]
    · rw [if_neg hx, if_neg (by simp [hx])]
  | cons c1 cs ihcs =>
    intro hnodup hmem S0 m0 hm0 hdisj x
    have hsub0 : Submap m0 m := by
      intro y
      rw [hm0 y]
      by_cases hy : y ∈ S0
      · rw [if_pos hy]; exact Or.inr rfl
      · rw [if_neg hy]; exact Or.inl rfl
    have hyp0 : DelHyp m0 := delHyp_submap hsub0 hyp
    have hcol : collect f m0 c1 = collect f m c1 := by
      refine collect_congr hsub0 f c1 (fun y hy => ?_)
      rw [hm0 y, if_neg (hdisj c1 (by simp) y hy)]
    have hm1 : ∀ y, mfind (deleteRecursive f m0 c1) y
        = if y ∈ S0 ++ collect f m c1 then none else mfind m y := by
      intro y
      rw [IH m0 hyp0 c1 y, hcol, hm0 y]
      by_cases hy1 : y ∈ collect f m c1
      · rw [if_pos hy1, if_pos (List.mem_append.mpr (Or.inr hy1))]
      · rw [if_neg hy1]
        by_cases hy0 : y ∈ S0
        · rw [if_pos hy0, if_pos (List.mem_append.mpr (Or.inl hy0))]
        · rw [if_neg hy0, if_neg (by simp [hy0, hy1])]
    have hdisj1 : ∀ ci ∈ cs, ∀ y ∈ collect f m ci, y ∉ S0 ++ collect f m c1 := by
      intro ci hci y hy hmem2
      rcases List.mem_append.mp hmem2 with h0 | h1
      · exact hdisj ci (by simp [hci]) y hy h0
      · have hcine : ci ≠ c1 := by
          intro he
          rw [he] at hci
          exact (List.nodup_cons.mp hnodup).1 hci
        exact collect_disjoint hyp hP (hmem ci (by simp [hci])) (hmem c1 (by simp))
          hcine f f y hy h1
    rw [List.foldl_cons]
    rw [ihcs (List.nodup_cons.mp hnodup).2 (fun ci hci => hmem ci (by simp [hci]))
      (S0 ++ collect f m c1) (deleteRecursive f m0 c1) hm1 hdisj1 x]
    have hiff : (x ∈ S0 ++ collect f m c1 ∨ ∃ ci ∈ cs, x ∈ collect f m ci) ↔
        (x ∈ S0 ∨ ∃ ci ∈ c1 :: cs, x ∈ collect f m ci) := by
      simp only [List.mem_append, List.mem_cons]
      constructor
      · rintro ((h | h) | ⟨ci, hci, hx⟩)
        · exact Or.inl h
        · exact Or.inr ⟨c1, Or.inl rfl, h⟩
        · exact Or.inr ⟨ci, Or.inr hci, hx⟩
      · rintro (h | ⟨ci, hci | hci, hx⟩)
        · exact Or.inl (Or.inl h)
        · exact Or.inl (Or.inr (by rw [← hci]; exact hx))
        · exact Or.inr ⟨ci, hci, hx⟩
    by_cases hcond : x ∈ S0 ++ collect f m c1 ∨ ∃ ci ∈ cs, x ∈ collect f m ci
    · rw [if_pos hcond, if_pos (hiff.mp hcond)]
    · rw [if_neg hcond, if_neg (fun h => hcond (hiff.mpr h))]

/-- `deleteRecursive` removes exactly the `collect` subtree and touches
nothing else. -/
theorem deleteRec_spec :
    ∀ (f : Nat) (m : NMap), DelHyp m → ∀ (c x : String),
      mfind (deleteRecursive f m c) x
        = if x ∈ collect f m c then none else mfind m x := by
  intro f
  induction f with
  | zero =>
    intro m _ c x
    rw [deleteRec_zero, collect_zero]
    simp
  | succ f ih =>
    intro m hyp c x
    rcases hc : mfind m c with _ | n
    · rw [deleteRec_missing hc, collect_succ_missing hc]
      simp
    · rw [deleteRec_found hc, collect_succ_found hc]
      have hnodup : n.children.Nodup := hyp.2.2.2 c n hc
      have hfold := foldl_delete_spec f hyp ih hc n.children hnodup
        (fun _ h => h) [] m (fun y => by simp) (fun _ _ y _ hy => by cases hy) x
      rw [mfind_merase]
      by_cases hxc : x = c
      · rw [if_pos hxc, if_pos (by rw [hxc]; simp)]
      · rw [if_neg hxc, hfold]
        have hiff : (x ∈ ([] : List String) ∨ ∃ ci ∈ n.children, x ∈ collect f m ci) ↔
            x ∈ (n.children.map (collect f m)).flatten ++ [c] := by
          simp only [List.mem_append, List.mem_flatten, List.mem_map, List.mem_singleton]
          constructor
          · rintro (h | ⟨ci, hci, hx⟩)
            · cases h
            · exact Or.inl ⟨collect f m ci, ⟨ci, hci, rfl⟩, hx⟩
          · rintro (⟨ls, ⟨ci, hci, rfl⟩, hx⟩ | h)
            · exact Or.inr ⟨ci, hci, hx⟩
            · exact absurd h hxc
        by_cases hcond : x ∈ ([] : List String) ∨ ∃ ci ∈ n.children, x ∈ collect f m ci
        · rw [if_pos hcond, if_pos (hiff.mp hcond)]
        · rw [if_neg hcond, if_neg (fun h => hcond (hiff.mpr h))]

/-- Every node's (truthy) parent, if it resolves, contains the node in
its `children`.  A consequence of `Consistent`. -/
def Forward (m : NMap) : Prop :=
  ∀ x nx p np, mfind m x = some nx → optT nx.parentId = some p →
    mfind m p = some np → x ∈ np.children

theorem consistent_backlinks {s : Store} (hcons : Consistent s) : Backlinks s.nodes := by
  intro p np c hp hc nc hnc
  have hb := hcons.2.2 p (mem_mkeys_of_mfind hp) c (by rw [childrenOfKey_found hp]; exact hc)
  unfold parentKeyOf at hb
  rw [hnc] at hb
  simp only [Option.map_some', Option.some_inj] at hb
  exact hb

theorem consistent_forward {s : Store} (hcons : Consistent s) : Forward s.nodes := by
  intro x nx p np hx hpid hp
  have hcc := hcons.1 x (mem_mkeys_of_mfind hx)
  unfold nodeContainerCount at hcc
  simp only [hx, hpid] at hcc
  unfold childCountOf at hcc
  rw [hp] at hcc
  simp only [Option.map_some', Option.getD_some] at hcc
  exact List.count_pos_iff.mp (by omega)

theorem consistent_childNodup {s : Store} (hcons : Consistent s) : ChildNodup s.nodes := by
  intro p np hp
  rw [List.nodup_iff_count_le_one]
  intro a
  by_cases ha : a ∈ np.children
  · have hb := hcons.2.2 p (mem_mkeys_of_mfind hp) a
      (by rw [childrenOfKey_found hp]; exact ha)
    unfold parentKeyOf at hb
    rcases hfa : mfind s.nodes a with _ | na
    · rw [hfa] at hb; cases hb
    · rw [hfa] at hb
      simp only [Option.map_some', Option.some_inj] at hb
      have hcc := hcons.1 a (mem_mkeys_of_mfind hfa)
      unfold nodeContainerCount at hcc
      simp only [hfa, hb] at hcc
      unfold childCountOf at hcc
      rw [hp] at hcc
      simp only [Option.map_some', Option.getD_some] at hcc
      omega
  · rw [List.count_eq_zero_of_not_mem ha]
    omega

theorem chainsTerm_of_chainsOK {s : Store} (h : ChainsOK s) : ChainsTerm s.nodes := by
  rcases h with ⟨F, hF⟩
  intro k nk hk
  have h2 := hF k (mem_mkeys_of_mfind hk)
  rcases ho : upchain F s.nodes (some k) with _ | l
  · rw [ho] at h2; simp at h2
  · exact ⟨F, l, ho⟩

theorem forest_delHyp {s : Store} (hf : Forest s)
    (hne0 : mfind s.nodes "" = none) : DelHyp s.nodes :=
  ⟨consistent_backlinks hf.1, chainsTerm_of_chainsOK hf.2, hne0,
   consistent_childNodup hf.1⟩

/-- A found child of a collected node is collected one fuel level up. -/
theorem collect_child_step :
    ∀ (g : Nat) (m : NMap) (K p : String), p ∈ collect g m K →
      ∀ np c, mfind m p = some np → c ∈ np.children → (mfind m c).isSome →
        c ∈ collect (g + 1) m K := by
  intro g
  induction g with
  | zero => intro m K p hp; cases hp
  | succ g ih =>
    intro m K p hp np c hnp hc hcs
    rcases hK : mfind m K with _ | nK
    · rw [collect_succ_missing hK] at hp; cases hp
    · rw [collect_succ_found hK] at hp
      rw [collect_succ_found hK]
      rcases List.mem_append.mp hp with hp2 | hp2
      · rcases List.mem_flatten.mp hp2 with ⟨ls, hls, hpls⟩
        rcases List.mem_map.mp hls with ⟨ci, hci, rfl⟩
        have hstep := ih m ci p hpls np c hnp hc hcs
        exact List.mem_append_left _ (List.mem_flatten.mpr
          ⟨collect (g + 1) m ci, List.mem_map.mpr ⟨ci, hci, rfl⟩, hstep⟩)
      · have hpK : p = K := List.mem_singleton.mp hp2
        rcases hcs2 : mfind m c with _ | ncn
        · rw [hcs2] at hcs; simp at hcs
        · have hcK : c ∈ nK.children := by
            rw [hpK, hK] at hnp
            rw [Option.some_inj.mp hnp]
            exact hc
          exact List.mem_append_left _ (List.mem_flatten.mpr
            ⟨collect (g + 1) m c, List.mem_map.mpr ⟨c, hcK, rfl⟩,
             self_mem_collect hcs2⟩)

theorem collect_le_mono {m : NMap} {c x : String} :
    ∀ {g G : Nat}, g ≤ G → x ∈ collect g m c → x ∈ collect G m c := by
  intro g G
  induction G with
  | zero =>
    intro hle hx
    rw [Nat.le_zero.mp hle] at hx
    exact hx
  | succ G ih =>
    intro hle hx
    by_cases hg : g = G + 1
    · rw [hg] at hx; exact hx
    · exact collect_mono G m c x (ih (by omega) hx)

/-- Converse of `collect_onChain`: a node with `K` on its ancestor chain
is collected within fuel bounded by the chain length. -/
theorem onchain_to_collect {m : NMap} (hfwd : Forward m) :
    ∀ (F : Nat) (x : String) (l : List String) (K : String),
      upchain F m (some x) = some l → K ∈ l →
      ∃ g, g ≤ l.length ∧ x ∈ collect g m K := by
  intro F
  induction F with
  | zero =>
    intro x l K h hK
    rcases ho : optT (some x) with _ | x2
    · rw [upchain_stop ho] at h
      rw [← Option.some_inj.mp h] at hK
      cases hK
    · rw [upchain_zero_some ho] at h
      cases h
  | succ F ih =>
    intro x l K h hK
    rcases ho : optT (some x) with _ | x2
    · rw [upchain_stop ho] at h
      rw [← Option.some_inj.mp h] at hK
      cases hK
    · have hx2 : x2 = x := by
        rw [optT_some] at ho
        by_cases hx0 : x = ""
        · rw [if_pos hx0] at ho; cases ho
        · rw [if_neg hx0] at ho
          exact (Option.some_inj.mp ho).symm
      rw [hx2] at ho
      rcases hfx : mfind m x with _ | nx
      · rw [upchain_missing ho hfx] at h
        rw [← Option.some_inj.mp h] at hK
        cases hK
      · rw [upchain_found ho hfx] at h
        rcases Option.map_eq_some'.mp h with ⟨t, ht, hcons⟩
        rw [← hcons] at hK
        rcases List.mem_cons.mp hK with hKx | hKt
        · refine ⟨1, by rw [← hcons]; simp, ?_⟩
          rw [← hKx] at hfx ⊢
          exact self_mem_collect hfx
        · rcases hop : optT nx.parentId with _ | p
          · rw [upchain_optT] at ht
            rw [upchain_stop hop] at ht
            rw [← Option.some_inj.mp ht] at hKt
            cases hKt
          · rw [hop] at ht
            rcases hfp : mfind m p with _ | np
            · rcases F with _ | F2
              · rw [upchain_zero_some (optT_eq_some hop)] at ht
                cases ht
              · rw [upchain_missing (optT_eq_some hop) hfp] at ht
                rw [← Option.some_inj.mp ht] at hKt
                cases hKt
            · rcases ih p t K ht hKt with ⟨g, hg, hp⟩
              refine ⟨g + 1, ?_, ?_⟩
              · rw [← hcons]
                simp only [List.length_cons]
                omega
              · exact collect_child_step g m K p hp np x hfp
                  (hfwd x nx p np hfx hop hfp) (by rw [hfx]; rfl)

/-- The parent of `K` is not inside `K`'s subtree (that would close a
`parentId` cycle, contradicting chain termination). -/
theorem parent_not_in_collect {m : NMap} (hyp : DelHyp m) {K pid : String} {nK : Node}
    (hK : mfind m K = some nK) (hpid : optT nK.parentId = some pid) :
    ∀ f, pid ∉ collect f m K := by
  intro f hmem
  rcases collect_onChain hyp f K pid hmem with ⟨F, l, hl, hKl⟩
  have hKne := found_ne_empty hyp.2.2.1 hK
  have hfull : upchain (F + 1) m (some K) = some (K :: l) := by
    rw [upchain_found (by rw [optT_some, if_neg hKne]) hK, hpid, hl]
    rfl
  have hnodup := upchain_nodup (F + 1) m (some K) (K :: l) hfull
  exact (List.nodup_cons.mp hnodup).1 hKl

/-- Membership in the deletion set coincides with having `K` on the
ancestor chain. -/
theorem collect_chain_iff {s : Store} (hf : Forest s)
    (hne0 : mfind s.nodes "" = none) (K x : String) :
    x ∈ collect (s.nodes.length + 1) s.nodes K ↔
      (∃ F l, upchain F s.nodes (some x) = some l ∧ K ∈ l) := by
  have hyp : DelHyp s.nodes := forest_delHyp hf hne0
  constructor
  · exact collect_onChain hyp _ K x
  · rintro ⟨F, l, hl, hKl⟩
    rcases onchain_to_collect (consistent_forward hf.1) F x l K hl hKl with ⟨g, hg, hx⟩
    refine collect_le_mono ?_ hx
    have h2 := nodup_length_le (upchain_nodup F s.nodes (some x) l hl)
      (upchain_subset_keys F s.nodes (some x) l hl)
    rw [mkeys_length] at h2
    omega

/-- Pointwise description of the node map and `rootIds` after
`deleteNode`: collected ids vanish, the former parent loses `K` from its
`children`, everything else survives untouched. -/
theorem deleteNode_find_spec (s : Store) (K : String) (nK : Node)
    (hf : Forest s) (hne0 : mfind s.nodes "" = none)
    (hK : mfind s.nodes K = some nK) :
    (∀ x, x ∈ collect (s.nodes.length + 1) s.nodes K →
      mfind (deleteNode s K).nodes x = none) ∧
    (∀ x, x ∉ collect (s.nodes.length + 1) s.nodes K →
      mfind (deleteNode s K).nodes x =
        (if optT nK.parentId = some x then
          (mfind s.nodes x).map (fun n1 =>
            { n1 with children := n1.children.filter (fun c => c != K) })
        else mfind s.nodes x)) ∧
    (deleteNode s K).rootIds = s.rootIds.filter (fun r => r != K) := by
  have hyp : DelHyp s.nodes := forest_delHyp hf hne0
  have hspec := deleteRec_spec (s.nodes.length + 1) s.nodes hyp K
  refine ⟨?_, ?_, ?_⟩
  · intro x hx
    rcases hp : optT nK.parentId with _ | pid
    · have hnodes : (deleteNode s K).nodes
          = deleteRecursive (s.nodes.length + 1) s.nodes K := by
        unfold deleteNode; simp only [hK, hp]
      rw [hnodes, hspec x, if_pos hx]
    · have hpad : pid ∉ collect (s.nodes.length + 1) s.nodes K :=
        parent_not_in_collect hyp hK hp _
      have hfind1 : mfind (deleteRecursive (s.nodes.length + 1) s.nodes K) pid
          = mfind s.nodes pid := by
        rw [hspec pid, if_neg hpad]
      rcases hpp : mfind s.nodes pid with _ | parent
      · have hfind1n : mfind (deleteRecursive (s.nodes.length + 1) s.nodes K) pid = none := by
          rw [hfind1, hpp]
        have hnodes : (deleteNode s K).nodes
            = deleteRecursive (s.nodes.length + 1) s.nodes K := by
          unfold deleteNode; simp only [hK, hp, hfind1n]
        rw [hnodes, hspec x, if_pos hx]
      · have hfind1s : mfind (deleteRecursive (s.nodes.length + 1) s.nodes K) pid
            = some parent := by
          rw [hfind1, hpp]
        have hnodes : (deleteNode s K).nodes
            = minsert (deleteRecursive (s.nodes.length + 1) s.nodes K) pid
                { parent with children := parent.children.filter (fun c => c != K) } := by
          unfold deleteNode; simp only [hK, hp, hfind1s]
        have hxpid : x ≠ pid := fun he => hpad (he ▸ hx)
        rw [hnodes, mfind_minsert, if_neg hxpid, hspec x, if_pos hx]
  · intro x hx
    rcases hp : optT nK.parentId with _ | pid
    · have hnodes : (deleteNode s K).nodes
          = deleteRecursive (s.nodes.length + 1) s.nodes K := by
        unfold deleteNode; simp only [hK, hp]
      rw [hnodes, hspec x, if_neg hx, if_neg (by simp)]
    · have hpad : pid ∉ collect (s.nodes.length + 1) s.nodes K :=
        parent_not_in_collect hyp hK hp _
      have hfind1 : mfind (deleteRecursive (s.nodes.length + 1) s.nodes K) pid
          = mfind s.nodes pid := by
        rw [hspec pid, if_neg hpad]
      rcases hpp : mfind s.nodes pid with _ | parent
      · have hfind1n : mfind (deleteRecursive (s.nodes.length + 1) s.nodes K) pid = none := by
          rw [hfind1, hpp]
        have hnodes : (deleteNode s K).nodes
            = deleteRecursive (s.nodes.length + 1) s.nodes K := by
          unfold deleteNode; simp only [hK, hp, hfind1n]
        rw [hnodes, hspec x, if_neg hx]
        by_cases hxp : x = pid
        · rw [if_pos (by rw [hxp]), hxp, hpp]
          rfl
        · rw [if_neg (fun he => hxp (Option.some_inj.mp he).symm)]
      · have hfind1s : mfind (deleteRecursive (s.nodes.length + 1) s.nodes K) pid
            = some parent := by
          rw [hfind1, hpp]
        have hnodes : (deleteNode s K).nodes
            = minsert (deleteRecursive (s.nodes.length + 1) s.nodes K) pid
                { parent with children := parent.children.filter (fun c => c != K) } := by
          unfold deleteNode; simp only [hK, hp, hfind1s]
        rw [hnodes, mfind_minsert]
        by_cases hxp : x = pid
        · rw [if_pos hxp, if_pos (by rw [hxp]), hxp, hpp]
          rfl
        · rw [if_neg hxp, if_neg (fun he => hxp (Option.some_inj.mp he).symm),
            hspec x, if_neg hx]
  · rcases hp : optT nK.parentId with _ | pid
    · unfold deleteNode; simp only [hK, hp]
    · unfold deleteNode; simp only [hK, hp]

/-- C7: `deleteNode(K)` on a forest store removes exactly `K` and its
descendants — the ids with `K` on their ancestor chain, equivalently the
ids reachable from `K` through `children` (`collect`) — removes nothing
else, only edits the former parent by filtering `K` out of its
`children`, and filters `K` out of `rootIds`.  The whole change is one
committed store. -/
theorem deleteNode_subtree (s : Store) (K : String) (nK : Node)
    (hf : Forest s) (hne0 : mfind s.nodes "" = none)
    (hK : mfind s.nodes K = some nK) :
    K ∈ collect (s.nodes.length + 1) s.nodes K ∧
    (∀ x, x ∈ collect (s.nodes.length + 1) s.nodes K ↔
      (∃ F l, upchain F s.nodes (some x) = some l ∧ K ∈ l)) ∧
    (∀ x, x ∈ collect (s.nodes.length + 1) s.nodes K →
      mfind (deleteNode s K).nodes x = none) ∧
    (∀ x, x ∉ collect (s.nodes.length + 1) s.nodes K →
      mfind (deleteNode s K).nodes x =
        (if optT nK.parentId = some x then
          (mfind s.nodes x).map (fun n1 =>
            { n1 with children := n1.children.filter (fun c => c != K) })
        else mfind s.nodes x)) ∧
    (deleteNode s K).rootIds = s.rootIds.filter (fun r => r != K) :=
  ⟨self_mem_collect hK, fun x => collect_chain_iff hf hne0 K x,
   (deleteNode_find_spec s K nK hf hne0 hK).1,
   (deleteNode_find_spec s K nK hf hne0 hK).2.1,
   (deleteNode_find_spec s K nK hf hne0 hK).2.2⟩

/-- Witness for `deleteNode_subtree`: deleting `K` from the demo store
removes `K`, `A`, `B` and nothing else. -/
theorem deleteNode_subtree_witness :
    (Forest demoStore ∧ mfind demoStore.nodes "" = none ∧
      mfind demoStore.nodes "K" = some (mkNode "K" (some "G") ["A", "B"] 20 none)) ∧
    (∀ x, x ∈ collect (demoStore.nodes.length + 1) demoStore.nodes "K" →
      mfind (deleteNode demoStore "K").nodes x = none) ∧
    (deleteNode demoStore "K").rootIds
      = demoStore.rootIds.filter (fun r => r != "K") :=
  ⟨⟨⟨by decide, 5, by decide⟩, by decide, by decide⟩,
   (deleteNode_subtree demoStore "K" (mkNode "K" (some "G") ["A", "B"] 20 none)
     ⟨by decide, 5, by decide⟩ (by decide) (by decide)).2.2.1,
   (deleteNode_subtree demoStore "K" (mkNode "K" (some "G") ["A", "B"] 20 none)
     ⟨by decide, 5, by decide⟩ (by decide) (by decide)).2.2.2.2⟩

/-! ## C1 and C3: structural consistency and the forest invariant under
the operations -/

theorem mfind_isSome_of_mem_mkeys {m : NMap} {k : String} (h : k ∈ mkeys m) :
    (mfind m k).isSome = true := by
  induction m with
  | nil => cases h
  | cons e es ih =>
    by_cases he : e.1 = k
    · simp [he]
    · simp only [mkeys, List.map_cons, List.mem_cons] at h
      rcases h with h | h
      · exact absurd h.symm he
      · rw [mfind_cons, if_neg he]
        exact ih h

theorem mem_mkeys_iff_isSome {m : NMap} {k : String} :
    k ∈ mkeys m ↔ (mfind m k).isSome = true := by
  constructor
  · exact mfind_isSome_of_mem_mkeys
  · intro h
    rcases hx : mfind m k with _ | n
    · rw [hx] at h; exact Bool.noConfusion h
    · exact mem_mkeys_of_mfind hx

/-- The existence, truthy parent pointer and `children` of each key — all
that the consistency predicate reads of the node map. -/
def skel (m : NMap) (x : String) : Option (Option String × List String) :=
  (mfind m x).map (fun n => (optT n.parentId, n.children))

theorem skel_isSome (m : NMap) (x : String) :
    (skel m x).isSome = (mfind m x).isSome := by
  unfold skel
  cases hf : mfind m x <;> rfl

theorem mfind_isSome_congr {m1 m2 : NMap} {x : String} (h : skel m1 x = skel m2 x) :
    (mfind m1 x).isSome = (mfind m2 x).isSome := by
  rw [← skel_isSome, ← skel_isSome, h]

theorem parentKeyOf_skel (m : NMap) (x : String) :
    parentKeyOf m x = (skel m x).map Prod.fst := by
  unfold parentKeyOf skel
  cases mfind m x <;> rfl

theorem childrenOfKey_skel (m : NMap) (x : String) :
    childrenOfKey m x = ((skel m x).map Prod.snd).getD [] := by
  unfold childrenOfKey skel
  cases mfind m x <;> rfl

theorem childCountOf_skel (m : NMap) (p k : String) :
    childCountOf m p k = (((skel m p).map Prod.snd).getD []).count k := by
  unfold childCountOf skel
  cases mfind m p <;> rfl

theorem parentKeyOf_congr {m1 m2 : NMap} {x : String}
    (h : skel m1 x = skel m2 x) : parentKeyOf m1 x = parentKeyOf m2 x := by
  rw [parentKeyOf_skel, parentKeyOf_skel, h]

theorem childrenOfKey_congr {m1 m2 : NMap} {x : String}
    (h : skel m1 x = skel m2 x) : childrenOfKey m1 x = childrenOfKey m2 x := by
  rw [childrenOfKey_skel, childrenOfKey_skel, h]

theorem childCountOf_congr {m1 m2 : NMap} {p k : String}
    (h : skel m1 p = skel m2 p) : childCountOf m1 p k = childCountOf m2 p k := by
  rw [childCountOf_skel, childCountOf_skel, h]

theorem nodeContainerCount_skel (s : Store) (k : String) :
    nodeContainerCount s k =
      match skel s.nodes k with
      | none => 1
      | some pc =>
        match pc.1 with
        | none => s.rootIds.count k
        | some p => childCountOf s.nodes p k := by
  unfold nodeContainerCount skel
  cases mfind s.nodes k <;> rfl

theorem nodeContainerCount_congr {s1 s2 : Store} (hr : s1.rootIds = s2.rootIds)
    (hsk : ∀ x, skel s1.nodes x = skel s2.nodes x) (k : String) :
    nodeContainerCount s2 k = nodeContainerCount s1 k := by
  rw [nodeContainerCount_skel, nodeContainerCount_skel, ← hsk k]
  rcases skel s1.nodes k with _ | pc
  · rfl
  · rcases pc with ⟨po, cl⟩
    rcases po with _ | p
    · simp only
      rw [hr]
    · simp only
      exact childCountOf_congr (hsk p).symm

theorem consistent_congr {s1 s2 : Store} (h : Consistent s1)
    (hr : s1.rootIds = s2.rootIds)
    (hsk : ∀ x, skel s1.nodes x = skel s2.nodes x) :
    Consistent s2 := by
  obtain ⟨hA, hB, hC⟩ := h
  have hmem : ∀ k, k ∈ mkeys s2.nodes → k ∈ mkeys s1.nodes := by
    intro k hk
    refine mem_mkeys_iff_isSome.mpr ?_
    rw [mfind_isSome_congr (hsk k)]
    exact mem_mkeys_iff_isSome.mp hk
  refine ⟨?_, ?_, ?_⟩
  · intro k hk
    rw [nodeContainerCount_congr hr hsk k]
    exact hA k (hmem k hk)
  · intro r hr2
    rw [← parentKeyOf_congr (hsk r)]
    exact hB r (by rw [hr]; exact hr2)
  · intro k hk c hc
    rw [← parentKeyOf_congr (hsk c)]
    refine hC k (hmem k hk) c ?_
    rw [childrenOfKey_congr (hsk k)]
    exact hc

theorem skel_minsert_same {m : NMap} {k : String} {n n2 : Node}
    (h : mfind m k = some n) (hpid : n2.parentId = n.parentId)
    (hch : n2.children = n.children) :
    ∀ x, skel m x = skel (minsert m k n2) x := by
  intro x
  unfold skel
  rw [mfind_minsert]
  by_cases hx : x = k
  · rw [if_pos hx, hx, h]
    simp [hpid, hch]
  · rw [if_neg hx]

theorem skel_mapSnd {f : Node → Node} (hpid : ∀ n, (f n).parentId = n.parentId)
    (hch : ∀ n, (f n).children = n.children) (m : NMap) :
    ∀ x, skel m x = skel (m.map (fun e => (e.1, f e.2))) x := by
  intro x
  unfold skel
  rw [mfind_mapSnd]
  cases hf : mfind m x
  · rfl
  · simp [hpid, hch]

theorem skel_recalcUp (cf : Nat) :
    ∀ (fuel : Nat) (o : Option String) (m : NMap) (x : String),
      skel m x = skel (recalculateProgressUpwards cf fuel o m) x := by
  intro fuel
  induction fuel with
  | zero => intro o m x; rfl
  | succ f ih =>
    intro o m x
    rcases ho : optT o with _ | k
    · rw [recalcUp_stop ho]
    · rcases hk : mfind m k with _ | n
      · rw [recalcUp_missing ho hk]
      · rw [recalcUp_found ho hk]
        exact (@skel_minsert_same m k n
          { n with progress := (calculateProgress cf k m : ℚ) } hk rfl rfl x).trans
          (ih n.parentId _ x)

theorem stopIfRunning_parentId (n : Node) :
    (stopIfRunning n).parentId = n.parentId := by
  unfold stopIfRunning
  split <;> rfl

theorem stopIfRunning_children (n : Node) :
    (stopIfRunning n).children = n.children := by
  unfold stopIfRunning
  split <;> rfl

/-- `toggleExpand` preserves structural consistency. -/
theorem consistent_toggleExpand {s : Store} (h : Consistent s) (id : String) :
    Consistent (toggleExpand s id) := by
  unfold toggleExpand
  rcases hk : mfind s.nodes id with _ | n <;> simp only [hk]
  · exact h
  · exact consistent_congr h rfl (skel_minsert_same hk rfl rfl)

/-- `stopTimer` preserves structural consistency. -/
theorem consistent_stopTimer {s : Store} (h : Consistent s) (id : String) :
    Consistent (stopTimer s id) := by
  unfold stopTimer
  rcases hk : mfind s.nodes id with _ | n <;> simp only [hk]
  · exact h
  · by_cases hr : timerRunning n.timerStartedAt
    · rw [if_pos hr]
      exact consistent_congr h rfl (skel_minsert_same hk rfl rfl)
    · rw [if_neg hr]
      exact h

/-- `startTimer` preserves structural consistency. -/
theorem consistent_startTimer {s : Store} (h : Consistent s) (id : String) (now : ℚ) :
    Consistent (startTimer s id now) := by
  unfold startTimer
  rcases hk : mfind (s.nodes.map (fun e => (e.1, stopIfRunning e.2))) id with _ | n <;>
    simp only [hk]
  · exact consistent_congr h rfl (skel_mapSnd stopIfRunning_parentId stopIfRunning_children s.nodes)
  · refine consistent_congr h rfl (fun x => ?_)
    exact (skel_mapSnd stopIfRunning_parentId stopIfRunning_children s.nodes x).trans
      (@skel_minsert_same _ id n { n with timerStartedAt := some now } hk rfl rfl x)

/-- `updateNode` with a patch that does not rewrite `children` or
`parentId` preserves structural consistency. -/
theorem consistent_updateNode {s : Store} (h : Consistent s) (id : String) {d : NodePatch}
    (hch : d.children = none) (hpid : d.parentId = none) :
    Consistent (updateNode s id d) := by
  unfold updateNode
  rcases hk : mfind s.nodes id with _ | n <;> simp only [hk]
  · exact h
  · have hsk1 : ∀ x, skel s.nodes x = skel (minsert s.nodes id (applyPatch n d)) x :=
      skel_minsert_same hk (applyPatch_parentId_none hpid) (applyPatch_children_none hch)
    rcases hp : d.progress with _ | q <;> simp only [hp]
    · exact consistent_congr h rfl hsk1
    · by_cases hq : q = n.progress
      · rw [if_pos hq]
        exact consistent_congr h rfl hsk1
      · rw [if_neg hq]
        exact consistent_congr h rfl
          (fun x => (hsk1 x).trans (skel_recalcUp _ _ _ _ x))

theorem parentKeyOf_found {m : NMap} {k : String} {n : Node} (h : mfind m k = some n) :
    parentKeyOf m k = some (optT n.parentId) := by
  unfold parentKeyOf
  rw [h]
  rfl

theorem parentKeyOf_missing {m : NMap} {k : String} (h : mfind m k = none) :
    parentKeyOf m k = none := by
  unfold parentKeyOf
  rw [h]
  rfl

theorem parentKeyOf_eq_some {m : NMap} {x : String} {o : Option String}
    (h : parentKeyOf m x = some o) :
    ∃ n, mfind m x = some n ∧ optT n.parentId = o := by
  rcases hx : mfind m x with _ | n
  · rw [parentKeyOf_missing hx] at h
    exact Option.noConfusion h
  · rw [parentKeyOf_found hx] at h
    exact ⟨n, rfl, Option.some_inj.mp h⟩

theorem childCountOf_found {m : NMap} {p : String} {np : Node} (k : String)
    (h : mfind m p = some np) : childCountOf m p k = np.children.count k := by
  unfold childCountOf
  rw [h]
  rfl

theorem childCountOf_missing {m : NMap} {p : String} (k : String)
    (h : mfind m p = none) : childCountOf m p k = 0 := by
  unfold childCountOf
  rw [h]
  rfl

theorem nodeContainerCount_found {s : Store} {k : String} {n : Node}
    (h : mfind s.nodes k = some n) :
    nodeContainerCount s k =
      match optT n.parentId with
      | none => s.rootIds.count k
      | some p => childCountOf s.nodes p k := by
  unfold nodeContainerCount
  rw [h]

theorem nodeContainerCount_root {s : Store} {k : String} {n : Node}
    (h : mfind s.nodes k = some n) (hp : optT n.parentId = none) :
    nodeContainerCount s k = s.rootIds.count k := by
  rw [nodeContainerCount_found h, hp]

theorem nodeContainerCount_child {s : Store} {k p : String} {n : Node}
    (h : mfind s.nodes k = some n) (hp : optT n.parentId = some p) :
    nodeContainerCount s k = childCountOf s.nodes p k := by
  rw [nodeContainerCount_found h, hp]

theorem parentKeyOf_minsert_same {m : NMap} {k : String} {n n2 : Node}
    (h : mfind m k = some n) (hpid : n2.parentId = n.parentId) :
    ∀ x, parentKeyOf (minsert m k n2) x = parentKeyOf m x := by
  intro x
  unfold parentKeyOf
  rw [mfind_minsert]
  by_cases hx : x = k
  · rw [if_pos hx, hx, h]
    simp [hpid]
  · rw [if_neg hx]

/-- The membership-free reading of `Consistent`, quantified through
`mfind` instead of `mkeys`. -/
theorem consistent_iff_find (s : Store) :
    Consistent s ↔
      ((∀ k n, mfind s.nodes k = some n → nodeContainerCount s k = 1) ∧
       (∀ r ∈ s.rootIds, parentKeyOf s.nodes r = some none) ∧
       (∀ k n, mfind s.nodes k = some n → ∀ c ∈ n.children,
         parentKeyOf s.nodes c = some (some k))) := by
  constructor
  · rintro ⟨hA, hB, hC⟩
    refine ⟨?_, hB, ?_⟩
    · intro k n hk
      exact hA k (mem_mkeys_of_mfind hk)
    · intro k n hk c hc
      refine hC k (mem_mkeys_of_mfind hk) c ?_
      rw [childrenOfKey_found hk]
      exact hc
  · rintro ⟨hA, hB, hC⟩
    refine ⟨?_, hB, ?_⟩
    · intro k hk
      rcases hx : mfind s.nodes k with _ | n
      · rw [mem_mkeys_iff_isSome, hx] at hk
        exact Bool.noConfusion hk
      · exact hA k n hx
    · intro k hk c hc
      rcases hx : mfind s.nodes k with _ | n
      · rw [mem_mkeys_iff_isSome, hx] at hk
        exact Bool.noConfusion hk
      · refine hC k n hx c ?_
        rw [childrenOfKey_found hx] at hc
        exact hc

theorem count_filter_ne {k K : String} (h : k ≠ K) (l : List String) :
    (l.filter (fun c => c != K)).count k = l.count k := by
  induction l with
  | nil => rfl
  | cons c t ih =>
    by_cases hc : c = K
    · subst hc
      rw [List.filter_cons, if_neg (by simp), ih, List.count_cons,
        if_neg (by simp only [beq_iff_eq]; exact Ne.symm h), Nat.add_zero]
    · rw [List.filter_cons, if_pos (by simp [hc]), List.count_cons, List.count_cons, ih]

theorem count_filter_self (K : String) (l : List String) :
    (l.filter (fun c => c != K)).count K = 0 := by
  rw [List.count_eq_zero]
  intro hmem
  rcases List.mem_filter.mp hmem with ⟨_, hco⟩
  simp at hco

theorem count_insertIdx (l : List String) (a b : String) {i : Nat} (h : i ≤ l.length) :
    (l.insertIdx i a).count b = l.count b + if a == b then 1 else 0 := by
  rw [List.Perm.count_eq (List.perm_insertIdx a l h) b, List.count_cons]

theorem mem_insertIdx {l : List String} {a b : String} {i : Nat} (h : i ≤ l.length) :
    b ∈ l.insertIdx i a ↔ b = a ∨ b ∈ l := by
  rw [List.Perm.mem_iff (List.perm_insertIdx a l h), List.mem_cons]

/-- `nodeContainerCount` over the bare components, to state lemmas
without `Store` literals. -/
def containerCount (m : NMap) (r : List String) (k : String) : Nat :=
  match mfind m k with
  | none => 1
  | some n =>
    match optT n.parentId with
    | none => r.count k
    | some p => childCountOf m p k

theorem containerCount_eq (s : Store) (k : String) :
    nodeContainerCount s k = containerCount s.nodes s.rootIds k := rfl

theorem containerCount_found {m : NMap} {r : List String} {k : String} {n : Node}
    (h : mfind m k = some n) :
    containerCount m r k =
      match optT n.parentId with
      | none => r.count k
      | some p => childCountOf m p k := by
  unfold containerCount
  rw [h]

theorem containerCount_root {m : NMap} {r : List String} {k : String} {n : Node}
    (h : mfind m k = some n) (hp : optT n.parentId = none) :
    containerCount m r k = r.count k := by
  rw [containerCount_found h, hp]

theorem containerCount_child {m : NMap} {r : List String} {k p : String} {n : Node}
    (h : mfind m k = some n) (hp : optT n.parentId = some p) :
    containerCount m r k = childCountOf m p k := by
  rw [containerCount_found h, hp]

/-- `Consistent` over the bare components. -/
def ConsistentFlat (m : NMap) (r : List String) : Prop :=
  (∀ k n, mfind m k = some n → containerCount m r k = 1) ∧
  (∀ x ∈ r, parentKeyOf m x = some none) ∧
  (∀ k n, mfind m k = some n → ∀ c ∈ n.children, parentKeyOf m c = some (some k))

theorem consistent_iff_flat (s : Store) :
    Consistent s ↔ ConsistentFlat s.nodes s.rootIds := by
  rw [consistent_iff_find]
  unfold ConsistentFlat
  constructor
  · rintro ⟨hA, hB, hC⟩
    exact ⟨fun k n hk => by rw [← containerCount_eq]; exact hA k n hk, hB, hC⟩
  · rintro ⟨hA, hB, hC⟩
    exact ⟨fun k n hk => by rw [containerCount_eq]; exact hA k n hk, hB, hC⟩

/-- Consistency with the container facts about one id `D` carved out:
every node other than `D` sits exactly once in its own container, roots
are parentless, and every child entry other than `D` points back. -/
def ConsistentExcept (m : NMap) (r : List String) (D : String) : Prop :=
  (∀ k n, mfind m k = some n → k ≠ D → containerCount m r k = 1) ∧
  (∀ x ∈ r, parentKeyOf m x = some none) ∧
  (∀ k n, mfind m k = some n → ∀ c ∈ n.children, c ≠ D →
    parentKeyOf m c = some (some k))

/-- `D` occurs in no container at all: not in `rootIds` and not in any
`children` list. -/
def Detached (m : NMap) (r : List String) (D : String) : Prop :=
  r.count D = 0 ∧ ∀ k n, mfind m k = some n → n.children.count D = 0

/-- Attaching a fully detached, parentless `D` into `rootIds` yields a
consistent pair. -/
theorem consistent_attach_root {m : NMap} {r : List String} {D : String} {nD : Node}
    (hce : ConsistentExcept m r D) (hdet : Detached m r D)
    (hD : mfind m D = some nD) (hDp : optT nD.parentId = none)
    {j : Nat} (hj : j ≤ r.length) :
    ConsistentFlat m (r.insertIdx j D) := by
  obtain ⟨hA, hB, hC⟩ := hce
  obtain ⟨hdr, hdc⟩ := hdet
  refine ⟨?_, ?_, ?_⟩
  · intro k n hk
    by_cases hkD : k = D
    · rw [hkD] at hk
      have hn : nD = n := by rw [hD] at hk; exact Option.some_inj.mp hk
      rw [hkD, containerCount_root hk (hn ▸ hDp), count_insertIdx r D D hj, hdr]
      simp
    · rcases hp : optT n.parentId with _ | p
      · rw [containerCount_root hk hp, count_insertIdx r D k hj,
          if_neg (by simp only [beq_iff_eq]; exact Ne.symm hkD), Nat.add_zero]
        have h1 := hA k n hk hkD
        rw [containerCount_root hk hp] at h1
        exact h1
      · rw [containerCount_child hk hp]
        have h1 := hA k n hk hkD
        rw [containerCount_child hk hp] at h1
        exact h1
  · intro x hx
    rcases (mem_insertIdx hj).mp hx with hxD | hxr
    · subst hxD
      rw [parentKeyOf_found hD, hDp]
    · exact hB x hxr
  · intro k n hk c hc
    by_cases hcD : c = D
    · subst hcD
      have h0 := hdc k n hk
      rw [List.count_eq_zero] at h0
      exact absurd hc h0
    · exact hC k n hk c hc hcD

/-- Attaching a fully detached `D`, whose parent pointer names the
existing node `pid`, into `pid`'s `children` yields a consistent pair. -/
theorem consistent_attach_parent {m : NMap} {r : List String} {D pid : String}
    {nD np : Node}
    (hce : ConsistentExcept m r D) (hdet : Detached m r D)
    (hD : mfind m D = some nD) (hDp : optT nD.parentId = some pid)
    (hnp : mfind m pid = some np) {j : Nat} (hj : j ≤ np.children.length) :
    ConsistentFlat
      (minsert m pid { np with children := np.children.insertIdx j D }) r := by
  obtain ⟨hA, hB, hC⟩ := hce
  obtain ⟨hdr, hdc⟩ := hdet
  have hpk : ∀ x,
      parentKeyOf (minsert m pid { np with children := np.children.insertIdx j D }) x
        = parentKeyOf m x :=
    parentKeyOf_minsert_same hnp rfl
  have hfind : ∀ x,
      mfind (minsert m pid { np with children := np.children.insertIdx j D }) x
        = if x = pid then some { np with children := np.children.insertIdx j D }
          else mfind m x :=
    mfind_minsert m pid _
  have hfp : mfind (minsert m pid { np with children := np.children.insertIdx j D }) pid
      = some { np with children := np.children.insertIdx j D } := by
    rw [hfind pid, if_pos rfl]
  have hcc : ∀ g k,
      childCountOf (minsert m pid { np with children := np.children.insertIdx j D }) g k
        = if g = pid then (np.children.insertIdx j D).count k
          else childCountOf m g k := by
    intro g k
    by_cases hg : g = pid
    · rw [if_pos hg, hg, childCountOf_found k hfp]
    · rw [if_neg hg]
      unfold childCountOf
      rw [hfind g, if_neg hg]
  refine ⟨?_, ?_, ?_⟩
  · intro k n hk
    rw [hfind k] at hk
    by_cases hkp : k = pid
    · rw [if_pos hkp] at hk
      rw [hkp]
      rcases hpp : optT np.parentId with _ | g
      · have hpD : pid ≠ D := by
          intro he
          rw [he, hD] at hnp
          have h2 := Option.some_inj.mp hnp
          rw [← h2, hDp] at hpp
          exact Option.noConfusion hpp
        have h1 := hA pid np hnp hpD
        rw [containerCount_root hnp hpp] at h1
        rw [containerCount_root hfp hpp]
        exact h1
      · rw [containerCount_child hfp hpp, hcc g pid]
        by_cases hgp : g = pid
        · rw [if_pos hgp]
          by_cases hpD : pid = D
          · rw [count_insertIdx np.children D pid hj, if_pos (by simp [hpD])]
            have h0 := hdc pid np hnp
            rw [hpD, h0]
          · rw [count_insertIdx np.children D pid hj,
              if_neg (by simp only [beq_iff_eq]; exact fun he => hpD he.symm),
              Nat.add_zero]
            have h1 := hA pid np hnp hpD
            rw [containerCount_child hnp hpp, hgp, childCountOf_found pid hnp] at h1
            exact h1
        · rw [if_neg hgp]
          have hpD : pid ≠ D := by
            intro he
            rw [he, hD] at hnp
            have h2 := Option.some_inj.mp hnp
            rw [← h2, hDp] at hpp
            exact hgp (Option.some_inj.mp hpp).symm
          have h1 := hA pid np hnp hpD
          rw [containerCount_child hnp hpp] at h1
          exact h1
    · rw [if_neg hkp] at hk
      by_cases hkD : k = D
      · rw [hkD] at hk
        have hn : nD = n := by rw [hD] at hk; exact Option.some_inj.mp hk
        have hDpid : D ≠ pid := fun he => hkp (hkD.trans he)
        have hfD : mfind (minsert m pid
            { np with children := np.children.insertIdx j D }) D = some n := by
          rw [hfind D, if_neg hDpid]
          exact hk
        rw [hkD, containerCount_child hfD (hn ▸ hDp), hcc pid D, if_pos rfl,
          count_insertIdx np.children D D hj, if_pos (by simp), hdc pid np hnp]
      · have h1 := hA k n hk hkD
        have hfk : mfind (minsert m pid
            { np with children := np.children.insertIdx j D }) k = some n := by
          rw [hfind k, if_neg hkp]
          exact hk
        rcases hp : optT n.parentId with _ | g
        · rw [containerCount_root hfk hp]
          rw [containerCount_root hk hp] at h1
          exact h1
        · rw [containerCount_child hfk hp, hcc g k]
          rw [containerCount_child hk hp] at h1
          by_cases hgp : g = pid
          · rw [if_pos hgp, count_insertIdx np.children D k hj,
              if_neg (by simp only [beq_iff_eq]; exact fun he => hkD he.symm),
              Nat.add_zero]
            rw [hgp, childCountOf_found k hnp] at h1
            exact h1
          · rw [if_neg hgp]
            exact h1
  · intro x hx
    rw [hpk x]
    exact hB x hx
  · intro k n hk c hc
    rw [hfind k] at hk
    by_cases hkp : k = pid
    · rw [if_pos hkp] at hk
      have hn := Option.some_inj.mp hk
      rw [← hn] at hc
      have hc2 : c ∈ np.children.insertIdx j D := hc
      rw [hkp]
      rcases (mem_insertIdx hj).mp hc2 with hcD | hcold
      · rw [hcD, hpk D, parentKeyOf_found hD, hDp]
      · have hcDne : c ≠ D := by
          intro he
          have h0 := hdc pid np hnp
          rw [List.count_eq_zero] at h0
          exact h0 (he ▸ hcold)
        rw [hpk c]
        exact hC pid np hnp c hcold hcDne
    · rw [if_neg hkp] at hk
      have hcDne : c ≠ D := by
        intro he
        have h0 := hdc k n hk
        rw [List.count_eq_zero] at h0
        exact h0 (he ▸ hc)
      rw [hpk c]
      exact hC k n hk c hc hcDne

theorem parentKeyOf_minsert_other {m : NMap} {f x : String} (nf : Node) (hxf : x ≠ f) :
    parentKeyOf (minsert m f nf) x = parentKeyOf m x := by
  unfold parentKeyOf
  rw [mfind_minsert, if_neg hxf]

theorem childCountOf_minsert_other {m : NMap} {f g : String} (nf : Node) (k : String)
    (hgf : g ≠ f) :
    childCountOf (minsert m f nf) g k = childCountOf m g k := by
  unfold childCountOf
  rw [mfind_minsert, if_neg hgf]

/-- Inserting a fresh key with empty `children` into a consistent pair
leaves it consistent-except and detached at the new key. -/
theorem consistentExcept_fresh {m : NMap} {r : List String} {f : String} {nf : Node}
    (hcf : ConsistentFlat m r) (hfresh : mfind m f = none) (hch : nf.children = []) :
    ConsistentExcept (minsert m f nf) r f ∧ Detached (minsert m f nf) r f := by
  obtain ⟨hA, hB, hC⟩ := hcf
  have hfind := mfind_minsert m f nf
  have hfroot : r.count f = 0 := by
    rw [List.count_eq_zero]
    intro hmem
    have h2 := hB f hmem
    rw [parentKeyOf_missing hfresh] at h2
    exact Option.noConfusion h2
  have hfchild : ∀ k n, mfind m k = some n → n.children.count f = 0 := by
    intro k n hk
    rw [List.count_eq_zero]
    intro hmem
    have h2 := hC k n hk f hmem
    rw [parentKeyOf_missing hfresh] at h2
    exact Option.noConfusion h2
  have hnopf : ∀ k n, mfind m k = some n → optT n.parentId ≠ some f := by
    intro k n hk he
    have h1 := hA k n hk
    rw [containerCount_child hk he, childCountOf_missing k hfresh] at h1
    omega
  constructor
  · refine ⟨?_, ?_, ?_⟩
    · intro k n hk hkf
      rw [hfind k, if_neg hkf] at hk
      have h1 := hA k n hk
      have hfk : mfind (minsert m f nf) k = some n := by
        rw [hfind k, if_neg hkf]
        exact hk
      rcases hp : optT n.parentId with _ | g
      · rw [containerCount_root hfk hp]
        rw [containerCount_root hk hp] at h1
        exact h1
      · have hgf : g ≠ f := fun he => hnopf k n hk (he ▸ hp)
        rw [containerCount_child hfk hp, childCountOf_minsert_other nf k hgf]
        rw [containerCount_child hk hp] at h1
        exact h1
    · intro x hx
      have h2 := hB x hx
      rcases parentKeyOf_eq_some h2 with ⟨nx, hnx, _⟩
      have hxf : x ≠ f := by
        intro he
        rw [he, hfresh] at hnx
        exact Option.noConfusion hnx
      rw [parentKeyOf_minsert_other nf hxf]
      exact h2
    · intro k n hk c hc hcf2
      rw [hfind k] at hk
      by_cases hkf : k = f
      · rw [if_pos hkf] at hk
        have hn := Option.some_inj.mp hk
        rw [← hn, hch] at hc
        cases hc
      · rw [if_neg hkf] at hk
        rw [parentKeyOf_minsert_other nf hcf2]
        exact hC k n hk c hc
  · refine ⟨hfroot, ?_⟩
    intro k n hk
    rw [hfind k] at hk
    by_cases hkf : k = f
    · rw [if_pos hkf] at hk
      rw [← Option.some_inj.mp hk, hch]
      rfl
    · rw [if_neg hkf] at hk
      exact hfchild k n hk

/-- Filtering a root `D` out of `rootIds` leaves the pair
consistent-except and detached at `D`. -/
theorem detach_root {m : NMap} {r : List String} {D : String} {nD : Node}
    (hcf : ConsistentFlat m r) (hD : mfind m D = some nD)
    (hDp : optT nD.parentId = none) :
    ConsistentExcept m (r.filter (fun c => c != D)) D ∧
      Detached m (r.filter (fun c => c != D)) D := by
  obtain ⟨hA, hB, hC⟩ := hcf
  have hnochild : ∀ k n, mfind m k = some n → n.children.count D = 0 := by
    intro k n hk
    rw [List.count_eq_zero]
    intro hmem
    have h2 := hC k n hk D hmem
    rw [parentKeyOf_found hD, hDp] at h2
    exact Option.noConfusion (Option.some_inj.mp h2)
  refine ⟨⟨?_, ?_, ?_⟩, count_filter_self D r, hnochild⟩
  · intro k n hk hkD
    have h1 := hA k n hk
    rcases hp : optT n.parentId with _ | g
    · rw [containerCount_root hk hp, count_filter_ne hkD r]
      rw [containerCount_root hk hp] at h1
      exact h1
    · rw [containerCount_child hk hp]
      rw [containerCount_child hk hp] at h1
      exact h1
  · intro x hx
    exact hB x (List.mem_of_mem_filter hx)
  · intro k n hk c hc hcD
    exact hC k n hk c hc

/-- Filtering `D` out of its parent's `children` leaves the pair
consistent-except and detached at `D`. -/
theorem detach_parent {m : NMap} {r : List String} {D op : String} {nD nop : Node}
    (hcf : ConsistentFlat m r) (hD : mfind m D = some nD)
    (hDp : optT nD.parentId = some op) (hop : mfind m op = some nop)
    (hDop : D ≠ op) :
    ConsistentExcept
      (minsert m op { nop with children := nop.children.filter (fun c => c != D) }) r D ∧
    Detached
      (minsert m op { nop with children := nop.children.filter (fun c => c != D) }) r D := by
  obtain ⟨hA, hB, hC⟩ := hcf
  have hDr : r.count D = 0 := by
    rw [List.count_eq_zero]
    intro hmem
    have h2 := hB D hmem
    rw [parentKeyOf_found hD, hDp] at h2
    exact Option.noConfusion (Option.some_inj.mp h2)
  have honly : ∀ z nz, mfind m z = some nz → z ≠ op → nz.children.count D = 0 := by
    intro z nz hz hzop
    rw [List.count_eq_zero]
    intro hmem
    have h2 := hC z nz hz D hmem
    rw [parentKeyOf_found hD, hDp] at h2
    exact hzop (Option.some_inj.mp (Option.some_inj.mp h2)).symm
  have hfind := mfind_minsert m op
    { nop with children := nop.children.filter (fun c => c != D) }
  have hfop : mfind (minsert m op
      { nop with children := nop.children.filter (fun c => c != D) }) op
      = some { nop with children := nop.children.filter (fun c => c != D) } := by
    rw [hfind op, if_pos rfl]
  have hpk := parentKeyOf_minsert_same hop
    (show ({ nop with children := nop.children.filter (fun c => c != D) }).parentId
      = nop.parentId from rfl)
  refine ⟨⟨?_, ?_, ?_⟩, hDr, ?_⟩
  · intro k n hk hkD
    rw [hfind k] at hk
    by_cases hkop : k = op
    · rw [if_pos hkop] at hk
      rw [hkop]
      rcases hpp : optT nop.parentId with _ | g
      · rw [containerCount_root hfop hpp]
        have h1 := hA op nop hop
        rw [containerCount_root hop hpp] at h1
        exact h1
      · rw [containerCount_child hfop hpp]
        by_cases hgop : g = op
        · rw [hgop, childCountOf_found op hfop]
          show (nop.children.filter (fun c => c != D)).count op = 1
          rw [count_filter_ne (Ne.symm hDop) nop.children]
          have h1 := hA op nop hop
          rw [containerCount_child hop hpp, hgop, childCountOf_found op hop] at h1
          exact h1
        · rw [childCountOf_minsert_other _ op hgop]
          have h1 := hA op nop hop
          rw [containerCount_child hop hpp] at h1
          exact h1
    · rw [if_neg hkop] at hk
      have h1 := hA k n hk
      have hfk : mfind (minsert m op
          { nop with children := nop.children.filter (fun c => c != D) }) k
          = some n := by
        rw [hfind k, if_neg hkop]
        exact hk
      rcases hp : optT n.parentId with _ | g
      · rw [containerCount_root hfk hp]
        rw [containerCount_root hk hp] at h1
        exact h1
      · rw [containerCount_child hfk hp]
        rw [containerCount_child hk hp] at h1
        by_cases hgop : g = op
        · rw [hgop, childCountOf_found k hfop]
          show (nop.children.filter (fun c => c != D)).count k = 1
          rw [count_filter_ne hkD nop.children]
          rw [hgop, childCountOf_found k hop] at h1
          exact h1
        · rw [childCountOf_minsert_other _ k hgop]
          exact h1
  · intro x hx
    rw [hpk x]
    exact hB x hx
  · intro k n hk c hc hcD
    rw [hfind k] at hk
    by_cases hkop : k = op
    · rw [if_pos hkop] at hk
      have hn := Option.some_inj.mp hk
      rw [← hn] at hc
      have hc2 : c ∈ nop.children.filter (fun z => z != D) := hc
      rw [hkop, hpk c]
      exact hC op nop hop c (List.mem_of_mem_filter hc2)
    · rw [if_neg hkop] at hk
      rw [hpk c]
      exact hC k n hk c hc
  · intro k n hk
    rw [hfind k] at hk
    by_cases hkop : k = op
    · rw [if_pos hkop] at hk
      rw [← Option.some_inj.mp hk]
      show (nop.children.filter (fun c => c != D)).count D = 0
      exact count_filter_self D nop.children
    · rw [if_neg hkop] at hk
      exact honly k n hk hkop

/-- Overwriting the parent pointer of a detached node keeps the pair
consistent-except and detached at it. -/
theorem retarget_detached {m : NMap} {r : List String} {D : String} {nD : Node}
    (hce : ConsistentExcept m r D) (hdet : Detached m r D)
    (hD : mfind m D = some nD) (T : Option String) :
    ConsistentExcept (minsert m D { nD with parentId := T }) r D ∧
      Detached (minsert m D { nD with parentId := T }) r D := by
  obtain ⟨hA, hB, hC⟩ := hce
  obtain ⟨hdr, hdc⟩ := hdet
  have hfind := mfind_minsert m D { nD with parentId := T }
  have hfD : mfind (minsert m D { nD with parentId := T }) D
      = some { nD with parentId := T } := by
    rw [hfind D, if_pos rfl]
  refine ⟨⟨?_, ?_, ?_⟩, hdr, ?_⟩
  · intro k n hk hkD
    rw [hfind k, if_neg hkD] at hk
    have h1 := hA k n hk hkD
    have hfk : mfind (minsert m D { nD with parentId := T }) k = some n := by
      rw [hfind k, if_neg hkD]
      exact hk
    rcases hp : optT n.parentId with _ | g
    · rw [containerCount_root hfk hp]
      rw [containerCount_root hk hp] at h1
      exact h1
    · rw [containerCount_child hfk hp]
      rw [containerCount_child hk hp] at h1
      by_cases hgD : g = D
      · rw [hgD, childCountOf_found k hfD]
        show nD.children.count k = 1
        rw [hgD, childCountOf_found k hD] at h1
        exact h1
      · rw [childCountOf_minsert_other _ k hgD]
        exact h1
  · intro x hx
    have hxD : x ≠ D := by
      intro he
      exact List.count_eq_zero.mp hdr (he ▸ hx)
    rw [parentKeyOf_minsert_other _ hxD]
    exact hB x hx
  · intro k n hk c hc hcD
    rw [hfind k] at hk
    by_cases hkD : k = D
    · rw [if_pos hkD] at hk
      have hn := Option.some_inj.mp hk
      rw [← hn] at hc
      have hc2 : c ∈ nD.children := hc
      rw [hkD, parentKeyOf_minsert_other _ hcD]
      exact hC D nD hD c hc2 hcD
    · rw [if_neg hkD] at hk
      rw [parentKeyOf_minsert_other _ hcD]
      exact hC k n hk c hc hcD
  · intro k n hk
    rw [hfind k] at hk
    by_cases hkD : k = D
    · rw [if_pos hkD] at hk
      rw [← Option.some_inj.mp hk]
      show nD.children.count D = 0
      exact hdc D nD hD
    · rw [if_neg hkD] at hk
      exact hdc k n hk

/-- Under terminating chains no node is its own (truthy) parent. -/
theorem no_self_parent {s : Store} (hck : ChainsOK s) (hne0 : mfind s.nodes "" = none)
    {k : String} {nk : Node} (hk : mfind s.nodes k = some nk) :
    optT nk.parentId ≠ some k := by
  intro he
  obtain ⟨F, hall⟩ := hck
  have hl := hall k (mem_mkeys_of_mfind hk)
  rcases hsome : upchain F s.nodes (some k) with _ | l
  · rw [hsome] at hl
    exact Bool.noConfusion hl
  · rcases upchain_found_cons (found_ne_empty hne0 hk) hk hsome with ⟨F2, t, hF, hcons, ht⟩
    rw [he] at ht
    have heq := upchain_unique ht hsome
    rw [hcons] at heq
    have hlen := congrArg List.length heq
    simp at hlen

/-- `addNode` preserves structural consistency when the generated id is
fresh, the parent argument resolves (or is empty), and the patch does
not smuggle in `children` or `parentId`. -/
theorem consistent_addNode {s : Store} (h : Consistent s) {freshId : String}
    {parentId : Option String} (ty : NodeType) {data : NodePatch} (now : ℚ)
    (hfresh : mfind s.nodes freshId = none)
    (hpar : ∀ p, optT parentId = some p → (mfind s.nodes p).isSome = true)
    (hch : data.children = none) (hpid : data.parentId = none) :
    Consistent (addNode s freshId parentId ty data now) := by
  have hnch : (applyPatch (mkBase freshId ty parentId data now) data).children = [] := by
    rw [applyPatch_children_none hch]
    rfl
  have hnpid : (applyPatch (mkBase freshId ty parentId data now) data).parentId
      = optT parentId := by
    rw [applyPatch_parentId_none hpid]
    rfl
  obtain ⟨hce, hdet⟩ :=
    consistentExcept_fresh ((consistent_iff_flat s).mp h) hfresh hnch
  have hfD : mfind (minsert s.nodes freshId
      (applyPatch (mkBase freshId ty parentId data now) data)) freshId
      = some (applyPatch (mkBase freshId ty parentId data now) data) := by
    rw [mfind_minsert, if_pos rfl]
  unfold addNode
  rcases hP : optT parentId with _ | pid <;> simp only [hP]
  · rw [consistent_iff_flat]
    have hfDp : optT (applyPatch (mkBase freshId ty parentId data now) data).parentId
        = none := by
      rw [hnpid, optT_idem, hP]
    have hr : s.rootIds ++ [freshId]
        = s.rootIds.insertIdx s.rootIds.length freshId :=
      (List.insertIdx_length_self _ _).symm
    show ConsistentFlat _ (s.rootIds ++ [freshId])
    rw [hr]
    exact consistent_attach_root hce hdet hfD hfDp (Nat.le_refl _)
  · have hpids := hpar pid hP
    rcases hnp : mfind s.nodes pid with _ | np
    · rw [hnp] at hpids
      exact Bool.noConfusion hpids
    · have hpidf : pid ≠ freshId := by
        intro he
        rw [he, hfresh] at hnp
        exact Option.noConfusion hnp
      have hnp1 : mfind (minsert s.nodes freshId
          (applyPatch (mkBase freshId ty parentId data now) data)) pid = some np := by
        rw [mfind_minsert, if_neg hpidf]
        exact hnp
      simp only [hnp1]
      rw [consistent_iff_flat]
      have hfDp : optT (applyPatch (mkBase freshId ty parentId data now) data).parentId
          = some pid := by
        rw [hnpid, optT_idem, hP]
      have hr : np.children ++ [freshId]
          = np.children.insertIdx np.children.length freshId :=
        (List.insertIdx_length_self _ _).symm
      show ConsistentFlat (minsert _ pid { np with children := np.children ++ [freshId] })
        s.rootIds
      rw [hr]
      exact consistent_attach_parent hce hdet hfD hfDp hnp1 (Nat.le_refl _)

/-- The attach phase of `moveNode` when the new parent id is falsy: the
dragged node becomes a root at the clamped index. -/
theorem attach_root_case {m1 : NMap} {r1 : List String} {D : String} {node : Node}
    (hce : ConsistentExcept m1 r1 D) (hdet : Detached m1 r1 D)
    (hD1 : mfind m1 D = some node) (newIndex : Nat) :
    ConsistentFlat (minsert m1 D { node with parentId := none })
      (r1.insertIdx (min newIndex r1.length) D) := by
  obtain ⟨hce2, hdet2⟩ := retarget_detached hce hdet hD1 none
  have hfD2 : mfind (minsert m1 D { node with parentId := none }) D
      = some { node with parentId := none } := by
    rw [mfind_minsert, if_pos rfl]
  exact consistent_attach_root hce2 hdet2 hfD2 rfl (Nat.min_le_right _ _)

/-- The attach phase of `moveNode` when the new parent resolves: the
dragged node is spliced into its `children` at the clamped index. -/
theorem attach_parent_case {m1 : NMap} {r1 : List String} {D pid : String}
    {node np2 : Node}
    (hce : ConsistentExcept m1 r1 D) (hdet : Detached m1 r1 D)
    (hD1 : mfind m1 D = some node) (hpne : optT (some pid) = some pid)
    (hnp2 : mfind (minsert m1 D { node with parentId := some pid }) pid = some np2)
    (newIndex : Nat) :
    ConsistentFlat
      (minsert (minsert m1 D { node with parentId := some pid }) pid
        { np2 with children :=
            np2.children.insertIdx (min newIndex np2.children.length) D })
      r1 := by
  obtain ⟨hce2, hdet2⟩ := retarget_detached hce hdet hD1 (some pid)
  have hfD2 : mfind (minsert m1 D { node with parentId := some pid }) D
      = some { node with parentId := some pid } := by
    rw [mfind_minsert, if_pos rfl]
  exact consistent_attach_parent hce2 hdet2 hfD2 hpne hnp2 (Nat.min_le_right _ _)

/-- `moveNode` preserves structural consistency on a forest store when
its new-parent argument resolves (or is empty). -/
theorem consistent_moveNode {s : Store} (hf : Forest s) (hne0 : mfind s.nodes "" = none)
    (dragId : String) {parentId : Option String} (newIndex : Nat)
    (hpar : ∀ p, optT parentId = some p → (mfind s.nodes p).isSome = true) :
    Consistent (moveNode s dragId parentId newIndex) := by
  obtain ⟨hcons, hck⟩ := hf
  have hflat := (consistent_iff_flat s).mp hcons
  unfold moveNode
  rcases hD : mfind s.nodes dragId with _ | node <;> simp only [hD]
  · exact hcons
  · rcases hP0 : optT node.parentId with _ | op <;> simp only [hP0]
    · obtain ⟨hce, hdet⟩ := detach_root hflat hD hP0
      rcases hP : optT parentId with _ | pid <;> simp only [hP]
      · rw [consistent_iff_flat]
        exact attach_root_case hce hdet hD newIndex
      · rcases hnp2 : mfind (minsert s.nodes dragId
            { node with parentId := some pid }) pid with _ | np2 <;>
          simp only [hnp2]
        · exfalso
          by_cases hpd : pid = dragId
          · rw [mfind_minsert, if_pos hpd] at hnp2
            exact Option.noConfusion hnp2
          · rw [mfind_minsert, if_neg hpd] at hnp2
            have h2 := hpar pid hP
            rw [hnp2] at h2
            exact Bool.noConfusion h2
        · rw [consistent_iff_flat]
          exact attach_parent_case hce hdet hD (optT_eq_some hP) hnp2 newIndex
    · have h1 := hflat.1 dragId node hD
      rcases hop : mfind s.nodes op with _ | nop
      · rw [containerCount_child hD hP0, childCountOf_missing dragId hop] at h1
        exact absurd h1 (by decide)
      · simp only [hop]
        have hopD : dragId ≠ op := by
          intro he
          exact no_self_parent hck hne0 hD (by rw [hP0, he])
        obtain ⟨hce, hdet⟩ := detach_parent hflat hD hP0 hop hopD
        have hD1 : mfind (minsert s.nodes op
            { nop with children := nop.children.filter (fun c => c != dragId) }) dragId
            = some node := by
          rw [mfind_minsert, if_neg hopD]
          exact hD
        rcases hP : optT parentId with _ | pid <;> simp only [hP]
        · rw [consistent_iff_flat]
          exact attach_root_case hce hdet hD1 newIndex
        · rcases hnp2 : mfind (minsert (minsert s.nodes op
              { nop with children := nop.children.filter (fun c => c != dragId) }) dragId
              { node with parentId := some pid }) pid with _ | np2 <;>
            simp only [hnp2]
          · exfalso
            by_cases hpd : pid = dragId
            · rw [mfind_minsert, if_pos hpd] at hnp2
              exact Option.noConfusion hnp2
            · rw [mfind_minsert, if_neg hpd] at hnp2
              by_cases hpo : pid = op
              · rw [mfind_minsert, if_pos hpo] at hnp2
                exact Option.noConfusion hnp2
              · rw [mfind_minsert, if_neg hpo] at hnp2
                have h2 := hpar pid hP
                rw [hnp2] at h2
                exact Bool.noConfusion h2
          · rw [consistent_iff_flat]
            exact attach_parent_case hce hdet hD1 (optT_eq_some hP) hnp2 newIndex

/-- `deleteNode` preserves structural consistency on a forest store. -/
theorem consistent_deleteNode {s : Store} (hf : Forest s)
    (hne0 : mfind s.nodes "" = none) (K : String) :
    Consistent (deleteNode s K) := by
  rcases hK : mfind s.nodes K with _ | nK
  · have hid : deleteNode s K = s := by
      unfold deleteNode
      simp only [hK]
    rw [hid]
    exact hf.1
  · obtain ⟨hspec1, hspec2, hroot⟩ := deleteNode_find_spec s K nK hf hne0 hK
    obtain ⟨hA, hB, hC⟩ := (consistent_iff_flat s).mp hf.1
    have hiff := collect_chain_iff hf hne0 K
    have hKD : K ∈ collect (s.nodes.length + 1) s.nodes K := self_mem_collect hK
    have hyp : DelHyp s.nodes := forest_delHyp hf hne0
    have memD_up : ∀ x nx p, mfind s.nodes x = some nx → optT nx.parentId = some p →
        p ∈ collect (s.nodes.length + 1) s.nodes K →
        x ∈ collect (s.nodes.length + 1) s.nodes K := by
      intro x nx p hx hp hpD
      rcases (hiff p).mp hpD with ⟨F, l, hl, hKl⟩
      refine (hiff x).mpr ⟨F + 1, x :: l, ?_, List.mem_cons_of_mem x hKl⟩
      rw [upchain_found (by rw [optT_some, if_neg (found_ne_empty hne0 hx)]) hx, hp, hl]
      rfl
    have memD_down : ∀ c nc p, mfind s.nodes c = some nc → optT nc.parentId = some p →
        c ∈ collect (s.nodes.length + 1) s.nodes K → c ≠ K →
        p ∈ collect (s.nodes.length + 1) s.nodes K := by
      intro c nc p hc hp hcD hcK
      rcases (hiff c).mp hcD with ⟨F, l, hl, hKl⟩
      rcases upchain_found_cons (found_ne_empty hne0 hc) hc hl with ⟨F2, t, hF, hcons, ht⟩
      rw [hp] at ht
      refine (hiff p).mpr ⟨F2, t, ht, ?_⟩
      rcases List.mem_cons.mp (hcons ▸ hKl) with he | hm
      · exact absurd he.symm hcK
      · exact hm
    have rootD : ∀ x nx, mfind s.nodes x = some nx → optT nx.parentId = none →
        x ∈ collect (s.nodes.length + 1) s.nodes K → x = K := by
      intro x nx hx hp hxD
      rcases (hiff x).mp hxD with ⟨F, l, hl, hKl⟩
      rcases upchain_found_cons (found_ne_empty hne0 hx) hx hl with ⟨F2, t, hF, hcons, ht⟩
      rw [hp] at ht
      rw [upchain_stop (show optT (none : Option String) = none from rfl)] at ht
      rw [hcons, ← Option.some_inj.mp ht] at hKl
      rcases List.mem_cons.mp hKl with he | hm
      · exact he.symm
      · cases hm
    have hpk : ∀ x, x ∉ collect (s.nodes.length + 1) s.nodes K →
        parentKeyOf (deleteNode s K).nodes x = parentKeyOf s.nodes x := by
      intro x hxD
      unfold parentKeyOf
      rw [hspec2 x hxD]
      by_cases hpx : optT nK.parentId = some x
      · rw [if_pos hpx]
        cases hfx : mfind s.nodes x
        · rfl
        · rfl
      · rw [if_neg hpx]
    rw [consistent_iff_flat, hroot]
    refine ⟨?_, ?_, ?_⟩
    · intro k n hk0
      have hkD : k ∉ collect (s.nodes.length + 1) s.nodes K := by
        intro hmem
        rw [hspec1 k hmem] at hk0
        exact Option.noConfusion hk0
      have hk1 := hk0
      rw [hspec2 k hkD] at hk1
      have hkK : k ≠ K := fun he => hkD (he ▸ hKD)
      by_cases hpx : optT nK.parentId = some k
      · rw [if_pos hpx] at hk1
        rcases hfk : mfind s.nodes k with _ | nk1
        · rw [hfk] at hk1
          exact Option.noConfusion hk1
        · rw [hfk] at hk1
          have hn : { nk1 with
              children := nk1.children.filter (fun c => c != K) } = n :=
            Option.some_inj.mp hk1
          have hnp : n.parentId = nk1.parentId := by rw [← hn]
          have h1 := hA k nk1 hfk
          rcases hp : optT nk1.parentId with _ | g
          · rw [containerCount_root hk0 (by rw [hnp]; exact hp), count_filter_ne hkK]
            rw [containerCount_root hfk hp] at h1
            exact h1
          · have hgD : g ∉ collect (s.nodes.length + 1) s.nodes K :=
              fun hmem => hkD (memD_up k nk1 g hfk hp hmem)
            rw [containerCount_child hk0 (by rw [hnp]; exact hp)]
            rw [containerCount_child hfk hp] at h1
            unfold childCountOf
            rw [hspec2 g hgD]
            by_cases hpg : optT nK.parentId = some g
            · rw [if_pos hpg]
              rcases hfg : mfind s.nodes g with _ | ng
              · rw [childCountOf_missing k hfg] at h1
                exact absurd h1 (by decide)
              · simp only [Option.map_some', Option.getD_some]
                rw [count_filter_ne hkK]
                rw [childCountOf_found k hfg] at h1
                exact h1
            · rw [if_neg hpg]
              unfold childCountOf at h1
              exact h1
      · rw [if_neg hpx] at hk1
        have h1 := hA k n hk1
        rcases hp : optT n.parentId with _ | g
        · rw [containerCount_root hk0 hp, count_filter_ne hkK]
          rw [containerCount_root hk1 hp] at h1
          exact h1
        · have hgD : g ∉ collect (s.nodes.length + 1) s.nodes K :=
            fun hmem => hkD (memD_up k n g hk1 hp hmem)
          rw [containerCount_child hk0 hp]
          rw [containerCount_child hk1 hp] at h1
          unfold childCountOf
          rw [hspec2 g hgD]
          by_cases hpg : optT nK.parentId = some g
          · rw [if_pos hpg]
            rcases hfg : mfind s.nodes g with _ | ng
            · rw [childCountOf_missing k hfg] at h1
              exact absurd h1 (by decide)
            · simp only [Option.map_some', Option.getD_some]
              rw [count_filter_ne hkK]
              rw [childCountOf_found k hfg] at h1
              exact h1
          · rw [if_neg hpg]
            unfold childCountOf at h1
            exact h1
    · intro x hx
      have hxr := List.mem_of_mem_filter hx
      have hxK : x ≠ K := by
        have h3 := (List.mem_filter.mp hx).2
        simpa using h3
      have h2 := hB x hxr
      rcases parentKeyOf_eq_some h2 with ⟨nx, hnx, hnxp⟩
      have hxD : x ∉ collect (s.nodes.length + 1) s.nodes K :=
        fun hmem => hxK (rootD x nx hnx hnxp hmem)
      rw [hpk x hxD]
      exact h2
    · intro k n hk0 c hc
      have hkD : k ∉ collect (s.nodes.length + 1) s.nodes K := by
        intro hmem
        rw [hspec1 k hmem] at hk0
        exact Option.noConfusion hk0
      have hk1 := hk0
      rw [hspec2 k hkD] at hk1
      by_cases hpx : optT nK.parentId = some k
      · rw [if_pos hpx] at hk1
        rcases hfk : mfind s.nodes k with _ | nk1
        · rw [hfk] at hk1
          exact Option.noConfusion hk1
        · rw [hfk] at hk1
          have hn := Option.some_inj.mp hk1
          rw [← hn] at hc
          have hc2 : c ∈ nk1.children.filter (fun z => z != K) := hc
          have hcK : c ≠ K := by
            have h3 := (List.mem_filter.mp hc2).2
            simpa using h3
          have hcold := List.mem_of_mem_filter hc2
          have h2 := hC k nk1 hfk c hcold
          rcases parentKeyOf_eq_some h2 with ⟨nc, hnc, hncp⟩
          have hcD : c ∉ collect (s.nodes.length + 1) s.nodes K :=
            fun hmem => hkD (memD_down c nc k hnc hncp hmem hcK)
          rw [hpk c hcD]
          exact h2
      · rw [if_neg hpx] at hk1
        have h2 := hC k n hk1 c hc
        rcases parentKeyOf_eq_some h2 with ⟨nc, hnc, hncp⟩
        have hcK : c ≠ K := by
          intro he
          rw [he, hK] at hnc
          rw [← Option.some_inj.mp hnc] at hncp
          exact hpx hncp
        have hcD : c ∉ collect (s.nodes.length + 1) s.nodes K :=
          fun hmem => hkD (memD_down c nc k hnc hncp hmem hcK)
        rw [hpk c hcD]
        exact h2

/-- One public mutation of the store, with the id generator and clock
made explicit. -/
inductive Op where
  | add (freshId : String) (parentId : Option String) (ty : NodeType)
      (data : NodePatch) (now : ℚ)
  | update (id : String) (data : NodePatch)
  | del (id : String)
  | move (dragId : String) (parentId : Option String) (newIndex : Nat)
  | toggle (id : String)
  | start (id : String) (now : ℚ)
  | stop (id : String)

def applyOp (s : Store) : Op → Store
  | .add f p ty d now => addNode s f p ty d now
  | .update id d => updateNode s id d
  | .del id => deleteNode s id
  | .move dg p i => moveNode s dg p i
  | .toggle id => toggleExpand s id
  | .start id now => startTimer s id now
  | .stop id => stopTimer s id

/-- The (truthy) parent argument is either empty or resolves. -/
def presentOrNone (m : NMap) (o : Option String) : Bool :=
  match optT o with
  | none => true
  | some p => (mfind m p).isSome

/-- Side conditions under which an operation keeps the store consistent:
generated ids are fresh, parent arguments resolve, and patches do not
rewrite `children` or `parentId`. -/
def opOK (s : Store) : Op → Bool
  | .add f p _ d _ =>
    (mfind s.nodes f).isNone && presentOrNone s.nodes p &&
      d.children.isNone && d.parentId.isNone
  | .update _ d => d.children.isNone && d.parentId.isNone
  | .move _ p _ => presentOrNone s.nodes p
  | _ => true

/-- C1 (amended): the claim is false for the raw operations — `addNode`
with an unresolvable `parentId` inserts a node whose parent pointer
dangles (see the counterexample) — but every operation preserves
structural consistency on a forest store under the `opOK` side
conditions: fresh generated id, resolving (or empty) parent arguments,
and patches that do not rewrite `children` or `parentId`. -/
theorem consistency_preserved (s : Store) (op : Op) (hf : Forest s)
    (hne0 : mfind s.nodes "" = none) (hok : opOK s op = true) :
    Consistent (applyOp s op) := by
  cases op with
  | add f p ty d now =>
    simp only [opOK, Bool.and_eq_true] at hok
    obtain ⟨⟨⟨hfr, hpar⟩, hch⟩, hpid⟩ := hok
    refine consistent_addNode hf.1 ty now (Option.isNone_iff_eq_none.mp hfr) ?_
      (Option.isNone_iff_eq_none.mp hch) (Option.isNone_iff_eq_none.mp hpid)
    intro q hq
    unfold presentOrNone at hpar
    simp only [hq] at hpar
    exact hpar
  | update id d =>
    simp only [opOK, Bool.and_eq_true] at hok
    obtain ⟨hch, hpid⟩ := hok
    exact consistent_updateNode hf.1 id (Option.isNone_iff_eq_none.mp hch)
      (Option.isNone_iff_eq_none.mp hpid)
  | del id => exact consistent_deleteNode hf hne0 id
  | move dg p i =>
    simp only [opOK] at hok
    refine consistent_moveNode hf hne0 dg i ?_
    intro q hq
    unfold presentOrNone at hok
    simp only [hq] at hok
    exact hok
  | toggle id => exact consistent_toggleExpand hf.1 id
  | start id now => exact consistent_startTimer hf.1 id now
  | stop id => exact consistent_stopTimer hf.1 id

/-- Witness for `consistency_preserved`: moving the leaf `A` under the
root `G` of the demo store keeps it consistent. -/
theorem consistency_preserved_witness :
    (Forest demoStore ∧ mfind demoStore.nodes "" = none ∧
      opOK demoStore (Op.move "A" (some "G") 0) = true) ∧
    Consistent (applyOp demoStore (Op.move "A" (some "G") 0)) :=
  ⟨⟨⟨by decide, 5, by decide⟩, by decide, by decide⟩,
   consistency_preserved demoStore (Op.move "A" (some "G") 0)
     ⟨by decide, 5, by decide⟩ (by decide) (by decide)⟩

/-- C1 as stated is false: `addNode` with an unresolvable `parentId`
commits a store whose only node carries a dangling parent pointer, so
the committed store is not structurally consistent. -/
theorem addNode_dangling_parent_breaks_consistency :
    Consistent (⟨[], []⟩ : Store) ∧
    ¬ Consistent (addNode ⟨[], []⟩ "x" (some "ghost") NodeType.task NodePatch.empty 1) :=
  ⟨by decide, by decide⟩

/-- In a consistent store every (truthy) parent pointer resolves. -/
theorem consistent_parentsResolve {s : Store} (h : Consistent s) :
    ∀ k n p, mfind s.nodes k = some n → optT n.parentId = some p →
      (mfind s.nodes p).isSome = true := by
  intro k n p hk hp
  rcases hfp : mfind s.nodes p with _ | np
  · have h1 := ((consistent_iff_flat s).mp h).1 k n hk
    rw [containerCount_child hk hp, childCountOf_missing k hfp] at h1
    exact absurd h1 (by decide)
  · rfl

theorem pstruct_isSome (m : NMap) (x : String) :
    (pstruct m x).isSome = (mfind m x).isSome := by
  unfold pstruct
  cases mfind m x <;> rfl

theorem pstruct_skel (m : NMap) (x : String) :
    pstruct m x = (skel m x).map Prod.fst := by
  unfold pstruct skel
  cases mfind m x <;> rfl

theorem pstruct_minsert_off {m : NMap} {k : String} (v : Node) {x : String}
    (hx : x ≠ k) : pstruct (minsert m k v) x = pstruct m x := by
  unfold pstruct
  rw [mfind_minsert, if_neg hx]

theorem pstruct_mapSnd {f : Node → Node} (hpid : ∀ n, (f n).parentId = n.parentId)
    (m : NMap) (x : String) :
    pstruct (m.map (fun e => (e.1, f e.2))) x = pstruct m x := by
  unfold pstruct
  rw [mfind_mapSnd]
  cases mfind m x <;> simp [hpid]

theorem upchain_arg_congr {o1 o2 : Option String} (h : optT o1 = optT o2)
    (F : Nat) (m : NMap) : upchain F m o1 = upchain F m o2 := by
  cases F
  · rw [upchain_zero, upchain_zero, h]
  · rw [upchain_succ, upchain_succ, h]

/-- A map with the same parent structure has the same terminating
chains. -/
theorem chainsOK_of_pstruct {s : Store} {m2 : NMap} (hck : ChainsOK s)
    (hps : ∀ x, pstruct m2 x = pstruct s.nodes x) (r2 : List String) :
    ChainsOK ⟨m2, r2⟩ := by
  obtain ⟨F, hall⟩ := hck
  refine ⟨F, ?_⟩
  intro k hk
  have hk1 : k ∈ mkeys s.nodes := by
    rw [mem_mkeys_iff_isSome] at hk ⊢
    rw [← pstruct_isSome, ← hps k, pstruct_isSome]
    exact hk
  have hcg := upchain_congr hps F (some k)
  rw [hcg]
  exact hall k hk1

/-- `toggleExpand` preserves chain termination. -/
theorem chainsOK_toggleExpand {s : Store} (hck : ChainsOK s) (id : String) :
    ChainsOK (toggleExpand s id) := by
  unfold toggleExpand
  rcases hk : mfind s.nodes id with _ | n <;> simp only [hk]
  · exact hck
  · exact chainsOK_of_pstruct hck (pstruct_minsert_samePid hk
      (show ({ n with isExpanded := !n.isExpanded }).parentId = n.parentId from rfl))
      s.rootIds

/-- `stopTimer` preserves chain termination. -/
theorem chainsOK_stopTimer {s : Store} (hck : ChainsOK s) (id : String) :
    ChainsOK (stopTimer s id) := by
  unfold stopTimer
  rcases hk : mfind s.nodes id with _ | n <;> simp only [hk]
  · exact hck
  · by_cases hr : timerRunning n.timerStartedAt
    · rw [if_pos hr]
      exact chainsOK_of_pstruct hck (pstruct_minsert_samePid hk
        (show ({ n with timerStartedAt := none }).parentId = n.parentId from rfl))
        s.rootIds
    · rw [if_neg hr]
      exact hck

/-- `startTimer` preserves chain termination. -/
theorem chainsOK_startTimer {s : Store} (hck : ChainsOK s) (id : String) (now : ℚ) :
    ChainsOK (startTimer s id now) := by
  unfold startTimer
  rcases hk : mfind (s.nodes.map (fun e => (e.1, stopIfRunning e.2))) id with _ | n <;>
    simp only [hk]
  · exact chainsOK_of_pstruct hck (pstruct_mapSnd stopIfRunning_parentId s.nodes) s.rootIds
  · refine chainsOK_of_pstruct hck (fun x => ?_) s.rootIds
    exact ((pstruct_minsert_samePid hk
      (show ({ n with timerStartedAt := some now }).parentId = n.parentId from rfl)) x).trans
      (pstruct_mapSnd stopIfRunning_parentId s.nodes x)

/-- `updateNode` with a patch that does not rewrite `children` or
`parentId` preserves chain termination. -/
theorem chainsOK_updateNode {s : Store} (hck : ChainsOK s) (id : String) {d : NodePatch}
    (hpid : d.parentId = none) :
    ChainsOK (updateNode s id d) := by
  unfold updateNode
  rcases hk : mfind s.nodes id with _ | n <;> simp only [hk]
  · exact hck
  · have hps1 : ∀ x, pstruct (minsert s.nodes id (applyPatch n d)) x
        = pstruct s.nodes x :=
      pstruct_minsert_samePid hk (applyPatch_parentId_none hpid)
    have hps2 : ∀ (cf fuel : Nat) (o : Option String) (m : NMap) (x : String),
        pstruct (recalculateProgressUpwards cf fuel o m) x = pstruct m x := by
      intro cf fuel o m x
      rw [pstruct_skel, pstruct_skel, ← skel_recalcUp]
    rcases hp : d.progress with _ | q <;> simp only [hp]
    · exact chainsOK_of_pstruct hck hps1 s.rootIds
    · by_cases hq : q = n.progress
      · rw [if_pos hq]
        exact chainsOK_of_pstruct hck hps1 s.rootIds
      · rw [if_neg hq]
        refine chainsOK_of_pstruct hck (fun x => ?_) s.rootIds
        exact (hps2 _ _ _ _ x).trans (hps1 x)

/-- A chain that avoids the one key whose parent structure changed is
computed identically in the modified map.  The walk needs resolving
parents so that it cannot stop at a missing key that the modified map
supplies. -/
theorem upchain_congr_avoid {m m2 : NMap} {bad : String}
    (hpr : ∀ k n p, mfind m k = some n → optT n.parentId = some p →
      (mfind m p).isSome = true)
    (hps : ∀ x, x ≠ bad → pstruct m2 x = pstruct m x) :
    ∀ (F : Nat) (o : Option String) (l : List String),
      upchain F m o = some l → bad ∉ l →
      (∀ z, optT o = some z → z ≠ bad) →
      upchain F m2 o = some l := by
  intro F
  induction F with
  | zero =>
    intro o l h hbl hhd
    rcases ho : optT o with _ | z
    · rw [upchain_stop ho] at h
      rw [upchain_stop ho]
      exact h
    · rw [upchain_zero_some ho] at h
      exact Option.noConfusion h
  | succ f ih =>
    intro o l h hbl hhd
    rcases ho : optT o with _ | z
    · rw [upchain_stop ho] at h
      rw [upchain_stop ho]
      exact h
    · have hzb : z ≠ bad := hhd z ho
      have hpsz := hps z hzb
      rcases hz : mfind m z with _ | n
      · rw [upchain_missing ho hz] at h
        have hz2 : mfind m2 z = none := by
          unfold pstruct at hpsz
          rw [hz] at hpsz
          simp only [Option.map_none'] at hpsz
          rcases hf2 : mfind m2 z with _ | n2
          · rfl
          · rw [hf2] at hpsz
            simp only [Option.map_some'] at hpsz
            exact Option.noConfusion hpsz
        rw [upchain_missing ho hz2]
        exact h
      · rw [upchain_found ho hz] at h
        rcases Option.map_eq_some'.mp h with ⟨l', hl', hcons⟩
        obtain ⟨n2, hz2, heq⟩ : ∃ n2, mfind m2 z = some n2 ∧
            optT n2.parentId = optT n.parentId := by
          unfold pstruct at hpsz
          rw [hz] at hpsz
          rcases hf2 : mfind m2 z with _ | n2
          · rw [hf2] at hpsz
            simp only [Option.map_none', Option.map_some'] at hpsz
            exact Option.noConfusion hpsz
          · rw [hf2] at hpsz
            simp only [Option.map_some', Option.some_inj] at hpsz
            exact ⟨n2, rfl, hpsz⟩
        have hbl' : bad ∉ l' := by
          intro hm
          exact hbl (hcons ▸ List.mem_cons_of_mem z hm)
        have hhd' : ∀ z', optT (optT n.parentId) = some z' → z' ≠ bad := by
          intro z' hz'0
          have hz'1 : optT n.parentId = some z' := by
            rw [optT_idem] at hz'0
            exact hz'0
          have hres := hpr z n z' hz hz'1
          rcases hfz' : mfind m z' with _ | nz'
          · rw [hfz'] at hres
            exact Bool.noConfusion hres
          · rcases f with _ | f2
            · rw [upchain_zero_some hz'0] at hl'
              exact Option.noConfusion hl'
            · rw [upchain_found hz'0 hfz'] at hl'
              rcases Option.map_eq_some'.mp hl' with ⟨t, ht, hcons'⟩
              intro hbad
              rw [hbad] at hcons'
              exact hbl' (hcons' ▸ List.mem_cons_self bad t)
        have hrec := ih (optT n.parentId) l' hl' hbl' hhd'
        have hoeq : optT (optT n2.parentId) = optT (optT n.parentId) := by rw [heq]
        rw [upchain_found ho hz2, upchain_arg_congr hoeq f m2, hrec,
          Option.map_some', hcons]

/-- Once the rerouted key itself has a terminating chain in the modified
map, every chain of the original map still terminates there. -/
theorem chain_reroute {m m2 : NMap} {dg : String}
    (hps : ∀ x, x ≠ dg → pstruct m2 x = pstruct m x) {G : Nat}
    (hdg : (upchain G m2 (some dg)).isSome = true) :
    ∀ (F : Nat) (o : Option String) (l : List String),
      upchain F m o = some l → (upchain (F + G) m2 o).isSome = true := by
  intro F
  induction F with
  | zero =>
    intro o l h
    rcases ho : optT o with _ | z
    · rw [upchain_stop ho]
      rfl
    · rw [upchain_zero_some ho] at h
      exact Option.noConfusion h
  | succ f ih =>
    intro o l h
    rcases ho : optT o with _ | z
    · rw [upchain_stop ho]
      rfl
    · by_cases hz : z = dg
      · rcases hu : upchain G m2 (some dg) with _ | l2
        · rw [hu] at hdg
          exact Bool.noConfusion hdg
        · rw [← upchain_optT, ho, hz,
            upchain_mono G (f + 1 + G) (by omega) m2 (some dg) l2 hu]
          rfl
      · have hpsz := hps z hz
        rcases hfz : mfind m z with _ | n
        · have hz2 : mfind m2 z = none := by
            unfold pstruct at hpsz
            rw [hfz] at hpsz
            simp only [Option.map_none'] at hpsz
            rcases hf2 : mfind m2 z with _ | n2
            · rfl
            · rw [hf2] at hpsz
              simp only [Option.map_some'] at hpsz
              exact Option.noConfusion hpsz
          have harith : f + 1 + G = (f + G) + 1 := by omega
          rw [harith, upchain_missing ho hz2]
          rfl
        · rw [upchain_found ho hfz] at h
          rcases Option.map_eq_some'.mp h with ⟨l', hl', hcons⟩
          obtain ⟨n2, hz2, heq⟩ : ∃ n2, mfind m2 z = some n2 ∧
              optT n2.parentId = optT n.parentId := by
            unfold pstruct at hpsz
            rw [hfz] at hpsz
            rcases hf2 : mfind m2 z with _ | n2
            · rw [hf2] at hpsz
              simp only [Option.map_none', Option.map_some'] at hpsz
              exact Option.noConfusion hpsz
            · rw [hf2] at hpsz
              simp only [Option.map_some', Option.some_inj] at hpsz
              exact ⟨n2, rfl, hpsz⟩
          have hrec := ih (optT n.parentId) l' hl'
          rcases hu2 : upchain (f + G) m2 (optT n.parentId) with _ | l2
          · rw [hu2] at hrec
            exact Bool.noConfusion hrec
          · have harith : f + 1 + G = (f + G) + 1 := by omega
            have hoeq : optT (optT n2.parentId) = optT (optT n.parentId) := by rw [heq]
            rw [harith, upchain_found ho hz2, upchain_arg_congr hoeq (f + G) m2, hu2]
            rfl

/-- Chains still terminate when entries only disappear or keep their
parent structure. -/
theorem upchain_shrink_pstruct {m2 m1 : NMap}
    (hsub : ∀ x, pstruct m2 x = pstruct m1 x ∨ pstruct m2 x = none) :
    ∀ (F : Nat) (o : Option String) (l : List String),
      upchain F m1 o = some l → ∃ l2, upchain F m2 o = some l2 := by
  intro F
  induction F with
  | zero =>
    intro o l h
    rcases ho : optT o with _ | k
    · exact ⟨[], upchain_stop ho⟩
    · rw [upchain_zero_some ho] at h
      exact Option.noConfusion h
  | succ f ih =>
    intro o l h
    rcases ho : optT o with _ | k
    · exact ⟨[], upchain_stop ho⟩
    · rcases hk2 : mfind m2 k with _ | n2
      · exact ⟨[], upchain_missing ho hk2⟩
      · have hp2 : pstruct m2 k = some (optT n2.parentId) := by
          unfold pstruct
          rw [hk2]
          rfl
        rcases hsub k with hcase | hcase
        · rw [hp2] at hcase
          obtain ⟨n1, hk1, heq⟩ : ∃ n1, mfind m1 k = some n1 ∧
              optT n1.parentId = optT n2.parentId := by
            rcases hf1 : mfind m1 k with _ | n1
            · exfalso
              unfold pstruct at hcase
              rw [hf1] at hcase
              simp only [Option.map_none'] at hcase
              exact Option.noConfusion hcase
            · unfold pstruct at hcase
              rw [hf1] at hcase
              simp only [Option.map_some', Option.some_inj] at hcase
              exact ⟨n1, rfl, hcase.symm⟩
          rw [upchain_found ho hk1] at h
          rcases Option.map_eq_some'.mp h with ⟨l', hl', hcons⟩
          rcases ih (optT n1.parentId) l' hl' with ⟨l2, hl2⟩
          refine ⟨k :: l2, ?_⟩
          have hoeq : optT (optT n2.parentId) = optT (optT n1.parentId) := by rw [← heq]
          rw [upchain_found ho hk2, upchain_arg_congr hoeq f m2, hl2,
            Option.map_some']
        · rw [hp2] at hcase
          exact Option.noConfusion hcase

/-- Chain termination for a store whose parent structure differs from a
forest store at one rerouted key with its own terminating chain. -/
theorem chainsOK_reroute {s : Store} {m2 : NMap} {dg : String} (hck : ChainsOK s)
    (hps : ∀ x, x ≠ dg → pstruct m2 x = pstruct s.nodes x)
    {G : Nat} (hdg : (upchain G m2 (some dg)).isSome = true)
    (hkeys : ∀ k, (mfind m2 k).isSome = true →
      k = dg ∨ (mfind s.nodes k).isSome = true)
    (r2 : List String) :
    ChainsOK ⟨m2, r2⟩ := by
  obtain ⟨F, hall⟩ := hck
  refine ⟨F + G, ?_⟩
  intro k hk
  have hk2 : (mfind m2 k).isSome = true := mem_mkeys_iff_isSome.mp hk
  show (upchain (F + G) m2 (some k)).isSome = true
  rcases hkeys k hk2 with he | hsome
  · rcases hu : upchain G m2 (some dg) with _ | l2
    · rw [hu] at hdg
      exact Bool.noConfusion hdg
    · rw [he, upchain_mono G (F + G) (by omega) m2 (some dg) l2 hu]
      rfl
  · have hm := hall k (mem_mkeys_iff_isSome.mpr hsome)
    rcases hu : upchain F s.nodes (some k) with _ | l
    · rw [hu] at hm
      exact Bool.noConfusion hm
    · exact chain_reroute hps hdg F (some k) l hu

/-- `deleteNode` preserves chain termination on a forest store. -/
theorem chainsOK_deleteNode {s : Store} (hf : Forest s)
    (hne0 : mfind s.nodes "" = none) (K : String) :
    ChainsOK (deleteNode s K) := by
  rcases hK : mfind s.nodes K with _ | nK
  · have hid : deleteNode s K = s := by
      unfold deleteNode
      simp only [hK]
    rw [hid]
    exact hf.2
  · obtain ⟨hspec1, hspec2, hroot⟩ := deleteNode_find_spec s K nK hf hne0 hK
    have hsub : ∀ x, pstruct (deleteNode s K).nodes x = pstruct s.nodes x ∨
        pstruct (deleteNode s K).nodes x = none := by
      intro x
      by_cases hxD : x ∈ collect (s.nodes.length + 1) s.nodes K
      · right
        unfold pstruct
        rw [hspec1 x hxD]
        rfl
      · left
        unfold pstruct
        rw [hspec2 x hxD]
        by_cases hpx : optT nK.parentId = some x
        · rw [if_pos hpx]
          cases hfx : mfind s.nodes x
          · rfl
          · rfl
        · rw [if_neg hpx]
    obtain ⟨F, hall⟩ := hf.2
    refine ⟨F, ?_⟩
    intro k hk
    have hk2 := mem_mkeys_iff_isSome.mp hk
    show (upchain F (deleteNode s K).nodes (some k)).isSome = true
    have hk1 : (mfind s.nodes k).isSome = true := by
      rcases hsub k with hc | hc
      · rw [← pstruct_isSome, ← hc, pstruct_isSome]
        exact hk2
      · exfalso
        have h3 := pstruct_isSome (deleteNode s K).nodes k
        rw [hc] at h3
        rw [← h3] at hk2
        exact Bool.noConfusion hk2
    have hm := hall k (mem_mkeys_iff_isSome.mpr hk1)
    rcases hu : upchain F s.nodes (some k) with _ | l
    · rw [hu] at hm
      exact Bool.noConfusion hm
    · rcases upchain_shrink_pstruct hsub F (some k) l hu with ⟨l2, hl2⟩
      rw [hl2]
      rfl

theorem optT_some_inj {x z : String} (h : optT (some x) = some z) : z = x := by
  rw [optT_some] at h
  by_cases he : x = ""
  · rw [if_pos he] at h
    exact Option.noConfusion h
  · rw [if_neg he] at h
    exact (Option.some_inj.mp h).symm

/-- Chains terminate after inserting a fresh parentless node. -/
theorem chainsOK_add_root {s : Store} (hck : ChainsOK s) {freshId : String}
    {nn : Node} (hfresh : mfind s.nodes freshId = none)
    (hnn : optT nn.parentId = none) (r2 : List String) :
    ChainsOK ⟨minsert s.nodes freshId nn, r2⟩ := by
  have hfD : mfind (minsert s.nodes freshId nn) freshId = some nn := by
    rw [mfind_minsert, if_pos rfl]
  have hps1 : ∀ x, x ≠ freshId →
      pstruct (minsert s.nodes freshId nn) x = pstruct s.nodes x :=
    fun x hx => pstruct_minsert_off nn hx
  have hdg : (upchain 1 (minsert s.nodes freshId nn) (some freshId)).isSome = true := by
    rcases hfe : optT (some freshId) with _ | z
    · rw [upchain_stop hfe]
      rfl
    · rw [optT_some_inj hfe] at hfe
      rw [upchain_found hfe hfD,
        upchain_stop (show optT (optT nn.parentId) = none from by rw [hnn]; rfl)]
      rfl
  refine chainsOK_reroute hck hps1 hdg ?_ r2
  intro k hk
  rw [mfind_minsert] at hk
  by_cases hkf : k = freshId
  · exact Or.inl hkf
  · rw [if_neg hkf] at hk
    exact Or.inr hk

/-- Chains terminate after inserting a fresh node whose parent pointer
names an existing node, and rewriting that parent's `children`. -/
theorem chainsOK_add_parent {s : Store} (hck : ChainsOK s)
    (hpr : ∀ k n p, mfind s.nodes k = some n → optT n.parentId = some p →
      (mfind s.nodes p).isSome = true)
    {freshId pid : String} {nn np : Node} (hfresh : mfind s.nodes freshId = none)
    (hnn : optT nn.parentId = some pid) (hnp : mfind s.nodes pid = some np)
    (nc : List String) (r2 : List String) :
    ChainsOK ⟨minsert (minsert s.nodes freshId nn) pid { np with children := nc },
      r2⟩ := by
  have hpidf : pid ≠ freshId := by
    intro he
    rw [he, hfresh] at hnp
    exact Option.noConfusion hnp
  have hnp1 : mfind (minsert s.nodes freshId nn) pid = some np := by
    rw [mfind_minsert, if_neg hpidf]
    exact hnp
  have hpsM : ∀ x, x ≠ freshId →
      pstruct (minsert (minsert s.nodes freshId nn) pid { np with children := nc }) x
        = pstruct s.nodes x := by
    intro x hx
    exact (pstruct_minsert_samePid hnp1
      (show ({ np with children := nc }).parentId = np.parentId from rfl) x).trans
      (pstruct_minsert_off nn hx)
  have hfDM : mfind (minsert (minsert s.nodes freshId nn) pid
      { np with children := nc }) freshId = some nn := by
    rw [mfind_minsert, if_neg (fun he => hpidf he.symm), mfind_minsert, if_pos rfl]
  obtain ⟨F, hall⟩ := hck
  have hm := hall pid (mem_mkeys_of_mfind hnp)
  rcases hu : upchain F s.nodes (some pid) with _ | l0
  · rw [hu] at hm
    exact Bool.noConfusion hm
  · have hnotin : freshId ∉ l0 := by
      intro hmem
      have h2 := upchain_subset_keys F s.nodes (some pid) l0 hu freshId hmem
      rw [mem_mkeys_iff_isSome, hfresh] at h2
      exact Bool.noConfusion h2
    have hhd : ∀ z, optT (some pid) = some z → z ≠ freshId := by
      intro z hzz
      rw [optT_some_inj hzz]
      exact hpidf
    have hchainM := upchain_congr_avoid hpr hpsM F (some pid) l0 hu hnotin hhd
    have hdg : (upchain (F + 1) (minsert (minsert s.nodes freshId nn) pid
        { np with children := nc }) (some freshId)).isSome = true := by
      rcases hfe : optT (some freshId) with _ | z
      · rw [upchain_stop hfe]
        rfl
      · rw [optT_some_inj hfe] at hfe
        rw [upchain_found hfe hfDM]
        have hoeq : optT (optT nn.parentId) = optT (some pid) := by
          rw [hnn]
        rw [upchain_arg_congr hoeq F _, hchainM]
        rfl
    refine chainsOK_reroute ⟨F, hall⟩ hpsM hdg ?_ r2
    intro k hk
    rw [mfind_minsert] at hk
    by_cases hkp : k = pid
    · right
      rw [hkp, hnp]
      rfl
    · rw [if_neg hkp, mfind_minsert] at hk
      by_cases hkf : k = freshId
      · exact Or.inl hkf
      · rw [if_neg hkf] at hk
        exact Or.inr hk

/-- `addNode` preserves chain termination when the generated id is
fresh, the parent argument resolves (or is empty), and the patch does
not rewrite `parentId`. -/
theorem chainsOK_addNode {s : Store} (hf : Forest s) {freshId : String}
    {parentId : Option String} (ty : NodeType) {data : NodePatch} (now : ℚ)
    (hfresh : mfind s.nodes freshId = none)
    (hpar : ∀ p, optT parentId = some p → (mfind s.nodes p).isSome = true)
    (hpid : data.parentId = none) :
    ChainsOK (addNode s freshId parentId ty data now) := by
  have hnpid : (applyPatch (mkBase freshId ty parentId data now) data).parentId
      = optT parentId := by
    rw [applyPatch_parentId_none hpid]
    rfl
  have hpr := consistent_parentsResolve hf.1
  unfold addNode
  rcases hP : optT parentId with _ | pid <;> simp only [hP]
  · refine chainsOK_add_root hf.2 hfresh ?_ _
    rw [hnpid, optT_idem, hP]
  · have hpids := hpar pid hP
    rcases hnp : mfind s.nodes pid with _ | np
    · rw [hnp] at hpids
      exact Bool.noConfusion hpids
    · have hpidf : pid ≠ freshId := by
        intro he
        rw [he, hfresh] at hnp
        exact Option.noConfusion hnp
      have hnp1 : mfind (minsert s.nodes freshId
          (applyPatch (mkBase freshId ty parentId data now) data)) pid = some np := by
        rw [mfind_minsert, if_neg hpidf]
        exact hnp
      simp only [hnp1]
      refine chainsOK_add_parent hf.2 hpr hfresh ?_ hnp _ _
      rw [hnpid, optT_idem, hP]

/-- After retargeting `D`'s parent pointer to `T`, `D`'s own chain
terminates — immediately when `T` is falsy, and through `T`'s old chain
when that chain avoids `D`. -/
theorem drag_chain_terminates {s : Store}
    (hpr : ∀ k n p, mfind s.nodes k = some n → optT n.parentId = some p →
      (mfind s.nodes p).isSome = true)
    {M : NMap} {D : String} (hDs : (mfind s.nodes D).isSome = true)
    (hpsM : ∀ x, x ≠ D → pstruct M x = pstruct s.nodes x)
    {T : Option String} (hDM : pstruct M D = some (optT T))
    (hT : optT T = none ∨ ∃ pid F0 l0, optT T = some pid ∧
      upchain F0 s.nodes (some pid) = some l0 ∧ D ∉ l0) :
    ∃ G, (upchain G M (some D)).isSome = true := by
  obtain ⟨nd, hfD, hnd⟩ : ∃ nd, mfind M D = some nd ∧ optT nd.parentId = optT T := by
    unfold pstruct at hDM
    rcases hfm : mfind M D with _ | nd
    · rw [hfm] at hDM
      simp only [Option.map_none'] at hDM
      exact Option.noConfusion hDM
    · rw [hfm] at hDM
      simp only [Option.map_some', Option.some_inj] at hDM
      exact ⟨nd, rfl, hDM⟩
  rcases hfe : optT (some D) with _ | z
  · exact ⟨1, by rw [upchain_stop hfe]; rfl⟩
  · rw [optT_some_inj hfe] at hfe
    rcases hT with hTn | ⟨pid, F0, l0, hTp, hl0, hnin⟩
    · refine ⟨1, ?_⟩
      rw [upchain_found hfe hfD,
        upchain_stop (show optT (optT nd.parentId) = none from by
          rw [hnd, optT_idem, hTn])]
      rfl
    · have hpidD : pid ≠ D := by
        intro he
        rcases Option.isSome_iff_exists.mp hDs with ⟨ndD, hfDs⟩
        rw [he] at hl0
        rcases F0 with _ | F1
        · rw [upchain_zero_some hfe] at hl0
          exact Option.noConfusion hl0
        · rw [upchain_found hfe hfDs] at hl0
          rcases Option.map_eq_some'.mp hl0 with ⟨t, ht, hcons⟩
          exact hnin (hcons ▸ List.mem_cons_self D t)
      have hhd : ∀ z', optT (some pid) = some z' → z' ≠ D := by
        intro z' hzz
        rw [optT_some_inj hzz]
        exact hpidD
      have hchain := upchain_congr_avoid hpr hpsM F0 (some pid) l0 hl0 hnin hhd
      refine ⟨F0 + 1, ?_⟩
      rw [upchain_found hfe hfD]
      have hoeq : optT (optT nd.parentId) = optT (some pid) := by
        rw [hnd, optT_idem, hTp, optT_eq_some hTp]
      rw [upchain_arg_congr hoeq F0 M, hchain]
      rfl

/-- `moveNode` preserves chain termination on a forest store when the
new parent's old ancestor chain avoids the dragged node. -/
theorem chainsOK_moveNode {s : Store} (hf : Forest s)
    (hne0 : mfind s.nodes "" = none)
    (dragId : String) {parentId : Option String} (newIndex : Nat)
    (hmv : optT parentId = none ∨ ∃ q F0 l0, optT parentId = some q ∧
      upchain F0 s.nodes (some q) = some l0 ∧ dragId ∉ l0) :
    ChainsOK (moveNode s dragId parentId newIndex) := by
  obtain ⟨hcons, hck⟩ := hf
  have hpr := consistent_parentsResolve hcons
  unfold moveNode
  rcases hD : mfind s.nodes dragId with _ | node <;> simp only [hD]
  · exact hck
  · have hDs : (mfind s.nodes dragId).isSome = true := by
      rw [hD]
      rfl
    rcases hP0 : optT node.parentId with _ | op <;> simp only [hP0]
    · rcases hP : optT parentId with _ | pid <;> simp only [hP]
      · have hpsM : ∀ x, x ≠ dragId →
            pstruct (minsert s.nodes dragId { node with parentId := none }) x
              = pstruct s.nodes x :=
          fun x hx => pstruct_minsert_off _ hx
        have hDM : pstruct (minsert s.nodes dragId
            { node with parentId := none }) dragId = some (optT parentId) := by
          unfold pstruct
          rw [mfind_minsert, if_pos rfl, hP]
          rfl
        obtain ⟨G, hdg⟩ := drag_chain_terminates hpr hDs hpsM hDM hmv
        refine chainsOK_reroute hck hpsM hdg ?_ _
        intro k hk
        rw [mfind_minsert] at hk
        by_cases hkd : k = dragId
        · exact Or.inl hkd
        · rw [if_neg hkd] at hk
          exact Or.inr hk
      · have hm2D : pstruct (minsert s.nodes dragId
            { node with parentId := some pid }) dragId = some (optT parentId) := by
          unfold pstruct
          rw [mfind_minsert, if_pos rfl]
          simp only [Option.map_some']
          rw [optT_eq_some hP, hP]
        rcases hnp2 : mfind (minsert s.nodes dragId
            { node with parentId := some pid }) pid with _ | np2 <;>
          simp only [hnp2]
        · have hpsM : ∀ x, x ≠ dragId →
              pstruct (minsert s.nodes dragId { node with parentId := some pid }) x
                = pstruct s.nodes x :=
            fun x hx => pstruct_minsert_off _ hx
          obtain ⟨G, hdg⟩ := drag_chain_terminates hpr hDs hpsM hm2D hmv
          refine chainsOK_reroute hck hpsM hdg ?_ _
          intro k hk
          rw [mfind_minsert] at hk
          by_cases hkd : k = dragId
          · exact Or.inl hkd
          · rw [if_neg hkd] at hk
            exact Or.inr hk
        · have hpsM : ∀ x, x ≠ dragId →
              pstruct (minsert (minsert s.nodes dragId
                { node with parentId := some pid }) pid
                { np2 with children :=
                    np2.children.insertIdx (min newIndex np2.children.length) dragId }) x
                = pstruct s.nodes x := by
            intro x hx
            exact (pstruct_minsert_samePid hnp2
              (show ({ np2 with children :=
                  np2.children.insertIdx (min newIndex np2.children.length) dragId
                }).parentId = np2.parentId from rfl) x).trans
              (pstruct_minsert_off _ hx)
          have hDM : pstruct (minsert (minsert s.nodes dragId
              { node with parentId := some pid }) pid
              { np2 with children :=
                  np2.children.insertIdx (min newIndex np2.children.length) dragId })
              dragId = some (optT parentId) := by
            rw [pstruct_minsert_samePid hnp2
              (show ({ np2 with children :=
                  np2.children.insertIdx (min newIndex np2.children.length) dragId
                }).parentId = np2.parentId from rfl) dragId]
            exact hm2D
          obtain ⟨G, hdg⟩ := drag_chain_terminates hpr hDs hpsM hDM hmv
          refine chainsOK_reroute hck hpsM hdg ?_ _
          intro k hk
          rw [mfind_minsert] at hk
          by_cases hkp : k = pid
          · by_cases hpd : pid = dragId
            · exact Or.inl (hkp.trans hpd)
            · right
              rw [mfind_minsert, if_neg hpd] at hnp2
              rw [hkp, hnp2]
              rfl
          · rw [if_neg hkp, mfind_minsert] at hk
            by_cases hkd : k = dragId
            · exact Or.inl hkd
            · rw [if_neg hkd] at hk
              exact Or.inr hk
    · have h1 := ((consistent_iff_flat s).mp hcons).1 dragId node hD
      rcases hop : mfind s.nodes op with _ | nop
      · rw [containerCount_child hD hP0, childCountOf_missing dragId hop] at h1
        exact absurd h1 (by decide)
      · simp only [hop]
        have hopD : dragId ≠ op := by
          intro he
          exact no_self_parent hck hne0 hD (by rw [hP0, he])
        have hps0 : ∀ x, pstruct (minsert s.nodes op
            { nop with children := nop.children.filter (fun c => c != dragId) }) x
            = pstruct s.nodes x :=
          pstruct_minsert_samePid hop
            (show ({ nop with children :=
                nop.children.filter (fun c => c != dragId) }).parentId = nop.parentId
              from rfl)
        have hD1 : mfind (minsert s.nodes op
            { nop with children := nop.children.filter (fun c => c != dragId) }) dragId
            = some node := by
          rw [mfind_minsert, if_neg hopD]
          exact hD
        rcases hP : optT parentId with _ | pid <;> simp only [hP]
        · have hpsM : ∀ x, x ≠ dragId →
              pstruct (minsert (minsert s.nodes op
                { nop with children := nop.children.filter (fun c => c != dragId) })
                dragId { node with parentId := none }) x
                = pstruct s.nodes x := by
            intro x hx
            exact (pstruct_minsert_off _ hx).trans (hps0 x)
          have hDM : pstruct (minsert (minsert s.nodes op
              { nop with children := nop.children.filter (fun c => c != dragId) })
              dragId { node with parentId := none }) dragId = some (optT parentId) := by
            unfold pstruct
            rw [mfind_minsert, if_pos rfl, hP]
            rfl
          obtain ⟨G, hdg⟩ := drag_chain_terminates hpr hDs hpsM hDM hmv
          refine chainsOK_reroute hck hpsM hdg ?_ _
          intro k hk
          rw [mfind_minsert] at hk
          by_cases hkd : k = dragId
          · exact Or.inl hkd
          · rw [if_neg hkd, mfind_minsert] at hk
            by_cases hko : k = op
            · right
              rw [hko, hop]
              rfl
            · rw [if_neg hko] at hk
              exact Or.inr hk
        · have hm2D : pstruct (minsert (minsert s.nodes op
              { nop with children := nop.children.filter (fun c => c != dragId) })
              dragId { node with parentId := some pid }) dragId
              = some (optT parentId) := by
            unfold pstruct
            rw [mfind_minsert, if_pos rfl]
            simp only [Option.map_some']
            rw [optT_eq_some hP, hP]
          rcases hnp2 : mfind (minsert (minsert s.nodes op
              { nop with children := nop.children.filter (fun c => c != dragId) })
              dragId { node with parentId := some pid }) pid with _ | np2 <;>
            simp only [hnp2]
          · have hpsM : ∀ x, x ≠ dragId →
                pstruct (minsert (minsert s.nodes op
                  { nop with children := nop.children.filter (fun c => c != dragId) })
                  dragId { node with parentId := some pid }) x
                  = pstruct s.nodes x := by
              intro x hx
              exact (pstruct_minsert_off _ hx).trans (hps0 x)
            obtain ⟨G, hdg⟩ := drag_chain_terminates hpr hDs hpsM hm2D hmv
            refine chainsOK_reroute hck hpsM hdg ?_ _
            intro k hk
            rw [mfind_minsert] at hk
            by_cases hkd : k = dragId
            · exact Or.inl hkd
            · rw [if_neg hkd, mfind_minsert] at hk
              by_cases hko : k = op
              · right
                rw [hko, hop]
                rfl
              · rw [if_neg hko] at hk
                exact Or.inr hk
          · have hpsM : ∀ x, x ≠ dragId →
                pstruct (minsert (minsert (minsert s.nodes op
                  { nop with children := nop.children.filter (fun c => c != dragId) })
                  dragId { node with parentId := some pid }) pid
                  { np2 with children :=
                      np2.children.insertIdx (min newIndex np2.children.length) dragId })
                  x = pstruct s.nodes x := by
              intro x hx
              exact (pstruct_minsert_samePid hnp2
                (show ({ np2 with children :=
                    np2.children.insertIdx (min newIndex np2.children.length) dragId
                  }).parentId = np2.parentId from rfl) x).trans
                ((pstruct_minsert_off _ hx).trans (hps0 x))
            have hDM : pstruct (minsert (minsert (minsert s.nodes op
                { nop with children := nop.children.filter (fun c => c != dragId) })
                dragId { node with parentId := some pid }) pid
                { np2 with children :=
                    np2.children.insertIdx (min newIndex np2.children.length) dragId })
                dragId = some (optT parentId) := by
              rw [pstruct_minsert_samePid hnp2
                (show ({ np2 with children :=
                    np2.children.insertIdx (min newIndex np2.children.length) dragId
                  }).parentId = np2.parentId from rfl) dragId]
              exact hm2D
            obtain ⟨G, hdg⟩ := drag_chain_terminates hpr hDs hpsM hDM hmv
            refine chainsOK_reroute hck hpsM hdg ?_ _
            intro k hk
            rw [mfind_minsert] at hk
            by_cases hkp : k = pid
            · by_cases hpd : pid = dragId
              · exact Or.inl (hkp.trans hpd)
              · right
                rw [mfind_minsert, if_neg hpd] at hnp2
                by_cases hpo : pid = op
                · rw [hkp, hpo, hop]
                  rfl
                · rw [mfind_minsert, if_neg hpo] at hnp2
                  rw [hkp, hnp2]
                  rfl
            · rw [if_neg hkp, mfind_minsert] at hk
              by_cases hkd : k = dragId
              · exact Or.inl hkd
              · rw [if_neg hkd, mfind_minsert] at hk
                by_cases hko : k = op
                · right
                  rw [hko, hop]
                  rfl
                · rw [if_neg hko] at hk
                  exact Or.inr hk

/-- Side conditions for forest preservation: the consistency conditions
`opOK`, and additionally for `moveNode` that the new parent's old
ancestor chain avoids the dragged node (it is not the dragged node or
one of its descendants). -/
def OpOK3 (s : Store) : Op → Prop
  | .move dg p i =>
    opOK s (.move dg p i) = true ∧
      (optT p = none ∨ ∃ q F l, optT p = some q ∧
        upchain F s.nodes (some q) = some l ∧ dg ∉ l)
  | op => opOK s op = true

/-- C3 (amended): the claim is false for the raw operations —
`moveNode` into the dragged node's own subtree closes a `parentId`
cycle (see the counterexample) — but every operation preserves the full
forest invariant under `OpOK3`: the `opOK` conditions plus, for
`moveNode`, that the new parent is not the dragged node or one of its
descendants. -/
theorem forest_preserved (s : Store) (op : Op) (hf : Forest s)
    (hne0 : mfind s.nodes "" = none) (hok : OpOK3 s op) :
    Forest (applyOp s op) := by
  cases op with
  | add f p ty d now =>
    have hok2 : opOK s (.add f p ty d now) = true := hok
    simp only [opOK, Bool.and_eq_true] at hok2
    obtain ⟨⟨⟨hfr, hpar⟩, hch⟩, hpid⟩ := hok2
    have hfr2 := Option.isNone_iff_eq_none.mp hfr
    have hpar2 : ∀ q, optT p = some q → (mfind s.nodes q).isSome = true := by
      intro q hq
      unfold presentOrNone at hpar
      simp only [hq] at hpar
      exact hpar
    exact ⟨consistent_addNode hf.1 ty now hfr2 hpar2 (Option.isNone_iff_eq_none.mp hch)
        (Option.isNone_iff_eq_none.mp hpid),
      chainsOK_addNode hf ty now hfr2 hpar2 (Option.isNone_iff_eq_none.mp hpid)⟩
  | update id d =>
    have hok2 : opOK s (.update id d) = true := hok
    simp only [opOK, Bool.and_eq_true] at hok2
    obtain ⟨hch, hpid⟩ := hok2
    exact ⟨consistent_updateNode hf.1 id (Option.isNone_iff_eq_none.mp hch)
        (Option.isNone_iff_eq_none.mp hpid),
      chainsOK_updateNode hf.2 id (Option.isNone_iff_eq_none.mp hpid)⟩
  | del id => exact ⟨consistent_deleteNode hf hne0 id, chainsOK_deleteNode hf hne0 id⟩
  | move dg p i =>
    obtain ⟨hok2, hmv⟩ := hok
    simp only [opOK] at hok2
    have hpar2 : ∀ q, optT p = some q → (mfind s.nodes q).isSome = true := by
      intro q hq
      unfold presentOrNone at hok2
      simp only [hq] at hok2
      exact hok2
    exact ⟨consistent_moveNode hf hne0 dg i hpar2, chainsOK_moveNode hf hne0 dg i hmv⟩
  | toggle id => exact ⟨consistent_toggleExpand hf.1 id, chainsOK_toggleExpand hf.2 id⟩
  | start id now =>
    exact ⟨consistent_startTimer hf.1 id now, chainsOK_startTimer hf.2 id now⟩
  | stop id => exact ⟨consistent_stopTimer hf.1 id, chainsOK_stopTimer hf.2 id⟩

/-- Witness for `forest_preserved`: moving the leaf `B` under the root
`G` of the demo store keeps the forest invariant. -/
theorem forest_preserved_witness :
    (Forest demoStore ∧ mfind demoStore.nodes "" = none ∧
      OpOK3 demoStore (Op.move "B" (some "G") 0)) ∧
    Forest (applyOp demoStore (Op.move "B" (some "G") 0)) :=
  ⟨⟨⟨by decide, 5, by decide⟩, by decide,
    ⟨by decide, Or.inr ⟨"G", 1, ["G"], by decide, by decide, by decide⟩⟩⟩,
   forest_preserved demoStore (Op.move "B" (some "G") 0)
     ⟨by decide, 5, by decide⟩ (by decide)
     ⟨by decide, Or.inr ⟨"G", 1, ["G"], by decide, by decide, by decide⟩⟩⟩

/-- A two-node forest: root `a` with single child `b`. -/
def cyc0 : Store :=
  ⟨[("a", mkNode "a" none ["b"] 0 none), ("b", mkNode "b" (some "a") [] 0 none)], ["a"]⟩

/-- The store `moveNode cyc0 "a" (some "b") 0` commits: `a` and `b`
point at each other and `rootIds` is empty. -/
def cycRes : Store :=
  ⟨[("a", { mkNode "a" none ["b"] 0 none with parentId := some "b" }),
    ("b", { mkNode "b" (some "a") [] 0 none with children := ["a"] })], []⟩

theorem cyc0_move_eq : moveNode cyc0 "a" (some "b") 0 = cycRes := by decide

theorem cycRes_chains : ∀ F, upchain F cycRes.nodes (some "a") = none ∧
    upchain F cycRes.nodes (some "b") = none := by
  intro F
  induction F with
  | zero =>
    exact ⟨upchain_zero_some (show optT (some "a") = some "a" from by decide),
      upchain_zero_some (show optT (some "b") = some "b" from by decide)⟩
  | succ f ih =>
    constructor
    · rw [upchain_found (show optT (some "a") = some "a" from by decide)
        (show mfind cycRes.nodes "a" = some { mkNode "a" none ["b"] 0 none with
          parentId := some "b" } from by decide),
        upchain_arg_congr (show optT (optT ({ mkNode "a" none ["b"] 0 none with
          parentId := some "b" } : Node).parentId) = optT (some "b") from by decide)
          f cycRes.nodes, ih.2]
      rfl
    · rw [upchain_found (show optT (some "b") = some "b" from by decide)
        (show mfind cycRes.nodes "b" = some { mkNode "b" (some "a") [] 0 none with
          children := ["a"] } from by decide),
        upchain_arg_congr (show optT (optT ({ mkNode "b" (some "a") [] 0 none with
          children := ["a"] } : Node).parentId) = optT (some "a") from by decide)
          f cycRes.nodes, ih.1]
      rfl

/-- C3 as stated is false: moving a node under its own descendant has no
cycle guard, so `moveNode` on the two-node forest `cyc0` commits a
`parentId` cycle and no chain from `a` or `b` terminates. -/
theorem moveNode_into_descendant_breaks_forest :
    Forest cyc0 ∧ ¬ Forest (moveNode cyc0 "a" (some "b") 0) := by
  constructor
  · exact ⟨by decide, 2, by decide⟩
  · rintro ⟨hc, F, hall⟩
    have hmem : "a" ∈ mkeys (moveNode cyc0 "a" (some "b") 0).nodes := by
      rw [cyc0_move_eq]
      decide
    have h2 := hall "a" hmem
    rw [cyc0_move_eq, (cycRes_chains F).1] at h2
    exact Bool.noConfusion h2

end OKR
